import Mathlib

/-!
# Melloc: size classes, bins, arena and thread cache

A shallow embedding of the allocator of `rationalmello/melloc`.

* Sizes, counts and addresses are natural numbers; where the C++ computes in
  `std::size_t` or on a pointer the 64-bit wrap-around is written `% WORD`.
* A read past the end of a fixed-size array (undefined behaviour in C++) and a
  call of `exit(1)` are results of type `Fault`.
* `assert` is compiled out (a release build); `mellocPrint` is a no-op.
* The operating system is an oracle: the address a mapping call returns is an
  argument of the operation that issues the call.
-/

namespace Melloc

/-! ## melloc_defs.h -/

/-- The macro `PAGE_SIZE`, defined as `(4096U)`. -/
def PAGE_SIZE : Nat := 4096

/-- The macro `PAGE_MASK`, defined as `(0xFFFFF000)`: an `unsigned int`
literal, zero-extended when it meets a 64-bit operand. -/
def PAGE_MASK : Nat := 0xFFFFF000

/-- The macro `NUM_ARENAS`, defined as `(1)`. -/
def NUM_ARENAS : Nat := 1

/-- The macro `THREAD_CACHE_SIZE`, defined as `(static_cast<std::size_t>(16))`. -/
def THREAD_CACHE_SIZE : Nat := 16

/-- The macro `MMAP_MIN_OBJECTS_TAKEN`, defined as `(32)`. -/
def MMAP_MIN_OBJECTS_TAKEN : Nat := 32

/-- The table `static constexpr std::array<std::size_t, 28> smallSizeClasses`. -/
def smallSizeClasses : List Nat :=
  [8, 16, 32, 48, 64, 80, 96, 112, 128, 192, 256, 320, 384, 448, 512, 768,
   1024, 1280, 1536, 1792, 2048, 2304, 2560, 2816, 3072, 3328, 3584, 3840]

/-- The number of values of `std::size_t`, of `Page` and of a pointer,
`2 ^ 64`. -/
def WORD : Nat := 18446744073709551616

/-! ## melloc_utils.h -/

/-- The function `getPage(addr)`: `reinterpret_cast<Page>(addr) & PAGE_MASK`. -/
def getPage (addr : Nat) : Nat := addr &&& PAGE_MASK

/-- The function `isLargeSize(sz)`: `sz >= PAGE_SIZE`. -/
def isLargeSize (sz : Nat) : Bool := decide (PAGE_SIZE ≤ sz)

/-- The function `isOffPage(sz)`: `!(sz == (sz & PAGE_MASK))`. -/
def isOffPage (sz : Nat) : Bool := !(sz == (sz &&& PAGE_MASK))

/-- The function `increment(ptr, sz)`: pointer arithmetic on a 64-bit address. -/
def increment (ptr sz : Nat) : Nat := (ptr + sz) % WORD

/-- The function `decrement(ptr, sz)`: pointer arithmetic on a 64-bit address. -/
def decrement (ptr sz : Nat) : Nat := (ptr + WORD - sz % WORD) % WORD

/-- A C++ `bool` used as an integer. -/
def boolToNat (b : Bool) : Nat := if b then 1 else 0

/-! ## melloc.cpp: the classifier -/

/-- The tail of `Melloc::getBinIdx` shared by its three table branches:
`return bin + !(smallSizeClasses[bin] == sz);`. The table read is `none` when
`bin` is past the end of the 28-entry table. -/
def binCorrection (bin sz : Nat) : Option Nat :=
  match smallSizeClasses[bin]? with
  | some c => some (bin + boolToNat (!(c == sz)))
  | none => none

/-- The function `Melloc::getBinIdx(sz)`. -/
def getBinIdx (sz : Nat) : Option Nat :=
  if sz ≤ 8 then some 0
  else if sz ≤ 16 then some 1
  else if sz < 192 then binCorrection (1 + ((sz - 16) >>> 4)) sz
  else if sz < 768 then binCorrection (9 + ((sz - 192) >>> 6)) sz
  else binCorrection (15 + ((sz - 768) >>> 8)) sz

/-- The function `Melloc::roundup(sz)`. The small branch reads
`smallSizeClasses[getBinIdx(sz)]`, which is `none` when the index is past the
end of the table. -/
def roundup (sz : Nat) : Option Nat :=
  if isLargeSize sz then
    some (((sz + PAGE_SIZE * boolToNat (isOffPage sz)) % WORD) &&& PAGE_MASK)
  else
    match getBinIdx sz with
    | some i => smallSizeClasses[i]?
    | none => none

/-! ## Containers -/

/-- The member `std::map<void*, std::size_t> binFreeChunks`: the entries `(address,
consecutive)` in ascending order of address. -/
abbrev FreeList := List (Nat × Nat)

namespace FreeList

/-- The call `binFreeChunks.find(key)`: the mapped count, `none` for `end()`. -/
def find (fl : FreeList) (key : Nat) : Option Nat :=
  match fl with
  | [] => none
  | (k, v) :: rest => if k = key then some v else find rest key

/-- The call `binFreeChunks.emplace(key, v)` and `insert` of a node handle: the entry
is placed in key order, and nothing changes when the key is already there. -/
def emplace (fl : FreeList) (key v : Nat) : FreeList :=
  match fl with
  | [] => [(key, v)]
  | (k, c) :: rest =>
    if key < k then (key, v) :: (k, c) :: rest
    else if key = k then (k, c) :: rest
    else (k, c) :: emplace rest key v

/-- The call `binFreeChunks.erase(it)` for the iterator at `key`. -/
def erase (fl : FreeList) (key : Nat) : FreeList :=
  match fl with
  | [] => []
  | (k, c) :: rest => if k = key then rest else (k, c) :: erase rest key

/-- Assignment through an iterator, `it->second = v`, for the iterator at
`key`. -/
def assign (fl : FreeList) (key v : Nat) : FreeList :=
  match fl with
  | [] => []
  | (k, c) :: rest => if k = key then (k, v) :: rest else (k, c) :: assign rest key v

end FreeList

/-- The record `Melloc::Arena::PageDescriptor`. The flag `isSlab` selects the live member
of the union `sizeInfo`, so the two constructors are the two values of the
flag. -/
inductive PageDescriptor where
  /-- Constructed by `PageDescriptor(page, len, false)`. -/
  | large (page len : Nat)
  /-- Constructed by `PageDescriptor(page, binIdx, consecutive, true)`. -/
  | slab (page binIdx consecutive : Nat)
  deriving DecidableEq

namespace PageDescriptor

/-- The member `page`. -/
def page : PageDescriptor → Nat
  | large p _ => p
  | slab p _ _ => p

/-- The member `isSlab`. -/
def isSlab : PageDescriptor → Bool
  | large _ _ => false
  | slab _ _ _ => true

end PageDescriptor

/-- The member `std::set<PageDescriptor> arenaUsedPages`, in the order of the set: the
comparator is `page > other.page`, so pages descend. -/
abbrev UsedPages := List PageDescriptor

namespace UsedPages

/-- The call `arenaUsedPages.emplace(...)`: the descriptor is placed in the order of
the reversed comparator; a descriptor with an equivalent key (the same
`page`) keeps its place and the new one is dropped. -/
def emplace (used : UsedPages) (d : PageDescriptor) : UsedPages :=
  match used with
  | [] => [d]
  | e :: rest =>
    if e.page < d.page then d :: e :: rest
    else if e.page = d.page then e :: rest
    else e :: emplace rest d

/-- The call `arenaUsedPages.lower_bound(page)`: the first descriptor `e` of the set
order for which `e < PageDescriptor(page)`, that is `e.page > page`, is false;
`none` for `end()`. -/
def lowerBound (used : UsedPages) (page : Nat) : Option PageDescriptor :=
  match used with
  | [] => none
  | e :: rest => if e.page > page then lowerBound rest page else some e

end UsedPages

/-- Assignment to one element of an array, `a[i] = v`. -/
def setAt {α : Type} (a : Nat → α) (i : Nat) (v : α) : Nat → α :=
  fun j => if j = i then v else a j

/-- The ways a call can end other than by returning. -/
inductive Fault where
  /-- The call reached `exit(1)`. -/
  | exit
  /-- The call read or wrote past the end of an array, or dereferenced
  `end()`. -/
  | undefined
  deriving DecidableEq

/-- A call to the operating system, recorded in the order made. -/
inductive OsCall where
  /-- The call `sbrk(size)` returned `base`. -/
  | sbrk (size base : Nat)
  /-- The call `mmap(nullptr, size, ...)` returned `base`. -/
  | mmap (size base : Nat)
  /-- The call `munmap(ptr, len)` was made. -/
  | munmap (ptr len : Nat)
  deriving DecidableEq

/-- The constant `MAP_FAILED` of `<sys/mman.h>`, `(void*) -1`: the value `mmap`
returns when it maps nothing. -/
def MAP_FAILED : Nat := WORD - 1

/-- The test `munmap(ptr, len) == -1` of `Arena::deallocate`: the system call
fails (`EINVAL`) when `ptr` is not a multiple of the page size or `len` is 0;
otherwise it is taken to succeed, whether or not the range holds mapped
pages. -/
def munmapFails (ptr len : Nat) : Bool := !(ptr % PAGE_SIZE == 0) || len == 0

/-! ## bin.cpp -/

/-- The local `sizeLim` of `Bin::allocate` and `Arena::init`:
`PAGE_SIZE / MMAP_MIN_OBJECTS_TAKEN`. -/
def sizeLim : Nat := PAGE_SIZE / MMAP_MIN_OBJECTS_TAKEN

/-- The local `slab` of `Bin::allocate` and `Arena::init`: `PAGE_SIZE` when
`sizeClass < sizeLim`, else
`((32 * sizeClass) & PAGE_MASK) + PAGE_SIZE * (isOffPage(32 * sizeClass))`. -/
def slabSize (sizeClass : Nat) : Nat :=
  if sizeClass < sizeLim then PAGE_SIZE
  else
    ((((32 * sizeClass) % WORD) &&& PAGE_MASK)
      + PAGE_SIZE * boolToNat (isOffPage ((32 * sizeClass) % WORD))) % WORD

/-- The local `consecutive` of `Bin::allocate` and `Arena::init`: 1 when
`sizeClass < sizeLim`, else `slab / PAGE_SIZE`. -/
def slabConsecutive (sizeClass : Nat) : Nat :=
  if sizeClass < sizeLim then 1 else slabSize sizeClass / PAGE_SIZE

/-- The local `objs` of `Bin::allocate` and `Arena::init`:
`PAGE_SIZE / sizeClass` when `sizeClass < sizeLim`, else `slab / sizeClass`;
both are `slab / sizeClass`. -/
def slabObjs (sizeClass : Nat) : Nat := slabSize sizeClass / sizeClass

/-- The read `smallSizeClasses[binIdx]` of a bin; bins exist for the indices
of the table only. -/
def sizeClassOf (binIdx : Nat) : Nat := smallSizeClasses.getD binIdx 0

/-- The result of `Bin::allocate`: the returned address, the bin's free-list,
the arena's used pages, and the calls made to the operating system. -/
structure BinAllocation where
  /-- The returned address `out`. -/
  out : Nat
  /-- The member `binFreeChunks` after the call. -/
  binFreeChunks : FreeList
  /-- The member `arenaUsedPages` of the owning arena after the call. -/
  arenaUsedPages : UsedPages
  /-- The calls to the operating system. -/
  osCalls : List OsCall

/-- The function `Melloc::Arena::Bin::allocate()` of the bin `binIdx` with
free-list `fl`, in an arena with used pages `used`. The lowest-address entry
(`binFreeChunks.begin()`) is the head of the list; extracting or erasing it
leaves the tail. The address `os` is what `mmap` returns when the call asks
for a slab. -/
def Bin.allocate (binIdx : Nat) (fl : FreeList) (used : UsedPages) (os : Nat) :
    BinAllocation :=
  let sizeClass := sizeClassOf binIdx
  match fl with
  | (out, consecutive) :: rest =>
    let c := (consecutive + WORD - 1) % WORD
    if c > 0 then
      { out := out
        binFreeChunks := FreeList.emplace rest (increment out sizeClass) c
        arenaUsedPages := used
        osCalls := [] }
    else
      { out := out
        binFreeChunks := rest
        arenaUsedPages := used
        osCalls := [] }
  | [] =>
    let slab := slabSize sizeClass
    let objs := slab / sizeClass
    { out := os
      binFreeChunks := FreeList.emplace fl (increment os sizeClass) ((objs + WORD - 1) % WORD)
      arenaUsedPages :=
        UsedPages.emplace used (.slab (getPage os) binIdx (slabConsecutive sizeClass))
      osCalls := [.mmap slab os] }

/-- The function `Melloc::Arena::Bin::giveBack(ptr)` of the bin `binIdx` with
free-list `fl`. -/
def Bin.giveBack (binIdx : Nat) (fl : FreeList) (ptr : Nat) : FreeList :=
  let sizeClass := sizeClassOf binIdx
  let l := decrement ptr sizeClass
  let r := increment ptr sizeClass
  let left := FreeList.find fl l
  let right := FreeList.find fl r
  let fl1 :=
    match left with
    | some lc => FreeList.assign fl l ((lc + 1) % WORD)
    | none => fl
  match right with
  | none => fl1
  | some rc =>
    let fl2 :=
      match left with
      | some lc => FreeList.assign fl1 l (((lc + 1) % WORD + rc) % WORD)
      | none => FreeList.emplace fl1 ptr ((1 + rc) % WORD)
    FreeList.erase fl2 r

/-! ## thread_descriptor.cpp -/

/-- The members of `Melloc::ThreadDescriptor` that the cache uses:
`cache[i][j]`, `topIdxs[i]` and `decayRate[i]`. -/
structure ThreadDescriptor where
  /-- The member `cache`, 28 arrays of `THREAD_CACHE_SIZE` addresses. -/
  cache : Nat → Nat → Nat
  /-- The member `topIdxs`. -/
  topIdxs : Nat → Nat
  /-- The member `decayRate`. -/
  decayRate : Nat → Nat

/-- The constructor `ThreadDescriptor(tid)`: the three arrays are
zero-initialised (`{0}`). -/
def ThreadDescriptor.new : ThreadDescriptor :=
  { cache := fun _ _ => 0, topIdxs := fun _ => 0, decayRate := fun _ => 0 }

/-- The function `Melloc::ThreadDescriptor::popCache(sizeClassIdx)`: the
returned address (0 for `nullptr`) and the descriptor after the call. The
read `cache[sizeClassIdx][topIdx]` is undefined for
`topIdx >= THREAD_CACHE_SIZE`. -/
def ThreadDescriptor.popCache (td : ThreadDescriptor) (sizeClassIdx : Nat) :
    Except Fault (Nat × ThreadDescriptor) :=
  let td1 : ThreadDescriptor := { td with decayRate := setAt td.decayRate sizeClassIdx 1 }
  let topIdx := td1.topIdxs sizeClassIdx
  if topIdx > 0 then
    if topIdx < THREAD_CACHE_SIZE then
      .ok (td1.cache sizeClassIdx topIdx,
           { td1 with topIdxs := setAt td1.topIdxs sizeClassIdx (topIdx - 1) })
    else .error .undefined
  else .ok (0, td1)

/-- The function `Melloc::ThreadDescriptor::pushCache(ptr, sizeClassIdx)` on
the descriptor `td` and the bins `bins` of its arena: the descriptor and the
bins after the call. -/
def ThreadDescriptor.pushCache (td : ThreadDescriptor) (bins : Nat → FreeList)
    (ptr sizeClassIdx : Nat) : ThreadDescriptor × (Nat → FreeList) :=
  let td1 : ThreadDescriptor := { td with decayRate := setAt td.decayRate sizeClassIdx 1 }
  let topIdx := td1.topIdxs sizeClassIdx
  if topIdx < THREAD_CACHE_SIZE then
    ({ td1 with
        topIdxs := setAt td1.topIdxs sizeClassIdx (topIdx + 1)
        cache := setAt td1.cache sizeClassIdx (setAt (td1.cache sizeClassIdx) topIdx ptr) },
     bins)
  else
    (td1, setAt bins sizeClassIdx (Bin.giveBack sizeClassIdx (bins sizeClassIdx) ptr))

/-- The indices `j` of the reads `cache[i][j]` of one class in `purge()`, in
the order made: the loop `for ( ; topIdx > botIdx; --topIdx)` and then the read
at `botIdx`. -/
def purgeIndices (topIdx botIdx : Nat) : List Nat :=
  (List.range (topIdx - botIdx)).map (fun k => topIdx - k) ++ [botIdx]

/-- The body of the loop of `Melloc::ThreadDescriptor::purge()` for the class
`i`: nothing when `topIdxs[i]` is 0; else `discards` entries, from
`cache[i][topIdxs[i] - 1]` down to `cache[i][botIdx]`, go to `bins[i].giveBack`,
`topIdxs[i]` becomes `botIdx` and `decayRate[i]` becomes
`std::max(THREAD_CACHE_SIZE, decayRate[i] << 1)`. As `discards` is at most
`topIdxs[i]`, the difference `1 + topIdx - discards` does not wrap. A read
`cache[i][j]` is undefined for `j >= THREAD_CACHE_SIZE`. -/
def ThreadDescriptor.purgeClass (td : ThreadDescriptor) (bins : Nat → FreeList) (i : Nat) :
    Except Fault (ThreadDescriptor × (Nat → FreeList)) :=
  if td.topIdxs i = 0 then .ok (td, bins)
  else
    let discards := min (td.decayRate i) (td.topIdxs i)
    let topIdx := td.topIdxs i - 1
    let botIdx := 1 + topIdx - discards
    let reads := purgeIndices topIdx botIdx
    if reads.all (fun j => decide (j < THREAD_CACHE_SIZE)) then
      .ok ({ td with
              topIdxs := setAt td.topIdxs i botIdx
              decayRate :=
                setAt td.decayRate i (max THREAD_CACHE_SIZE ((td.decayRate i <<< 1) % WORD)) },
           setAt bins i (reads.foldl (fun fl j => Bin.giveBack i fl (td.cache i j)) (bins i)))
    else .error .undefined

/-- The arguments of the calls `bins[i].giveBack(cache[i][j])` that `purge()`
makes for the class `i`, in the order made: none when `topIdxs[i]` is 0, else
the entries read at the indices of the loop and at `botIdx`. -/
def ThreadDescriptor.purgeReturned (td : ThreadDescriptor) (i : Nat) : List Nat :=
  if td.topIdxs i = 0 then []
  else
    let discards := min (td.decayRate i) (td.topIdxs i)
    let topIdx := td.topIdxs i - 1
    let botIdx := 1 + topIdx - discards
    (purgeIndices topIdx botIdx).map (td.cache i)

/-- The passage of the loop of `purge()` to the class `i`: the body runs on
the state the classes before it left, unless one of them did not return. -/
def ThreadDescriptor.purgeNext (acc : Except Fault (ThreadDescriptor × (Nat → FreeList)))
    (i : Nat) : Except Fault (ThreadDescriptor × (Nat → FreeList)) :=
  match acc with
  | .ok r => ThreadDescriptor.purgeClass r.1 r.2 i
  | .error e => .error e

/-- The function `Melloc::ThreadDescriptor::purge()`: the loop over the 28
size classes. -/
def ThreadDescriptor.purge (td : ThreadDescriptor) (bins : Nat → FreeList) :
    Except Fault (ThreadDescriptor × (Nat → FreeList)) :=
  (List.range smallSizeClasses.length).foldl ThreadDescriptor.purgeNext (.ok (td, bins))

/-- The function `Melloc::ThreadDescriptor::decay(sizeClassIdx)`:
`topIdxs[i] -= std::min(topIdxs[i], decayRate[i])` and
`decayRate[i] = std::max(decayRate[i] << 1, THREAD_CACHE_SIZE)`. -/
def ThreadDescriptor.decay (td : ThreadDescriptor) (sizeClassIdx : Nat) : ThreadDescriptor :=
  { td with
    topIdxs := setAt td.topIdxs sizeClassIdx
      (td.topIdxs sizeClassIdx - min (td.topIdxs sizeClassIdx) (td.decayRate sizeClassIdx))
    decayRate := setAt td.decayRate sizeClassIdx
      (max ((td.decayRate sizeClassIdx <<< 1) % WORD) THREAD_CACHE_SIZE) }

/-- The index `j` of the read `cache[sizeClassIdx][j]` of `popCache`: the value
of `topIdxs[sizeClassIdx]` before the decrement; `none` when the class holds no
entry and nothing is read. -/
def ThreadDescriptor.popCacheRead (td : ThreadDescriptor) (sizeClassIdx : Nat) : Option Nat :=
  if td.topIdxs sizeClassIdx > 0 then some (td.topIdxs sizeClassIdx) else none

/-- The index `j` of the write `cache[sizeClassIdx][j] = ptr` of `pushCache`:
the value of `topIdxs[sizeClassIdx]` before the increment; `none` when the
class is full and the pointer goes to the bin. -/
def ThreadDescriptor.pushCacheWrite (td : ThreadDescriptor) (sizeClassIdx : Nat) : Option Nat :=
  if td.topIdxs sizeClassIdx < THREAD_CACHE_SIZE then some (td.topIdxs sizeClassIdx) else none

/-- The indices `j` of the reads `cache[i][j]` of `purge()` for the class `i`,
in the order made. -/
def ThreadDescriptor.purgeReads (td : ThreadDescriptor) (i : Nat) : List Nat :=
  if td.topIdxs i = 0 then []
  else
    let discards := min (td.decayRate i) (td.topIdxs i)
    let topIdx := td.topIdxs i - 1
    let botIdx := 1 + topIdx - discards
    purgeIndices topIdx botIdx

/-! ## arena.cpp -/

/-- The members of `Melloc::Arena` that allocation uses: `bins[i]` as the
free-list of bin `i` (whose `binIdx` is `i`), and `arenaUsedPages`. -/
structure Arena where
  /-- The member `bins`: `bins i` is `bins[i].binFreeChunks`. -/
  bins : Nat → FreeList
  /-- The member `arenaUsedPages`. -/
  arenaUsedPages : UsedPages

/-- One iteration of the loop of `Melloc::Arena::init()`, for the bin `i`;
`out` is what `sbrk(slab)` returns. -/
def Arena.initBin (a : Arena) (i out : Nat) : Arena :=
  let sizeClass := sizeClassOf i
  { bins := setAt a.bins i (FreeList.emplace (a.bins i) out (slabObjs sizeClass))
    arenaUsedPages :=
      UsedPages.emplace a.arenaUsedPages (.slab (getPage out) i (slabConsecutive sizeClass)) }

/-- The function `Melloc::Arena::init()`, run by the constructor on an arena
with empty bins and no used pages: `sbrk i` is what the call of `sbrk` for the
bin `i` returns. -/
def Arena.init (sbrk : Nat → Nat) : Arena :=
  (List.range smallSizeClasses.length).foldl (fun a i => Arena.initBin a i (sbrk i))
    { bins := fun _ => [], arenaUsedPages := [] }

/-- The members `bins[i].binIdx` after `Melloc::Arena::init()`: the loop
assigns `b.binIdx = i` for each of the 28 bins. -/
def Arena.initBinIdx : Nat → Nat :=
  (List.range smallSizeClasses.length).foldl (fun binIdx i => setAt binIdx i i) (fun _ => 0)

/-- The calls of `sbrk` made by `Melloc::Arena::init()`. -/
def Arena.initCalls (sbrk : Nat → Nat) : List OsCall :=
  (List.range smallSizeClasses.length).map
    (fun i => OsCall.sbrk (slabSize (sizeClassOf i)) (sbrk i))

/-- What `Melloc::Arena::deallocate(ptr)` does once it has looked `ptr` up. -/
inductive FreeAction where
  /-- The branch of lines 75 to 83: no descriptor at or below the page of
  `ptr`, or a slab that ends at or below it; the call ends in `exit(1)`. -/
  | invalidFree
  /-- The branch for a large descriptor: `munmap(ptr, len)`. -/
  | unmap (ptr len : Nat)
  /-- The branch for a slab: `tdw->pushCache(ptr, binIdx)`. -/
  | cachePush (ptr binIdx : Nat)
  deriving DecidableEq

/-- The decision of `Melloc::Arena::deallocate(ptr)`, from
`arenaUsedPages.lower_bound(getPage(ptr))` to the branch taken. -/
def Arena.freeAction (used : UsedPages) (ptr : Nat) : FreeAction :=
  match UsedPages.lowerBound used (getPage ptr) with
  | none => .invalidFree
  | some (.slab page binIdx consecutive) =>
    if (page + (consecutive * PAGE_SIZE) % WORD) % WORD ≤ getPage ptr then .invalidFree
    else .cachePush ptr binIdx
  | some (.large _ len) => .unmap ptr len

/-- The result of `Arena::deallocate`: the arena and the thread descriptor
after the call, and the calls made to the operating system. -/
structure Deallocation where
  /-- The arena after the call. -/
  arena : Arena
  /-- The thread descriptor after the call. -/
  td : ThreadDescriptor
  /-- The calls to the operating system. -/
  osCalls : List OsCall

/-- The function `Melloc::Arena::deallocate(ptr)`, with `td` the descriptor of
the calling thread. The fatal branch ends in `exit(1)`, and so does the branch
for a large descriptor when `munmap(ptr, len)` returns -1; a `munmap` that
succeeds leaves the arena as it is; `usedFlags[binIdx]` and `bins[binIdx]` are
undefined for an index past the 28 bins. -/
def Arena.deallocate (a : Arena) (td : ThreadDescriptor) (ptr : Nat) :
    Except Fault Deallocation :=
  match Arena.freeAction a.arenaUsedPages ptr with
  | .invalidFree => .error .exit
  | .unmap p len =>
    if munmapFails p len then .error .exit
    else .ok { arena := a, td := td, osCalls := [.munmap p len] }
  | .cachePush p binIdx =>
    if smallSizeClasses.length ≤ binIdx then .error .undefined
    else
      let r := td.pushCache a.bins p binIdx
      .ok { arena := { a with bins := r.2 }, td := r.1, osCalls := [] }

/-- The result of `Arena::allocate`: the returned address, the arena and the
thread descriptor after the call, and the calls made to the operating
system. -/
structure Allocation where
  /-- The returned address `out`. -/
  out : Nat
  /-- The arena after the call. -/
  arena : Arena
  /-- The thread descriptor after the call. -/
  td : ThreadDescriptor
  /-- The calls to the operating system. -/
  osCalls : List OsCall

/-- The function `Melloc::Arena::allocate(sz, tdw)`. The address `os` is what
`mmap` returns when the call maps memory (a large object, or a slab inside
`Bin::allocate`). For a large object the call ends in `exit(1)` when `mmap`
returns `MAP_FAILED`; `Bin::allocate` makes no such test. The accesses
`bins[binIdx]` and `usedFlags[binIdx]` are undefined for an index past the 28
bins. -/
def Arena.allocate (a : Arena) (td : ThreadDescriptor) (sz os : Nat) :
    Except Fault Allocation :=
  if isLargeSize sz then
    if os = MAP_FAILED then .error .exit
    else
      .ok { out := os
            arena := { a with
              arenaUsedPages := UsedPages.emplace a.arenaUsedPages (.large (getPage os) sz) }
            td := td
            osCalls := [.mmap sz os] }
  else
    match getBinIdx sz with
    | none => .error .undefined
    | some binIdx =>
      if smallSizeClasses.length ≤ binIdx then .error .undefined
      else
        match td.popCache binIdx with
        | .error e => .error e
        | .ok (out, td1) =>
          if out ≠ 0 then .ok { out := out, arena := a, td := td1, osCalls := [] }
          else
            let r := Bin.allocate binIdx (a.bins binIdx) a.arenaUsedPages os
            .ok { out := r.out
                  arena := { bins := setAt a.bins binIdx r.binFreeChunks
                             arenaUsedPages := r.arenaUsedPages }
                  td := td1
                  osCalls := r.osCalls }

/-! ## melloc.cpp: the facade -/

/-- The static members of `Melloc` as one running thread sees them:
`arenas[0]` (`NUM_ARENAS` is 1 and `getArena()` returns 0), the entry of
`threadDescriptors` for the thread (`none` before its first allocation), and
the log of the calls made to the operating system. -/
structure Allocator where
  /-- The member `arenas[0]`. -/
  arena : Arena
  /-- The entry `threadDescriptors.find(tid)`, `none` for `end()`. -/
  threadDescriptor : Option ThreadDescriptor
  /-- The calls to the operating system so far, oldest first. -/
  osCalls : List OsCall

/-- The state after construction of the static members and of the `Melloc`
object: the arena has run `init`, no thread is registered. -/
def Allocator.new (sbrk : Nat → Nat) : Allocator :=
  { arena := Arena.init sbrk, threadDescriptor := none, osCalls := Arena.initCalls sbrk }

/-- The function `Melloc::allocate(n)`; `os` is what `mmap` returns if the call
maps memory. -/
def allocate (s : Allocator) (n os : Nat) : Except Fault (Nat × Allocator) :=
  match roundup n with
  | none => .error .undefined
  | some sz =>
    let td :=
      match s.threadDescriptor with
      | some td => td
      | none => ThreadDescriptor.new
    match Arena.allocate s.arena td sz os with
    | .error e => .error e
    | .ok r =>
      .ok (r.out,
           { arena := r.arena, threadDescriptor := some r.td, osCalls := s.osCalls ++ r.osCalls })

/-- The function `Melloc::deallocate(ptr)`. The lookup of the thread descriptor
dereferences `end()` when the thread never allocated. -/
def deallocate (s : Allocator) (ptr : Nat) : Except Fault Allocator :=
  match s.threadDescriptor with
  | none => .error .undefined
  | some td =>
    match Arena.deallocate s.arena td ptr with
    | .error e => .error e
    | .ok r =>
      .ok { arena := r.arena, threadDescriptor := some r.td, osCalls := s.osCalls ++ r.osCalls }

/-! ## Runs of one thread -/

/-- A call of the public interface: `allocate(n)`, with the address `os` the
operating system hands out if the call maps memory, or `deallocate(ptr)`. -/
inductive Op where
  /-- The call `Melloc::allocate(n)`. -/
  | allocate (n os : Nat)
  /-- The call `Melloc::deallocate(ptr)`. -/
  | deallocate (ptr : Nat)
  deriving DecidableEq

/-- An allocator together with the bookkeeping of its caller. -/
structure Run where
  /-- The allocator. -/
  state : Allocator
  /-- The pairs `(p, n)` with `p` returned by `allocate(n)` and not yet passed
  to `deallocate`, newest first. -/
  live : List (Nat × Nat)
  /-- Every pair `(p, n)` with `p` returned by `allocate(n)` so far, newest
  first. -/
  returned : List (Nat × Nat)

/-- Removal of the newest live pair of the pointer `ptr`. -/
def dropLive (live : List (Nat × Nat)) (ptr : Nat) : List (Nat × Nat) :=
  match live with
  | [] => []
  | (p, n) :: rest => if p = ptr then rest else (p, n) :: dropLive rest ptr

/-- One call of a valid run. The result is `none` when the call is
`deallocate` of a pointer that is not live (the run is not valid) and when the
allocator does not return (a `Fault`). -/
def Run.step (r : Run) (op : Op) : Option Run :=
  match op with
  | .allocate n os =>
    match allocate r.state n os with
    | .ok (p, s) => some { state := s, live := (p, n) :: r.live, returned := (p, n) :: r.returned }
    | .error _ => none
  | .deallocate ptr =>
    if ptr ∈ r.live.map Prod.fst then
      match deallocate r.state ptr with
      | .ok s => some { state := s, live := dropLive r.live ptr, returned := r.returned }
      | .error _ => none
    else none

/-- A sequence of calls, from left to right. -/
def Run.steps (r : Run) (ops : List Op) : Option Run :=
  match ops with
  | [] => some r
  | op :: rest =>
    match r.step op with
    | some r1 => r1.steps rest
    | none => none

/-- The run that starts at a freshly constructed allocator. -/
def Run.new (sbrk : Nat → Nat) : Run :=
  { state := Allocator.new sbrk, live := [], returned := [] }

/-- An oracle for `sbrk` as the system call behaves: the calls return
consecutive addresses from the initial break `brk0`, the call for bin `i`
returning the break moved by the slabs of the bins before it. -/
def contiguousBreak (brk0 : Nat) (i : Nat) : Nat :=
  brk0 + ((List.range i).map (fun j => slabSize (sizeClassOf j))).sum

/-! ## Runs of the thread cache -/

/-- A call on the thread descriptor: `pushCache(ptr, i)`, `popCache(i)`, or a
tick of the timer, `purge()`. -/
inductive CacheOp where
  /-- The call `pushCache(ptr, i)`. -/
  | pushCache (ptr i : Nat)
  /-- The call `popCache(i)`. -/
  | popCache (i : Nat)
  /-- The call `purge()`. -/
  | purge
  deriving DecidableEq

/-- Whether the call is `pushCache` or `popCache` on the class `i`. -/
def CacheOp.touches (op : CacheOp) (i : Nat) : Bool :=
  match op with
  | .pushCache _ j => decide (j = i)
  | .popCache j => decide (j = i)
  | .purge => false

/-- A thread descriptor and the bins of its arena. -/
structure CacheState where
  /-- The thread descriptor. -/
  td : ThreadDescriptor
  /-- The free-lists of the bins of its arena. -/
  bins : Nat → FreeList

/-- One call on the thread descriptor. The accesses `usedFlags[i]` of
`pushCache` and `popCache` are undefined for a class past the 28 classes. -/
def CacheState.step (s : CacheState) (op : CacheOp) : Except Fault CacheState :=
  match op with
  | .pushCache ptr i =>
    if smallSizeClasses.length ≤ i then .error .undefined
    else
      let r := s.td.pushCache s.bins ptr i
      .ok { td := r.1, bins := r.2 }
  | .popCache i =>
    if smallSizeClasses.length ≤ i then .error .undefined
    else
      match s.td.popCache i with
      | .ok r => .ok { td := r.2, bins := s.bins }
      | .error e => .error e
  | .purge =>
    match s.td.purge s.bins with
    | .ok r => .ok { td := r.1, bins := r.2 }
    | .error e => .error e

/-- A sequence of calls on the thread descriptor, from left to right. -/
def CacheState.steps (s : CacheState) (ops : List CacheOp) : Except Fault CacheState :=
  match ops with
  | [] => .ok s
  | op :: rest =>
    match s.step op with
    | .ok s1 => s1.steps rest
    | .error e => .error e

/-- The states a thread descriptor reaches from its construction by calls of
`pushCache`, `popCache` and `purge` that return. -/
def CacheState.Reachable (s : CacheState) : Prop :=
  ∃ bins ops, CacheState.steps { td := ThreadDescriptor.new, bins := bins } ops = .ok s

/-! ## Scenarios -/

/-- One pass of the loop of `main` in demo.cpp:
`p = Melloc::allocate(n); Melloc::deallocate(p);`, with `os` the address
`mmap` returns if the pass maps memory. -/
def allocateThenFree (s : Allocator) (n os : Nat) : Except Fault Allocator :=
  match allocate s n os with
  | .error e => .error e
  | .ok (p, s1) => deallocate s1 p

/-- The loop of `main` in demo.cpp, `count` passes of
`p = Melloc::allocate(n); Melloc::deallocate(p);`; `os k` is the address
`mmap` returns if pass `k` maps memory. -/
def demoLoop (s : Allocator) (n : Nat) (os : Nat → Nat) (count : Nat) :
    Except Fault Allocator :=
  match count with
  | 0 => .ok s
  | k + 1 =>
    match demoLoop s n os k with
    | .error e => .error e
    | .ok s1 => allocateThenFree s1 n (os k)

/-- A number `count` of consecutive calls of `Bin::allocate()` on one bin: the
addresses returned, in order, and the free-list left. -/
def Bin.allocateMany (binIdx : Nat) (fl : FreeList) (used : UsedPages) (os : Nat)
    (count : Nat) : List Nat × FreeList :=
  match count with
  | 0 => ([], fl)
  | k + 1 =>
    let r := Bin.allocate binIdx fl used os
    let rest := Bin.allocateMany binIdx r.binFreeChunks r.arenaUsedPages os k
    (r.out :: rest.1, rest.2)

/-- The calls `giveBack(p)` for the addresses of `ps`, from left to right. -/
def Bin.giveBackAll (binIdx : Nat) (fl : FreeList) (ps : List Nat) : FreeList :=
  ps.foldl (Bin.giveBack binIdx) fl

/-- An address `mmap` hands out in the examples. -/
def exampleMapping : Nat := 0x7ffff7a00000

/-- The seventeen allocations of class 3072 and the seventeen frees of the
overflow example: the chunks 1 to 16 of the bootstrap slab are freed first and
the chunk 0, at 93824992878592, last. -/
def overflowRun : List Op :=
  List.replicate 17 (Op.allocate 3000 0) ++
    (List.range 16).map (fun k => Op.deallocate (93824992878592 + 3072 * (k + 1))) ++
    [Op.deallocate 93824992878592]

/-- The thread descriptor of the decay example: two chunks of class 3072
pushed on the cache of a new descriptor. -/
def exampleCache : CacheState :=
  match CacheState.steps { td := ThreadDescriptor.new, bins := fun _ => [] }
      [.pushCache 93824992878592 24, .pushCache 93824992881664 24] with
  | .ok s => s
  | .error _ => { td := ThreadDescriptor.new, bins := fun _ => [] }

/-- The thread descriptor of the full-cache example: sixteen chunks of class
3072 pushed on the cache of a new descriptor. -/
def fullCache : CacheState :=
  match CacheState.steps { td := ThreadDescriptor.new, bins := fun _ => [] }
      ((List.range 16).map (fun k => CacheOp.pushCache (93824992878592 + 3072 * k) 24)) with
  | .ok s => s
  | .error _ => { td := ThreadDescriptor.new, bins := fun _ => [] }

/-- The calls of the reused-address example: `allocate(5000)` is served by
`mmap` at 0x40000000 and freed again, which unmaps it; then 32 calls
`allocate(3000)` use up the first slab of bin 24. -/
def freedMappingRun : List Op :=
  [Op.allocate 5000 0x40000000, Op.deallocate 0x40000000] ++
    List.replicate 32 (Op.allocate 3000 0)

/-! ## Notions of the specification -/

/-- The range of a descriptor as the specification words it:
`[base, base + consecutive * PAGE_SIZE)` for a slab and `[base, base + len)`
for a large allocation; `covers d p` says that `p` lies in the range of `d`. -/
def PageDescriptor.covers (d : PageDescriptor) (p : Nat) : Bool :=
  match d with
  | .slab base _ consecutive => decide (base ≤ p ∧ p < base + consecutive * PAGE_SIZE)
  | .large base len => decide (base ≤ p ∧ p < base + len)

/-- The alignment the specification asks of a pointer `p` returned for a
request of `n` bytes whose rounded size is `sz`: a request is large when its
rounded size is at least `PAGE_SIZE`, and then `p` is a multiple of
`PAGE_SIZE`; otherwise it is small, and `p` is a multiple of 8 and of
`min(SC[bin_idx(n)], 8)`. -/
def AlignedFor (p n sz : Nat) : Prop :=
  (isLargeSize sz = true → p % PAGE_SIZE = 0) ∧
  (isLargeSize sz = false →
    p % 8 = 0 ∧
    ∀ i c, getBinIdx n = some i → smallSizeClasses[i]? = some c → p % min c 8 = 0)

/-- The chunk at `p` is covered by an entry of the free-list: it lies in the
run `[a, a + k * sizeClass)` of an entry `(a, k)`. -/
def FreeList.coversChunk (sizeClass : Nat) (fl : FreeList) (p : Nat) : Bool :=
  fl.any (fun e => decide (e.1 ≤ p ∧ p < e.1 + e.2 * sizeClass))

/-- The sum of all counts of the free-list. -/
def FreeList.counts (fl : FreeList) : Nat := (fl.map Prod.snd).sum

/-- The keys of the free-list are pairwise different, as in a `std::map`. -/
def FreeList.KeysDistinct (fl : FreeList) : Prop := (fl.map Prod.fst).Nodup

/-- The keys of the free-list ascend, the order of iteration of a
`std::map<void*, std::size_t>`. -/
def FreeList.Ascending (fl : FreeList) : Prop :=
  (fl.map Prod.fst).Pairwise (fun a b => a < b)

/-- The runs `[a, a + k * sizeClass)` of the entries `(a, k)` of the free-list
are pairwise disjoint. -/
def FreeList.RunsDisjoint (sizeClass : Nat) (fl : FreeList) : Prop :=
  fl.Pairwise (fun e1 e2 =>
    e1.1 + e1.2 * sizeClass ≤ e2.1 ∨ e2.1 + e2.2 * sizeClass ≤ e1.1)

/-- The initial break of the examples, a page address of a 64-bit process. -/
def exampleBreak : Nat := 0x555555559000

/-- The initial break of a process whose addresses fit 32 bits. -/
def lowBreak : Nat := 0x2000000

/-- The used pages of an arena constructed at `lowBreak` after one call
`allocate(5000)` that `mmap` served at the address 0x40000000. -/
def exampleUsedPages : UsedPages :=
  UsedPages.emplace (Arena.init (contiguousBreak lowBreak)).arenaUsedPages
    (.large (getPage 0x40000000) 8192)

/-- The length in bytes of the range of a descriptor: `consecutive * PAGE_SIZE`
for a slab and `len` for a large allocation. -/
def PageDescriptor.size : PageDescriptor → Nat
  | .large _ len => len
  | .slab _ _ consecutive => consecutive * PAGE_SIZE

/-- The page ranges `[page, page + size)` of the descriptors of the index are
pairwise disjoint. -/
def UsedPages.RangesDisjoint (used : UsedPages) : Prop :=
  used.Pairwise (fun d e => d.page + d.size ≤ e.page ∨ e.page + e.size ≤ d.page)

/-- The region a call of `sbrk` or `mmap` hands to the allocator, as the index
keys it: the page key `getPage(base)` and the size. -/
def OsCall.region : OsCall → Option (Nat × Nat)
  | .sbrk size base => some (getPage base, size)
  | .mmap size base => some (getPage base, size)
  | .munmap _ _ => none

/-- The regions of all calls of `sbrk` and `mmap` of the log, unmapped since or
not, are pairwise disjoint as the index keys them: no region is handed out
twice and no two overlap. -/
def MappingsDisjoint (calls : List OsCall) : Prop :=
  (calls.filterMap OsCall.region).Pairwise
    (fun r1 r2 => r1.1 + r1.2 ≤ r2.1 ∨ r2.1 + r2.2 ≤ r1.1)

/-- The run of every entry `(a, k)` of the free-list holds at least one chunk
and lies inside one slab: `base <= a` and `a + k * sizeClass <= base + slab`
for the base of one slab of the bin. -/
def FreeList.RunsInOneSlab (sizeClass : Nat) (slabs : List Nat) (fl : FreeList) : Prop :=
  ∀ e ∈ fl, 1 ≤ e.2 ∧
    ∃ base ∈ slabs, base ≤ e.1 ∧ e.1 + e.2 * sizeClass ≤ base + slabSize sizeClass

/-- The slabs of a bin, each of `size` bytes, lie apart: they do not overlap
and none starts at the address where another ends. -/
def SlabsApart (size : Nat) (slabs : List Nat) : Prop :=
  slabs.Pairwise (fun b1 b2 => b1 + size < b2 ∨ b2 + size < b1)

/-- The slabs of a bin lie in the address space as mappings do: above the
first page, and with their end below `2 ^ 64`. -/
def SlabsInRange (size : Nat) (slabs : List Nat) : Prop :=
  ∀ b ∈ slabs, PAGE_SIZE ≤ b ∧ b + size < WORD

/-! ## Runs of one bin -/

/-- The address of the region a call of `sbrk` or `mmap` returned. -/
def OsCall.mappedBase : OsCall → Option Nat
  | .sbrk _ base => some base
  | .mmap _ base => some base
  | .munmap _ _ => none

/-- A bin together with the bookkeeping of its callers: the bases of the slabs
the bin obtained, newest first, and the chunks it handed out that were not
given back since. -/
structure BinState where
  /-- The member `binFreeChunks`. -/
  binFreeChunks : FreeList
  /-- The member `arenaUsedPages` of the owning arena. -/
  arenaUsedPages : UsedPages
  /-- The bases of the slabs of the bin, newest first. -/
  slabs : List Nat
  /-- The chunks returned by `Bin::allocate()` and not passed to `giveBack`
  since, newest first. -/
  handedOut : List Nat

/-- A call on a bin: `allocate()`, with the address `os` that `mmap` returns
if the call asks for a slab, or `giveBack(ptr)`. -/
inductive BinOp where
  /-- The call `Bin::allocate()`. -/
  | allocate (os : Nat)
  /-- The call `Bin::giveBack(ptr)`. -/
  | giveBack (ptr : Nat)
  deriving DecidableEq

/-- The bin `binIdx` after the iteration of `Arena::init()` that primes it,
with `base` what `sbrk` returned. -/
def BinState.new (binIdx base : Nat) : BinState :=
  let a := Arena.initBin { bins := fun _ => [], arenaUsedPages := [] } binIdx base
  { binFreeChunks := a.bins binIdx
    arenaUsedPages := a.arenaUsedPages
    slabs := [base]
    handedOut := [] }

/-- One call on the bin `binIdx`. The result is `none` when the call is
`giveBack` of a chunk that the bin did not hand out, or that lies in the run of
an entry of the free-list (it is free already). -/
def BinState.step (binIdx : Nat) (s : BinState) (op : BinOp) : Option BinState :=
  match op with
  | .allocate os =>
    let r := Bin.allocate binIdx s.binFreeChunks s.arenaUsedPages os
    some { binFreeChunks := r.binFreeChunks
           arenaUsedPages := r.arenaUsedPages
           slabs := r.osCalls.filterMap OsCall.mappedBase ++ s.slabs
           handedOut := r.out :: s.handedOut }
  | .giveBack ptr =>
    if ptr ∈ s.handedOut ∧
        FreeList.coversChunk (sizeClassOf binIdx) s.binFreeChunks ptr = false then
      some { s with
        binFreeChunks := Bin.giveBack binIdx s.binFreeChunks ptr
        handedOut := s.handedOut.erase ptr }
    else none

/-- A sequence of calls on the bin `binIdx`, from left to right. -/
def BinState.steps (binIdx : Nat) (s : BinState) (ops : List BinOp) : Option BinState :=
  match ops with
  | [] => some s
  | op :: rest =>
    match s.step binIdx op with
    | some s1 => s1.steps binIdx rest
    | none => none

/-- The calls of the adjacent-slab example on the bin of class 3072, primed at
93824992878592: 32 calls of `allocate()` use up the first slab, the next one
maps a second slab right after it, at 93824992976896; then the first chunk of
the second slab and the last chunk of the first slab are given back. -/
def adjacentSlabs : List BinOp :=
  List.replicate 32 (BinOp.allocate 0) ++
    [.allocate 93824992976896, .giveBack 93824992976896, .giveBack 93824992973824]

/-! ## Invariants -/

/-- Every address of the free-list is a multiple of 8. -/
def FreeList.KeysAligned (fl : FreeList) : Prop := ∀ e ∈ fl, e.1 % 8 = 0

/-- Every entry of the thread cache, used or not, is a multiple of 8. -/
def ThreadDescriptor.CacheAligned (td : ThreadDescriptor) : Prop :=
  ∀ i j, td.cache i j % 8 = 0

/-- Every address of every bin of the arena is a multiple of 8. -/
def Arena.KeysAligned (a : Arena) : Prop := ∀ i, (a.bins i).KeysAligned

/-- The addresses the allocator holds, in its bins and in the cache of the
thread, are multiples of 8. -/
def Allocator.KeysAligned (s : Allocator) : Prop :=
  s.arena.KeysAligned ∧ ∀ td, s.threadDescriptor = some td → td.CacheAligned

/-- The invariant of a run behind the alignment of returned pointers: the
allocator holds multiples of 8, the live pointers are multiples of 8, and every
returned pointer has the alignment of its request. -/
def Run.Aligned (r : Run) : Prop :=
  r.state.KeysAligned ∧ (∀ e ∈ r.live, e.1 % 8 = 0) ∧
    ∀ e ∈ r.returned, ∃ sz, roundup e.2 = some sz ∧ AlignedFor e.1 e.2 sz

/-- The counts of the thread cache are in range: `topIdxs[i]` is at most
`THREAD_CACHE_SIZE`, and a class that holds entries has a decay rate of at
least 1. -/
def ThreadDescriptor.CountsBounded (td : ThreadDescriptor) : Prop :=
  ∀ i, td.topIdxs i ≤ THREAD_CACHE_SIZE ∧ (0 < td.topIdxs i → 1 ≤ td.decayRate i)

/-- The state of the class `i` after `k` ticks of `purge()` without a
`pushCache` or `popCache` on the class: after one tick at most 15 entries are
left and, if any is left, the decay rate is at least 16; after two ticks none
is left. -/
def ThreadDescriptor.Drained (k : Nat) (td : ThreadDescriptor) (i : Nat) : Prop :=
  (1 ≤ k → td.topIdxs i ≤ 15 ∧ (0 < td.topIdxs i → 16 ≤ td.decayRate i)) ∧
    (2 ≤ k → td.topIdxs i = 0)

/-- The entry `(a, k)` of a free-list lies on the grid of one slab of the
bin: `k >= 1` and `a = base + m * sizeClass` with `m + k <= objs`, for the base
of one slab. -/
def GridRun (sizeClass : Nat) (slabs : List Nat) (e : Nat × Nat) : Prop :=
  1 ≤ e.2 ∧ ∃ b ∈ slabs, ∃ m, e.1 = b + m * sizeClass ∧ m + e.2 ≤ slabObjs sizeClass

/-- The chunk `p` lies on the grid of one slab of the bin:
`p = base + m * sizeClass` with `m < objs`, for the base of one slab. -/
def GridChunk (sizeClass : Nat) (slabs : List Nat) (p : Nat) : Prop :=
  ∃ b ∈ slabs, ∃ m, p = b + m * sizeClass ∧ m < slabObjs sizeClass

/-- The free-list and the chunks handed out lie on the grids of the slabs of
the bin. -/
def BinState.OnGrid (binIdx : Nat) (s : BinState) : Prop :=
  (∀ e ∈ s.binFreeChunks, GridRun (sizeClassOf binIdx) s.slabs e) ∧
    ∀ p ∈ s.handedOut, GridChunk (sizeClassOf binIdx) s.slabs p

/-- The page ranges of an index can be compared one by one. -/
instance UsedPages.decRangesDisjoint (used : UsedPages) : Decidable used.RangesDisjoint := by
  unfold UsedPages.RangesDisjoint
  infer_instance

/-- The runs of a free-list can be compared with the slabs one by one. -/
instance FreeList.decRunsInOneSlab (sizeClass : Nat) (slabs : List Nat) (fl : FreeList) :
    Decidable (FreeList.RunsInOneSlab sizeClass slabs fl) := by
  unfold FreeList.RunsInOneSlab
  infer_instance

/-- The index of the arena is in the order of its comparator, and every
descriptor stands for a region of the log of calls to the operating system:
its page is the page key of the region and its range has the size of the
region. -/
def Allocator.Indexed (s : Allocator) : Prop :=
  s.arena.arenaUsedPages.Pairwise (fun a b => a.page > b.page) ∧
    ∀ d ∈ s.arena.arenaUsedPages, (d.page, d.size) ∈ s.osCalls.filterMap OsCall.region

/-- A class whose decay rate has reached `THREAD_CACHE_SIZE` holds fewer than
`THREAD_CACHE_SIZE` entries. -/
def ThreadDescriptor.RateBounded (td : ThreadDescriptor) : Prop :=
  ∀ i, THREAD_CACHE_SIZE ≤ td.decayRate i → td.topIdxs i < THREAD_CACHE_SIZE

/-! ## Locks -/

/-- The locks of the allocator as one thread sees them: `Melloc::mutMelloc`,
`arenas[0].mutArena`, the spin flag `usedFlags[i]` of the descriptor of the
thread, and `arenas[0].bins[i].mutBin`. -/
inductive Lock where
  /-- The member `Melloc::mutMelloc`, a `std::shared_mutex`. -/
  | mutMelloc
  /-- The member `mutArena` of the arena, a `std::shared_mutex`. -/
  | mutArena
  /-- The member `usedFlags[i]` of the thread descriptor, a `std::atomic_flag`
  taken by `AtomicFlagGuard`. -/
  | usedFlag (i : Nat)
  /-- The member `mutBin` of the bin `i`, a `std::mutex`. -/
  | mutBin (i : Nat)
  deriving DecidableEq

/-- An operation on a lock, recorded in program order. -/
inductive LockEvent where
  /-- An exclusive acquisition: `std::unique_lock`, `lock()` on one, or the
  constructor of `AtomicFlagGuard`. -/
  | lock (l : Lock)
  /-- A shared acquisition: `std::shared_lock`, or `lock()` on one. -/
  | lockShared (l : Lock)
  /-- A release: `unlock()`, or the end of the scope of the guard. -/
  | unlock (l : Lock)
  deriving DecidableEq

/-- The lock operations of `Bin::allocate()` (bin.cpp, lines 25 to 86) on the
free-list `fl`: `writeLock.lock()` on `mutBin` at line 32; with an empty
free-list `std::unique_lock writeLockArena(arenas[myArena].mutArena)` at line
78 and `writeLockArena.unlock()` at line 80; `mutBin` is released at the
return. -/
def Bin.allocateLocks (binIdx : Nat) (fl : FreeList) : List LockEvent :=
  match fl with
  | _ :: _ => [.lock (.mutBin binIdx), .unlock (.mutBin binIdx)]
  | [] =>
    [.lock (.mutBin binIdx), .lock .mutArena, .unlock .mutArena, .unlock (.mutBin binIdx)]

/-- The lock operations of `Bin::giveBack(ptr)` (bin.cpp, lines 89 to 110):
`writeLock.lock()` on `mutBin` at line 95, released at the return. -/
def Bin.giveBackLocks (binIdx : Nat) : List LockEvent :=
  [.lock (.mutBin binIdx), .unlock (.mutBin binIdx)]

/-- The lock operations of a `popCache(sizeClassIdx)` that returns: the guard
`AtomicFlagGuard g(usedFlags[sizeClassIdx])`. -/
def ThreadDescriptor.popCacheLocks (sizeClassIdx : Nat) : List LockEvent :=
  [.lock (.usedFlag sizeClassIdx), .unlock (.usedFlag sizeClassIdx)]

/-- The lock operations of `pushCache(ptr, sizeClassIdx)`: the guard on
`usedFlags[sizeClassIdx]`, inside which a full class calls
`bins[sizeClassIdx].giveBack(ptr)`. -/
def ThreadDescriptor.pushCacheLocks (td : ThreadDescriptor) (sizeClassIdx : Nat) :
    List LockEvent :=
  if td.topIdxs sizeClassIdx < THREAD_CACHE_SIZE then
    [.lock (.usedFlag sizeClassIdx), .unlock (.usedFlag sizeClassIdx)]
  else
    [.lock (.usedFlag sizeClassIdx)] ++ Bin.giveBackLocks sizeClassIdx
      ++ [.unlock (.usedFlag sizeClassIdx)]

/-- The lock operations of one passage of the loop of `purge()`: the guard on
`usedFlags[i]`, inside which there is one call `bins[i].giveBack` for each
entry read. -/
def ThreadDescriptor.purgeClassLocks (td : ThreadDescriptor) (i : Nat) : List LockEvent :=
  [.lock (.usedFlag i)] ++ (td.purgeReads i).flatMap (fun _ => Bin.giveBackLocks i)
    ++ [.unlock (.usedFlag i)]

/-- The lock operations of `ThreadDescriptor::purge()`. The passage for a
class reads and writes the members of that class only, so each passage is
taken on the descriptor as it is when `purge()` starts. -/
def ThreadDescriptor.purgeLocks (td : ThreadDescriptor) : List LockEvent :=
  (List.range smallSizeClasses.length).flatMap td.purgeClassLocks

/-- The lock operations of `Arena::allocate(sz, tdw)` (arena.cpp, lines 30 to
70), up to the return or to the point where the call stops being defined: for
a large size that `mmap` serves `writeLock.lock()` on `mutArena` at line 48,
released at the return; for a small size those of `popCache` and, when it returns null, those
of `bins[binIdx].allocate()`. -/
def Arena.allocateLocks (a : Arena) (td : ThreadDescriptor) (sz : Nat) : List LockEvent :=
  if isLargeSize sz then [.lock .mutArena, .unlock .mutArena]
  else
    match getBinIdx sz with
    | none => []
    | some binIdx =>
      if smallSizeClasses.length ≤ binIdx then []
      else
        match td.popCache binIdx with
        | .error _ => [.lock (.usedFlag binIdx)]
        | .ok (out, _) =>
          if out ≠ 0 then ThreadDescriptor.popCacheLocks binIdx
          else ThreadDescriptor.popCacheLocks binIdx ++ Bin.allocateLocks binIdx (a.bins binIdx)

/-- The lock operations of `Arena::deallocate(ptr)` (arena.cpp, lines 72 to
106), up to the return or to `exit(1)`: `std::shared_lock readLock(mutArena)`
at line 73, held to the return, and inside it those of `pushCache` for a chunk
of a slab. -/
def Arena.deallocateLocks (a : Arena) (td : ThreadDescriptor) (ptr : Nat) : List LockEvent :=
  match Arena.freeAction a.arenaUsedPages ptr with
  | .invalidFree => [.lockShared .mutArena]
  | .unmap _ _ => [.lockShared .mutArena, .unlock .mutArena]
  | .cachePush _ binIdx =>
    if smallSizeClasses.length ≤ binIdx then [.lockShared .mutArena]
    else [.lockShared .mutArena] ++ td.pushCacheLocks binIdx ++ [.unlock .mutArena]

/-- The lock operations of `Melloc::allocate(n)` (melloc.cpp, lines 38 to 58),
up to the return or to the point where the call stops being defined:
`std::shared_lock readLock(mutMelloc)` at line 39; for the first allocation of
the thread `readLock.unlock()`, `std::unique_lock writeLock(mutMelloc)`,
`writeLock.unlock()` and `readLock.lock()` at lines 47 to 52; then those of
`arena.allocate`, and the release of `readLock` at the return. -/
def allocateLocks (s : Allocator) (n : Nat) : List LockEvent :=
  match roundup n with
  | none => [.lockShared .mutMelloc]
  | some sz =>
    match s.threadDescriptor with
    | some td =>
      [.lockShared .mutMelloc] ++ Arena.allocateLocks s.arena td sz ++
        (match Arena.allocate s.arena td sz 0 with
          | .ok _ => [.unlock .mutMelloc]
          | .error _ => [])
    | none =>
      [.lockShared .mutMelloc, .unlock .mutMelloc, .lock .mutMelloc, .unlock .mutMelloc,
        .lockShared .mutMelloc] ++ Arena.allocateLocks s.arena ThreadDescriptor.new sz ++
        (match Arena.allocate s.arena ThreadDescriptor.new sz 0 with
          | .ok _ => [.unlock .mutMelloc]
          | .error _ => [])

/-- The lock operations of `Melloc::deallocate(ptr)` (melloc.cpp, lines 63 to
69), up to the return or to the point where the call ends otherwise:
`std::shared_lock readLock(mutMelloc)`, held over `arena.deallocate(ptr)`. -/
def deallocateLocks (s : Allocator) (ptr : Nat) : List LockEvent :=
  match s.threadDescriptor with
  | none => [.lockShared .mutMelloc]
  | some td =>
    [.lockShared .mutMelloc] ++ Arena.deallocateLocks s.arena td ptr ++
      (match Arena.deallocate s.arena td ptr with
        | .ok _ => [.unlock .mutMelloc]
        | .error _ => [])

/-- The place of a lock in the hierarchy of the specification: the facade
lock first, then the arena lock, then the bin mutex; a spin flag of the thread
cache comes after the arena lock and before the bin mutex, so that a held flag
allows the acquisition of a bin mutex only. -/
def Lock.level : Lock → Nat
  | .mutMelloc => 0
  | .mutArena => 1
  | .usedFlag _ => 2
  | .mutBin _ => 3

/-- The acquisitions of a trace that break the hierarchy, as pairs of a lock
held and the lock acquired while it is held although its level is not higher;
`held` lists the locks held when the trace starts. -/
def lockViolations (held : List Lock) (trace : List LockEvent) : List (Lock × Lock) :=
  match trace with
  | [] => []
  | .lock l :: rest =>
    (held.filter (fun h => decide (l.level ≤ h.level))).map (fun h => (h, l))
      ++ lockViolations (l :: held) rest
  | .lockShared l :: rest =>
    (held.filter (fun h => decide (l.level ≤ h.level))).map (fun h => (h, l))
      ++ lockViolations (l :: held) rest
  | .unlock l :: rest => lockViolations (held.erase l) rest

/-! ## Theorems: the classifier -/

/-- The mask keeps bits 12 to 31: `x & PAGE_MASK` is `x` reduced to 32 bits
with its low 12 bits cleared. -/
theorem land_PAGE_MASK (x : Nat) : x &&& PAGE_MASK = x % 2 ^ 32 / 4096 * 4096 := by
  have hm : PAGE_MASK = (2 ^ 20 - 1) <<< 12 := by decide
  have hr : x % 2 ^ 32 / 4096 * 4096 = ((x % 2 ^ 32) >>> 12) <<< 12 := by
    rw [Nat.shiftLeft_eq, Nat.shiftRight_eq_div_pow]
  rw [hr, hm]
  apply Nat.eq_of_testBit_eq
  intro i
  simp only [Nat.testBit_and, Nat.testBit_shiftLeft, Nat.testBit_shiftRight,
    Nat.testBit_mod_two_pow, Nat.testBit_two_pow_sub_one]
  by_cases h1 : 12 ≤ i
  · have h2 : 12 + (i - 12) = i := by omega
    rw [h2]
    by_cases h3 : i < 32
    · have h4 : i - 12 < 20 := by omega
      simp [h1, h3, h4]
    · have h4 : ¬ (i - 12 < 20) := by omega
      simp [h1, h3, h4]
  · simp [h1]

/-- The page of an address, in arithmetic. -/
theorem getPage_eq (a : Nat) : getPage a = a % 2 ^ 32 / 4096 * 4096 :=
  land_PAGE_MASK a

/-- A size is off-page exactly when it differs from its masked value. -/
theorem isOffPage_iff (sz : Nat) :
    isOffPage sz = true ↔ sz ≠ sz % 2 ^ 32 / 4096 * 4096 := by
  unfold isOffPage
  rw [land_PAGE_MASK]
  simp

/-- A class index inside the table reads its size class. -/
theorem sizeClass_lookup : ∀ i, i < 28 → smallSizeClasses[i]? = some (sizeClassOf i) := by
  decide

/-- Every size class is a multiple of 8. -/
theorem sizeClassOf_aligned : ∀ i, i < 28 → sizeClassOf i % 8 = 0 := by decide

/-- Every size class is at least 8. -/
theorem sizeClass_min : ∀ i, i < 28 → min (sizeClassOf i) 8 = 8 := by decide

/-- The classifier maps the size of class `i` to `i`, in terms of `sizeClassOf`. -/
theorem getBinIdx_sizeClassOf : ∀ i, i < 28 → getBinIdx (sizeClassOf i) = some i := by
  decide

/-- The correction step of `getBinIdx` yields a class that holds `n` when the
next class does. -/
theorem binCorrection_ok (bin n : Nat) (hb : bin < 28)
    (h : n ≠ sizeClassOf bin → bin + 1 < 28 ∧ n ≤ sizeClassOf (bin + 1)) :
    ∃ i, i < 28 ∧ binCorrection bin n = some i ∧ n ≤ sizeClassOf i := by
  unfold binCorrection
  rw [sizeClass_lookup bin hb]
  by_cases hn : sizeClassOf bin = n
  · exact ⟨bin, hb, by simp [hn, boolToNat], by omega⟩
  · have h2 := h (fun e => hn e.symm)
    exact ⟨bin + 1, h2.1, by simp [hn, boolToNat], h2.2⟩

/-- Up to the largest size class, `getBinIdx` yields a class of the table that
holds the request. -/
theorem getBinIdx_small (n : Nat) (h : n ≤ 3840) :
    ∃ i, i < 28 ∧ getBinIdx n = some i ∧ n ≤ sizeClassOf i := by
  unfold getBinIdx
  split_ifs with h1 h2 h3 h4
  · exact ⟨0, by decide, rfl, by simpa [sizeClassOf, smallSizeClasses] using h1⟩
  · exact ⟨1, by decide, rfl, by simpa [sizeClassOf, smallSizeClasses] using h2⟩
  · rw [Nat.shiftRight_eq_div_pow]
    obtain ⟨q, hq⟩ : ∃ q, q = (n - 16) / 2 ^ 4 := ⟨_, rfl⟩
    rw [← hq]
    have hq10 : q ≤ 10 := by omega
    apply binCorrection_ok _ _ (by omega)
    interval_cases q <;> simp [sizeClassOf, smallSizeClasses] <;> omega
  · rw [Nat.shiftRight_eq_div_pow]
    obtain ⟨q, hq⟩ : ∃ q, q = (n - 192) / 2 ^ 6 := ⟨_, rfl⟩
    rw [← hq]
    have hq8 : q ≤ 8 := by omega
    apply binCorrection_ok _ _ (by omega)
    interval_cases q <;> simp [sizeClassOf, smallSizeClasses] <;> omega
  · rw [Nat.shiftRight_eq_div_pow]
    obtain ⟨q, hq⟩ : ∃ q, q = (n - 768) / 2 ^ 8 := ⟨_, rfl⟩
    rw [← hq]
    have hq12 : q ≤ 12 := by omega
    apply binCorrection_ok _ _ (by omega)
    interval_cases q <;> simp [sizeClassOf, smallSizeClasses] <;> omega

/-- Up to the largest size class, `roundup` yields the size of the class of
the request, which is at least the request and is served from the same bin. -/
theorem small_request (n : Nat) (h : n ≤ 3840) :
    ∃ i, i < 28 ∧ getBinIdx n = some i ∧ n ≤ sizeClassOf i ∧
      roundup n = some (sizeClassOf i) ∧ getBinIdx (sizeClassOf i) = some i := by
  obtain ⟨i, hi, hg, hle⟩ := getBinIdx_small n h
  refine ⟨i, hi, hg, hle, ?_, getBinIdx_sizeClassOf i hi⟩
  have hl : isLargeSize n = false := by simp [isLargeSize, PAGE_SIZE]; omega
  simp [roundup, hl, hg, sizeClass_lookup i hi]

/-- From `PAGE_SIZE` up to the last page below `2 ^ 32`, `roundup` yields the
next page boundary, which is at least the request and is its own rounding. -/
theorem large_request (n : Nat) (h1 : 4096 ≤ n) (h2 : n ≤ 4294963200) :
    ∃ r, roundup n = some r ∧ n ≤ r ∧ r < n + 4096 ∧ r % 4096 = 0 ∧ roundup r = some r := by
  have hl : isLargeSize n = true := by simp [isLargeSize, PAGE_SIZE]; omega
  have key : ∀ m, 4096 ≤ m → m ≤ 4294963200 → m % 4096 = 0 → roundup m = some m := by
    intro m hm1 hm2 hm3
    have hl : isLargeSize m = true := by simp [isLargeSize, PAGE_SIZE]; omega
    have ho : isOffPage m = false := by
      rw [Bool.eq_false_iff, Ne, isOffPage_iff]
      omega
    simp only [roundup, hl, ho, boolToNat, if_true, land_PAGE_MASK, PAGE_SIZE, WORD]
    simp
    omega
  rcases Bool.eq_false_or_eq_true (isOffPage n) with ho | ho
  · have hne := (isOffPage_iff n).1 ho
    refine ⟨n % 2 ^ 32 / 4096 * 4096 + 4096, ?_, by omega, by omega, by omega,
      key _ (by omega) (by omega) (by omega)⟩
    simp only [roundup, hl, ho, boolToNat, if_true, land_PAGE_MASK, PAGE_SIZE, WORD]
    simp
    omega
  · have hne : n = n % 2 ^ 32 / 4096 * 4096 := by
      by_contra hc
      have := (isOffPage_iff n).2 hc
      simp [ho] at this
    exact ⟨n, key n h1 h2 (by omega), le_refl _, by omega, by omega, key n h1 h2 (by omega)⟩

/-- C2, at the failing input: `roundup(4294967296)` is 4096, which is smaller
than the request, and `roundup(3841)` reads past the end of the table. -/
theorem roundup_below_request :
    roundup 4294967296 = some 4096 ∧ 4096 < 4294967296 ∧ roundup 3841 = none := by
  decide

/-- C5, at the failing input: `getBinIdx(144)` is 10 although class 9, of 192
bytes, already holds 144 bytes. -/
theorem getBinIdx_not_smallest :
    getBinIdx 144 = some 10 ∧ smallSizeClasses[9]? = some 192 ∧ 144 ≤ 192 := by
  decide

/-- C7, at the failing input: `getBinIdx(3841)` is 28, one past the last
class, so `roundup(3841)` has no table entry to return and
`getBinIdx(roundup(3841))` has no value to equal `getBinIdx(3841)`. -/
theorem roundup_changes_bin :
    getBinIdx 3841 = some 28 ∧ roundup 3841 = none ∧
      (roundup 3841).bind getBinIdx ≠ getBinIdx 3841 := by
  decide

/-- C8: every size class maps to its own bin, `getBinIdx(smallSizeClasses[i]) = i`
for each of the 28 indices. -/
theorem getBinIdx_sizeClass (i : Fin smallSizeClasses.length) :
    getBinIdx (smallSizeClasses.get i) = some i.val := by
  revert i
  decide

/-- C9, at the failing input: `roundup(4294963201)` is 0 and `roundup(0)` is 8,
so rounding twice differs from rounding once. -/
theorem roundup_not_idempotent :
    roundup 4294963201 = some 0 ∧ (roundup 4294963201).bind roundup = some 8 := by
  decide

/-- C10: the literal values of scenario S4. -/
theorem classifier_scenario :
    getBinIdx 1 = some 0 ∧ getBinIdx 8 = some 0 ∧ getBinIdx 9 = some 1 ∧
    getBinIdx 17 = some 2 ∧ getBinIdx 192 = some 9 ∧ getBinIdx 193 = some 10 ∧
    getBinIdx 768 = some 15 ∧ getBinIdx 3840 = some 27 ∧
    roundup 4097 = some 8192 ∧ roundup 4096 = some 4096 := by
  decide

/-! ## Theorems: the arena -/

/-- The descriptor a lookup yields is in the set and at or below the page. -/
theorem lowerBound_mem (used : UsedPages) (page : Nat) (d : PageDescriptor)
    (h : UsedPages.lowerBound used page = some d) : d ∈ used ∧ d.page ≤ page := by
  induction used with
  | nil => simp [UsedPages.lowerBound] at h
  | cons e rest ih =>
    unfold UsedPages.lowerBound at h
    split_ifs at h with hgt
    · have := ih h
      exact ⟨List.mem_cons_of_mem _ this.1, this.2⟩
    · simp only [Option.some.injEq] at h
      subst h
      exact ⟨List.mem_cons_self _ _, by omega⟩

/-- C4, amended: for every set of used pages whose descriptors are keyed by page
addresses, and every pointer `p` below `2 ^ 32` that lies in the range of no
descriptor, when the lookup `lower_bound(getPage(p))` yields no descriptor or a
slab, `Arena::deallocate(p)` takes the branch that ends in `exit(1)`, before any
`munmap` and any `pushCache`. -/
theorem invalid_free_detected (used : UsedPages) (p : Nat)
    (hpage : ∀ d ∈ used, d.page % PAGE_SIZE = 0)
    (hp : p < 2 ^ 32)
    (hcov : ∀ d ∈ used, d.covers p = false)
    (hpred : ∀ d, UsedPages.lowerBound used (getPage p) = some d → d.isSlab = true) :
    Arena.freeAction used p = .invalidFree ∧
      ∀ (a : Arena) (td : ThreadDescriptor), a.arenaUsedPages = used →
        Arena.deallocate a td p = .error .exit := by
  have hfa : Arena.freeAction used p = .invalidFree := by
    unfold Arena.freeAction
    cases hlb : UsedPages.lowerBound used (getPage p) with
    | none => rfl
    | some d =>
      have hs := hpred d hlb
      obtain ⟨hmem, hle⟩ := lowerBound_mem used _ d hlb
      have hc := hcov d hmem
      have ha := hpage d hmem
      cases d with
      | large page len => simp [PageDescriptor.isSlab] at hs
      | slab page binIdx consecutive =>
        simp only [PageDescriptor.covers, decide_eq_false_iff_not, not_and, not_lt] at hc
        simp only [PageDescriptor.page, PAGE_SIZE] at ha hle hc
        rw [getPage_eq] at hle
        have h1 : page ≤ p := by omega
        have h2 := hc h1
        simp only [getPage_eq, PAGE_SIZE, WORD]
        rw [if_pos]
        omega
  refine ⟨hfa, ?_⟩
  intro a td ha
  unfold Arena.deallocate
  rw [ha, hfa]

/-- C4, at a concrete input: the arena constructed at `lowBreak` and the
pointer 0x3000000 above all its slabs. -/
theorem invalid_free_detected_witness :
    Arena.freeAction (Arena.init (contiguousBreak lowBreak)).arenaUsedPages 0x3000000
      = .invalidFree := by
  refine (invalid_free_detected (Arena.init (contiguousBreak lowBreak)).arenaUsedPages
    0x3000000 (by decide) (by decide) (by decide) ?_).1
  intro d hd
  have h : (UsedPages.lowerBound (Arena.init (contiguousBreak lowBreak)).arenaUsedPages
      (getPage 0x3000000)).all (fun e => e.isSlab) = true := by decide
  rw [hd] at h
  exact h

/-- C4, as stated, fails: in the arena constructed at `lowBreak` after
`allocate(5000)` served at 0x40000000, the pointer 0x40004000 lies in the range
of no descriptor, and `Arena::deallocate` calls `munmap(0x40004000, 8192)`
instead of taking the fatal branch. -/
theorem invalid_free_undetected :
    ((Run.new (contiguousBreak lowBreak)).steps [.allocate 5000 0x40000000]).map
        (fun r => r.state.arena.arenaUsedPages) = some exampleUsedPages ∧
    exampleUsedPages.all (fun d => !d.covers 0x40004000) = true ∧
    Arena.freeAction exampleUsedPages 0x40004000 = .unmap 0x40004000 8192 ∧
    Arena.freeAction exampleUsedPages 0x40004000 ≠ .invalidFree ∧
    ((Run.new (contiguousBreak lowBreak)).steps [.allocate 5000 0x40000000]).bind
        (fun r => (deallocate r.state 0x40004000).toOption.map
          (fun s => s.osCalls.getLast?)) = some (some (.munmap 0x40004000 8192)) := by
  decide

/-- A pointer above `2 ^ 32` is looked up by its low 32 bits: in the arena
constructed at `lowBreak`, the pointer `2 ^ 32 + lowBreak` lies in the range of
no descriptor, and `Arena::deallocate` pushes it on the cache of class 0. -/
theorem invalid_free_truncated :
    (Arena.init (contiguousBreak lowBreak)).arenaUsedPages.all
        (fun d => !d.covers (4294967296 + lowBreak)) = true ∧
    Arena.freeAction (Arena.init (contiguousBreak lowBreak)).arenaUsedPages
        (4294967296 + lowBreak) = .cachePush (4294967296 + lowBreak) 0 := by
  decide

/-! ## Theorems: alignment -/

theorem mem_emplace (fl : FreeList) (k v : Nat) (e : Nat × Nat)
    (h : e ∈ FreeList.emplace fl k v) : e ∈ fl ∨ e = (k, v) := by
  induction fl with
  | nil => simp [FreeList.emplace] at h; exact Or.inr h
  | cons x rest ih =>
    obtain ⟨k0, c0⟩ := x
    unfold FreeList.emplace at h
    split_ifs at h with h1 h2
    · rcases List.mem_cons.1 h with h | h
      · exact Or.inr h
      · exact Or.inl h
    · exact Or.inl h
    · rcases List.mem_cons.1 h with h | h
      · exact Or.inl (h ▸ List.mem_cons_self _ _)
      · rcases ih h with h | h
        · exact Or.inl (List.mem_cons_of_mem _ h)
        · exact Or.inr h

theorem mem_erase (fl : FreeList) (k : Nat) (e : Nat × Nat)
    (h : e ∈ FreeList.erase fl k) : e ∈ fl := by
  induction fl with
  | nil => simp [FreeList.erase] at h
  | cons x rest ih =>
    obtain ⟨k0, c0⟩ := x
    unfold FreeList.erase at h
    split_ifs at h with h1
    · exact List.mem_cons_of_mem _ h
    · rcases List.mem_cons.1 h with h | h
      · exact h ▸ List.mem_cons_self _ _
      · exact List.mem_cons_of_mem _ (ih h)

theorem mem_assign (fl : FreeList) (k v : Nat) (e : Nat × Nat)
    (h : e ∈ FreeList.assign fl k v) : ∃ x ∈ fl, x.1 = e.1 := by
  induction fl with
  | nil => simp [FreeList.assign] at h
  | cons x rest ih =>
    obtain ⟨k0, c0⟩ := x
    unfold FreeList.assign at h
    split_ifs at h with h1
    · rcases List.mem_cons.1 h with h | h
      · exact ⟨(k0, c0), List.mem_cons_self _ _, by rw [h]⟩
      · exact ⟨e, List.mem_cons_of_mem _ h, rfl⟩
    · rcases List.mem_cons.1 h with h | h
      · exact ⟨(k0, c0), List.mem_cons_self _ _, by rw [h]⟩
      · obtain ⟨y, hy, hye⟩ := ih h
        exact ⟨y, List.mem_cons_of_mem _ hy, hye⟩

theorem keysAligned_emplace {fl : FreeList} (h : fl.KeysAligned) (k v : Nat)
    (hk : k % 8 = 0) : (FreeList.emplace fl k v).KeysAligned := by
  intro e he
  rcases mem_emplace fl k v e he with h1 | h1
  · exact h e h1
  · rw [h1]; exact hk

theorem keysAligned_erase {fl : FreeList} (h : fl.KeysAligned) (k : Nat) :
    (FreeList.erase fl k).KeysAligned :=
  fun e he => h e (mem_erase fl k e he)

theorem keysAligned_assign {fl : FreeList} (h : fl.KeysAligned) (k v : Nat) :
    (FreeList.assign fl k v).KeysAligned := by
  intro e he
  obtain ⟨x, hx, hxe⟩ := mem_assign fl k v e he
  rw [← hxe]; exact h x hx

theorem giveBack_aligned (binIdx : Nat) (fl : FreeList) (ptr : Nat)
    (h : fl.KeysAligned) (hp : ptr % 8 = 0) : (Bin.giveBack binIdx fl ptr).KeysAligned := by
  unfold Bin.giveBack
  simp only
  cases FreeList.find fl (decrement ptr (sizeClassOf binIdx)) <;>
    cases FreeList.find fl (increment ptr (sizeClassOf binIdx)) <;> simp only
  · exact h
  · exact keysAligned_erase (keysAligned_emplace h _ _ hp) _
  · exact keysAligned_assign h _ _
  · exact keysAligned_erase (keysAligned_assign (keysAligned_assign h _ _) _ _) _

theorem inc_aligned (binIdx : Nat) (hb : binIdx < 28) : ∀ a, a % 8 = 0 → increment a (sizeClassOf binIdx) % 8 = 0 := by
  have hsc := sizeClassOf_aligned binIdx hb
  intro a ha
  unfold increment WORD
  omega

theorem bin_allocate_aligned_nil (binIdx : Nat) (used : UsedPages) (os : Nat)
    (hb : binIdx < 28) (hos : os % 8 = 0) :
    (Bin.allocate binIdx [] used os).out % 8 = 0 ∧
      (Bin.allocate binIdx [] used os).binFreeChunks.KeysAligned := by
  have hinc := inc_aligned binIdx hb
  unfold Bin.allocate
  simp only
  constructor
  · exact hos
  · apply keysAligned_emplace
    · intro e he
      cases he
    · exact hinc os hos

theorem bin_allocate_cons (binIdx : Nat) (a k : Nat) (rest : FreeList) (used : UsedPages) (os : Nat) :
    Bin.allocate binIdx ((a, k) :: rest) used os =
      if (k + WORD - 1) % WORD > 0 then
        { out := a
          binFreeChunks := FreeList.emplace rest (increment a (sizeClassOf binIdx)) ((k + WORD - 1) % WORD)
          arenaUsedPages := used
          osCalls := [] }
      else
        { out := a, binFreeChunks := rest, arenaUsedPages := used, osCalls := [] } := by
  rfl

theorem bin_allocate_aligned_cons (binIdx : Nat) (a k : Nat) (rest : FreeList) (used : UsedPages) (os : Nat)
    (hb : binIdx < 28) (h : FreeList.KeysAligned ((a, k) :: rest)) :
    (Bin.allocate binIdx ((a, k) :: rest) used os).out % 8 = 0 ∧
      (Bin.allocate binIdx ((a, k) :: rest) used os).binFreeChunks.KeysAligned := by
  have hinc := inc_aligned binIdx hb
  have ha : a % 8 = 0 := h (a, k) (List.mem_cons_self _ _)
  have hrest : FreeList.KeysAligned rest := fun e he => h e (List.mem_cons_of_mem _ he)
  rw [bin_allocate_cons]
  by_cases hc : (k + WORD - 1) % WORD > 0
  · rw [if_pos hc]
    exact ⟨ha, keysAligned_emplace hrest _ _ (hinc a ha)⟩
  · rw [if_neg hc]
    exact ⟨ha, hrest⟩


theorem bin_allocate_aligned (binIdx : Nat) (fl : FreeList) (used : UsedPages) (os : Nat)
    (hb : binIdx < 28) (h : fl.KeysAligned) (hos : os % 8 = 0) :
    (Bin.allocate binIdx fl used os).out % 8 = 0 ∧
      (Bin.allocate binIdx fl used os).binFreeChunks.KeysAligned := by
  cases fl with
  | nil => exact bin_allocate_aligned_nil binIdx used os hb hos
  | cons x rest =>
    obtain ⟨a, k⟩ := x
    exact bin_allocate_aligned_cons binIdx a k rest used os hb h

theorem setAt_apply {α : Type} (a : Nat → α) (i : Nat) (v : α) (j : Nat) :
    setAt a i v j = if j = i then v else a j := rfl

theorem new_cache_aligned : ThreadDescriptor.new.CacheAligned := by
  intro i j
  rfl

theorem popCache_aligned (td : ThreadDescriptor) (i out : Nat)
    (td1 : ThreadDescriptor) (h : td.CacheAligned)
    (hpop : td.popCache i = .ok (out, td1)) : out % 8 = 0 ∧ td1.CacheAligned := by
  unfold ThreadDescriptor.popCache at hpop
  simp only at hpop
  by_cases h0 : td.topIdxs i > 0
  · rw [if_pos h0] at hpop
    by_cases h1 : td.topIdxs i < THREAD_CACHE_SIZE
    · rw [if_pos h1] at hpop
      simp only [Except.ok.injEq, Prod.mk.injEq] at hpop
      obtain ⟨ho, ht⟩ := hpop
      subst ho ht
      exact ⟨h _ _, fun a b => h a b⟩
    · rw [if_neg h1] at hpop
      cases hpop
  · rw [if_neg h0] at hpop
    simp only [Except.ok.injEq, Prod.mk.injEq] at hpop
    obtain ⟨ho, ht⟩ := hpop
    subst ho ht
    exact ⟨rfl, fun a b => h a b⟩

theorem pushCache_aligned (td : ThreadDescriptor) (bins : Nat → FreeList)
    (ptr i : Nat) (h : td.CacheAligned) (hb : ∀ k, (bins k).KeysAligned) (hp : ptr % 8 = 0) :
    (td.pushCache bins ptr i).1.CacheAligned ∧ ∀ k, ((td.pushCache bins ptr i).2 k).KeysAligned := by
  unfold ThreadDescriptor.pushCache
  simp only
  by_cases h0 : td.topIdxs i < THREAD_CACHE_SIZE
  · rw [if_pos h0]
    refine ⟨?_, hb⟩
    intro a b
    simp only [setAt]
    by_cases ha : a = i
    · rw [if_pos ha, setAt_apply]
      by_cases hbb : b = td.topIdxs i
      · rw [if_pos hbb]; exact hp
      · rw [if_neg hbb]; exact h _ _
    · rw [if_neg ha]; exact h _ _
  · rw [if_neg h0]
    refine ⟨fun a b => h a b, ?_⟩
    intro k
    simp only [setAt]
    by_cases hk : k = i
    · rw [if_pos hk]
      exact giveBack_aligned _ _ _ (hb i) hp
    · rw [if_neg hk]; exact hb k


theorem arena_allocate_aligned (a : Arena) (td : ThreadDescriptor) (sz os : Nat)
    (r : Allocation) (ha : a.KeysAligned) (ht : td.CacheAligned) (hos : os % PAGE_SIZE = 0)
    (hr : Arena.allocate a td sz os = .ok r) :
    r.arena.KeysAligned ∧ r.td.CacheAligned ∧ r.out % 8 = 0 ∧
      (isLargeSize sz = true → r.out % PAGE_SIZE = 0) := by
  have hos8 : os % 8 = 0 := by
    unfold PAGE_SIZE at hos
    omega
  unfold Arena.allocate at hr
  by_cases hl : isLargeSize sz = true
  · rw [if_pos hl] at hr
    by_cases hm : os = MAP_FAILED
    · rw [if_pos hm] at hr; cases hr
    · rw [if_neg hm] at hr
      simp only [Except.ok.injEq] at hr
      subst hr
      exact ⟨ha, ht, hos8, fun _ => hos⟩
  · rw [if_neg hl] at hr
    refine (?_ : _ ∧ _ ∧ _) |> fun h => ⟨h.1, h.2.1, h.2.2, fun h2 => absurd h2 hl⟩
    cases hg : getBinIdx sz with
    | none => rw [hg] at hr; cases hr
    | some binIdx =>
      rw [hg] at hr
      simp only at hr
      by_cases hb : smallSizeClasses.length ≤ binIdx
      · rw [if_pos hb] at hr; cases hr
      · rw [if_neg hb] at hr
        have hb28 : binIdx < 28 := by
          have : smallSizeClasses.length = 28 := rfl
          omega
        cases hp : td.popCache binIdx with
        | error e => rw [hp] at hr; cases hr
        | ok v =>
          obtain ⟨out, td1⟩ := v
          rw [hp] at hr
          simp only at hr
          obtain ⟨hout, htd1⟩ := popCache_aligned td binIdx out td1 ht hp
          by_cases h0 : out ≠ 0
          · rw [if_pos h0] at hr
            simp only [Except.ok.injEq] at hr
            subst hr
            exact ⟨ha, htd1, hout⟩
          · rw [if_neg h0] at hr
            simp only [Except.ok.injEq] at hr
            subst hr
            obtain ⟨hbo, hbf⟩ :=
              bin_allocate_aligned binIdx (a.bins binIdx) a.arenaUsedPages os hb28 (ha binIdx) hos8
            refine ⟨?_, htd1, hbo⟩
            intro k
            show FreeList.KeysAligned (setAt a.bins binIdx _ k)
            rw [setAt_apply]
            by_cases hk : k = binIdx
            · rw [if_pos hk]; exact hbf
            · rw [if_neg hk]; exact ha k


theorem initBin_aligned (a : Arena) (i out : Nat) (ha : a.KeysAligned)
    (ho : out % 8 = 0) : (Arena.initBin a i out).KeysAligned := by
  intro k
  show FreeList.KeysAligned (setAt a.bins i _ k)
  rw [setAt_apply]
  by_cases hk : k = i
  · rw [if_pos hk]; exact keysAligned_emplace (ha i) _ _ ho
  · rw [if_neg hk]; exact ha k

theorem init_fold_aligned (sbrk : Nat → Nat) (hs : ∀ i, sbrk i % 8 = 0)
    (l : List Nat) (a : Arena) (ha : a.KeysAligned) :
    (l.foldl (fun a i => Arena.initBin a i (sbrk i)) a).KeysAligned := by
  induction l generalizing a with
  | nil => exact ha
  | cons i rest ih =>
    rw [List.foldl_cons]
    exact ih _ (initBin_aligned a i (sbrk i) ha (hs i))

theorem init_aligned (sbrk : Nat → Nat) (hs : ∀ i, sbrk i % PAGE_SIZE = 0) :
    (Arena.init sbrk).KeysAligned := by
  unfold Arena.init
  apply init_fold_aligned
  · intro i
    have := hs i
    unfold PAGE_SIZE at this
    omega
  · intro k e he
    cases he

theorem new_allocator_aligned (sbrk : Nat → Nat) (hs : ∀ i, sbrk i % PAGE_SIZE = 0) :
    (Allocator.new sbrk).KeysAligned :=
  ⟨init_aligned sbrk hs, fun td h => by cases h⟩

theorem facade_allocate_aligned (s s1 : Allocator) (n os p : Nat) (hs : s.KeysAligned)
    (hos : os % PAGE_SIZE = 0) (h : allocate s n os = .ok (p, s1)) :
    s1.KeysAligned ∧ p % 8 = 0 ∧
      ∃ sz, roundup n = some sz ∧ (isLargeSize sz = true → p % PAGE_SIZE = 0) := by
  unfold allocate at h
  cases hr : roundup n with
  | none => rw [hr] at h; cases h
  | some sz =>
    rw [hr] at h
    simp only at h
    have key : ∀ td0 : ThreadDescriptor, td0.CacheAligned →
        (match Arena.allocate s.arena td0 sz os with
          | .error e => (Except.error e : Except Fault (Nat × Allocator))
          | .ok r =>
            .ok (r.out,
              { arena := r.arena, threadDescriptor := some r.td,
                osCalls := s.osCalls ++ r.osCalls })) = .ok (p, s1) →
        s1.KeysAligned ∧ p % 8 = 0 ∧
          ∃ sz1, some sz = some sz1 ∧ (isLargeSize sz1 = true → p % PAGE_SIZE = 0) := by
      intro td0 htd h
      cases ha : Arena.allocate s.arena td0 sz os with
      | error e => rw [ha] at h; cases h
      | ok r =>
        rw [ha] at h
        simp only [Except.ok.injEq, Prod.mk.injEq] at h
        obtain ⟨hp, hs1⟩ := h
        subst hp hs1
        obtain ⟨h1, h2, h3, h4⟩ := arena_allocate_aligned s.arena _ sz os r hs.1 htd hos ha
        refine ⟨⟨h1, ?_⟩, h3, sz, rfl, h4⟩
        intro td ht
        simp only [Option.some.injEq] at ht
        subst ht
        exact h2
    cases ht : s.threadDescriptor with
    | none =>
      rw [ht] at h
      exact key _ new_cache_aligned h
    | some td =>
      rw [ht] at h
      exact key td (hs.2 td ht) h

theorem arena_deallocate_aligned (a : Arena) (td : ThreadDescriptor) (ptr : Nat)
    (r : Deallocation) (ha : a.KeysAligned) (ht : td.CacheAligned) (hp : ptr % 8 = 0)
    (h : Arena.deallocate a td ptr = .ok r) : r.arena.KeysAligned ∧ r.td.CacheAligned := by
  have hfa : ∀ q b, Arena.freeAction a.arenaUsedPages ptr = .cachePush q b → q = ptr := by
    intro q b hq
    unfold Arena.freeAction at hq
    cases hl : UsedPages.lowerBound a.arenaUsedPages (getPage ptr) with
    | none => rw [hl] at hq; cases hq
    | some d =>
      rw [hl] at hq
      cases d with
      | large page len => cases hq
      | slab page binIdx consecutive =>
        simp only at hq
        split at hq
        · cases hq
        · simp only [FreeAction.cachePush.injEq] at hq
          exact hq.1.symm
  unfold Arena.deallocate at h
  cases hf : Arena.freeAction a.arenaUsedPages ptr with
  | invalidFree => rw [hf] at h; cases h
  | unmap q len =>
    rw [hf] at h
    simp only at h
    by_cases hm : munmapFails q len = true
    · rw [if_pos hm] at h; cases h
    · rw [if_neg hm] at h
      simp only [Except.ok.injEq] at h
      subst h
      exact ⟨ha, ht⟩
  | cachePush q b =>
    have hq := hfa q b hf
    rw [hf] at h
    simp only at h
    by_cases hb : smallSizeClasses.length ≤ b
    · rw [if_pos hb] at h; cases h
    · rw [if_neg hb] at h
      simp only [Except.ok.injEq] at h
      subst h
      obtain ⟨h1, h2⟩ := pushCache_aligned td a.bins q b ht ha (hq ▸ hp)
      exact ⟨h2, h1⟩

theorem deallocate_aligned (s s1 : Allocator) (ptr : Nat) (hs : s.KeysAligned)
    (hp : ptr % 8 = 0) (h : deallocate s ptr = .ok s1) : s1.KeysAligned := by
  unfold deallocate at h
  cases ht : s.threadDescriptor with
  | none => rw [ht] at h; cases h
  | some td =>
    rw [ht] at h
    simp only at h
    cases hd : Arena.deallocate s.arena td ptr with
    | error e => rw [hd] at h; cases h
    | ok r =>
      rw [hd] at h
      simp only [Except.ok.injEq] at h
      subst h
      obtain ⟨h1, h2⟩ := arena_deallocate_aligned s.arena td ptr r hs.1 (hs.2 td ht) hp hd
      refine ⟨h1, ?_⟩
      intro td1 ht1
      simp only [Option.some.injEq] at ht1
      subst ht1
      exact h2

theorem alignedFor_of (p n sz : Nat) (h8 : p % 8 = 0)
    (hl : isLargeSize sz = true → p % PAGE_SIZE = 0) : AlignedFor p n sz := by
  refine ⟨hl, fun _ => ⟨h8, ?_⟩⟩
  intro i c _ hc
  have hi : i < 28 := by
    have h1 := (List.getElem?_eq_some.1 hc).1
    exact h1
  rw [sizeClass_lookup i hi] at hc
  simp only [Option.some.injEq] at hc
  rw [← hc, sizeClass_min i hi]
  exact h8

theorem dropLive_subset (live : List (Nat × Nat)) (ptr : Nat) (e : Nat × Nat)
    (h : e ∈ dropLive live ptr) : e ∈ live := by
  induction live with
  | nil => simp [dropLive] at h
  | cons x rest ih =>
    obtain ⟨p, n⟩ := x
    unfold dropLive at h
    by_cases hp : p = ptr
    · rw [if_pos hp] at h
      exact List.mem_cons_of_mem _ h
    · rw [if_neg hp] at h
      rcases List.mem_cons.1 h with h | h
      · exact h ▸ List.mem_cons_self _ _
      · exact List.mem_cons_of_mem _ (ih h)

theorem step_aligned (r r1 : Run) (op : Op) (hr : r.Aligned)
    (ho : ∀ n os, op = .allocate n os → os % PAGE_SIZE = 0)
    (h : r.step op = some r1) : r1.Aligned := by
  obtain ⟨hs, hlive, hret⟩ := hr
  cases op with
  | allocate n os =>
    unfold Run.step at h
    simp only at h
    cases ha : allocate r.state n os with
    | error e => rw [ha] at h; cases h
    | ok v =>
      obtain ⟨p, s⟩ := v
      rw [ha] at h
      simp only [Option.some.injEq] at h
      subst h
      obtain ⟨h1, h2, sz, h3, h4⟩    := facade_allocate_aligned r.state s n os p hs (ho n os rfl) ha
      refine ⟨h1, ?_, ?_⟩
      · intro e he
        rcases List.mem_cons.1 he with he | he
        · rw [he]; exact h2
        · exact hlive e he
      · intro e he
        rcases List.mem_cons.1 he with he | he
        · rw [he]; exact ⟨sz, h3, alignedFor_of p n sz h2 h4⟩
        · exact hret e he
  | deallocate ptr =>
    unfold Run.step at h
    simp only at h
    by_cases hm : ptr ∈ r.live.map Prod.fst
    · rw [if_pos hm] at h
      cases hd : deallocate r.state ptr with
      | error e => rw [hd] at h; cases h
      | ok s =>
        rw [hd] at h
        simp only [Option.some.injEq] at h
        subst h
        obtain ⟨e, he, hep⟩ := List.mem_map.1 hm
        have hp : ptr % 8 = 0 := hep ▸ hlive e he
        exact ⟨deallocate_aligned r.state s ptr hs hp hd,
          fun e he => hlive e (dropLive_subset _ _ e he), hret⟩
    · rw [if_neg hm] at h; cases h

theorem steps_aligned (ops : List Op) (r r1 : Run) (hr : r.Aligned)
    (ho : ∀ n os, Op.allocate n os ∈ ops → os % PAGE_SIZE = 0)
    (h : r.steps ops = some r1) : r1.Aligned := by
  induction ops generalizing r with
  | nil =>
    simp only [Run.steps, Option.some.injEq] at h
    exact h ▸ hr
  | cons op rest ih =>
    unfold Run.steps at h
    cases hs : r.step op with
    | none => rw [hs] at h; cases h
    | some r2 =>
      rw [hs] at h
      simp only at h
      have h2 : r2.Aligned :=
        step_aligned r r2 op hr (fun n os e => ho n os (e ▸ List.mem_cons_self _ _)) hs
      exact ih r2 h2 (fun n os hm => ho n os (List.mem_cons_of_mem _ hm)) h

theorem new_run_aligned (sbrk : Nat → Nat) (hs : ∀ i, sbrk i % PAGE_SIZE = 0) :
    (Run.new sbrk).Aligned := by
  refine ⟨new_allocator_aligned sbrk hs, ?_, ?_⟩
  · intro e he
    cases he
  · intro e he
    cases he

/-- Alignment by the rounded size. In every run of one thread from a freshly
constructed allocator, with page-aligned addresses from `sbrk` and `mmap` and
`deallocate` applied to live pointers only, every pointer `p` returned by
`allocate(n)` has the alignment of the rounded size `sz` that `roundup(n)`
yields: when `sz` is at least `PAGE_SIZE`, `p` is a multiple of `PAGE_SIZE`,
otherwise `p` is a multiple of 8 and of `min(SC[bin_idx(n)], 8)`. The rounded
size of a request of `PAGE_SIZE` bytes or more can be below `PAGE_SIZE`. -/
theorem allocate_alignment (sbrk : Nat → Nat) (ops : List Op) (r : Run)
    (hsbrk : ∀ i, sbrk i % PAGE_SIZE = 0)
    (hos : ∀ n os, Op.allocate n os ∈ ops → os % PAGE_SIZE = 0)
    (hrun : (Run.new sbrk).steps ops = some r) :
    ∀ p n, (p, n) ∈ r.returned → ∃ sz, roundup n = some sz ∧ AlignedFor p n sz :=
  fun p n h => (steps_aligned ops _ r (new_run_aligned sbrk hsbrk) hos hrun).2.2 (p, n) h


theorem slabSize_aligned (sc : Nat) : slabSize sc % PAGE_SIZE = 0 := by
  unfold slabSize
  by_cases h : sc < sizeLim
  · rw [if_pos h]; rfl
  · rw [if_neg h, land_PAGE_MASK]
    unfold PAGE_SIZE WORD
    cases isOffPage (32 * sc % 18446744073709551616) <;> simp only [boolToNat] <;> omega

theorem contiguousBreak_aligned (brk0 : Nat) (h : brk0 % PAGE_SIZE = 0) (i : Nat) :
    contiguousBreak brk0 i % PAGE_SIZE = 0 := by
  unfold contiguousBreak
  induction i with
  | zero => simpa using h
  | succ k ih =>
    rw [List.range_succ, List.map_append, List.sum_append]
    have := slabSize_aligned (sizeClassOf k)
    simp only [List.map_cons, List.map_nil, List.sum_cons, List.sum_nil]
    unfold PAGE_SIZE at *
    omega

/-- Alignment by the rounded size, at a concrete run: after `allocate(3000)`
the call `allocate(5000)`, served by `mmap` at 0x7ffff7a00000, returns that
page-aligned address. -/
theorem allocate_alignment_witness :
    ((Run.new (contiguousBreak exampleBreak)).steps
        [.allocate 3000 0, .allocate 5000 0x7ffff7a00000]).map (fun r => r.returned)
      = some [(0x7ffff7a00000, 5000), (93824992878592, 3000)] ∧
    ∃ sz, roundup 5000 = some sz ∧ AlignedFor 0x7ffff7a00000 5000 sz := by
  have hret : ((Run.new (contiguousBreak exampleBreak)).steps
      [.allocate 3000 0, .allocate 5000 0x7ffff7a00000]).map (fun r => r.returned)
      = some [(0x7ffff7a00000, 5000), (93824992878592, 3000)] := by decide
  refine ⟨hret, ?_⟩
  cases hr : (Run.new (contiguousBreak exampleBreak)).steps
      [.allocate 3000 0, .allocate 5000 0x7ffff7a00000] with
  | none => rw [hr] at hret; cases hret
  | some r =>
    rw [hr] at hret
    simp only [Option.map, Option.some.injEq] at hret
    refine allocate_alignment (contiguousBreak exampleBreak)
      [.allocate 3000 0, .allocate 5000 0x7ffff7a00000] r ?_ ?_ hr 0x7ffff7a00000 5000 ?_
    · exact contiguousBreak_aligned exampleBreak (by decide)
    · intro n os h
      simp only [List.mem_cons, Op.allocate.injEq, List.mem_singleton, List.not_mem_nil,
        or_false] at h
      rcases h with h | h
      · rw [h.2]; decide
      · rw [h.2]; decide
    · rw [hret]
      exact List.mem_cons_self _ _

/-! ## Theorems: runs from a fresh allocator -/

/-- C3, at the failing input: from a freshly constructed allocator,
`p = allocate(3000); deallocate(p); p2 = allocate(3000)` returns
`p = 93824992878592` and then `p2 = 93824992881664 = p + 3072`, not `p`:
`popCache` reads `cache[24][1]`, which is null, instead of `cache[24][0]`, and
the request goes to the bin. -/
theorem round_trip_differs :
    ((Run.new (contiguousBreak exampleBreak)).steps
        [.allocate 3000 0, .deallocate 93824992878592, .allocate 3000 0]).map
        (fun r => r.returned)
      = some [(93824992881664, 3000), (93824992878592, 3000)] ∧
    93824992881664 ≠ 93824992878592 := by
  decide

/-- C1, at the failing input: a valid run of eight calls from a freshly
constructed allocator, with no call to the operating system after
construction, ends with the pointer 93824992881664 live twice: the last
`allocate(3000)` returns a pointer that is still live. -/
theorem live_pointers_coincide :
    ((Run.new (contiguousBreak exampleBreak)).steps
        [.allocate 3000 0, .allocate 3000 0,
         .deallocate 93824992878592, .deallocate 93824992881664,
         .allocate 3000 0, .allocate 3000 0,
         .deallocate 93824992884736, .allocate 3000 0]).map
        (fun r => (r.live, r.state.osCalls.length))
      = some ([(93824992881664, 3000), (93824992881664, 3000)], 28) := by
  decide

/-! ## Theorems: the bin -/

/-- A key below every key of the free-list is placed at its head. -/
theorem emplace_below (fl : FreeList) (key v : Nat) (h : ∀ e ∈ fl, key < e.1) :
    FreeList.emplace fl key v = (key, v) :: fl := by
  cases fl with
  | nil => rfl
  | cons x rest =>
    obtain ⟨k0, c0⟩ := x
    have h0 : key < k0 := h (k0, c0) (List.mem_cons_self _ _)
    unfold FreeList.emplace
    rw [if_pos h0]

/-- Every size class is positive. -/
theorem sizeClassOf_pos : ∀ i, i < 28 → 0 < sizeClassOf i := by decide

/-- C19: for every class `i` and every free-list in ascending order with
pairwise disjoint runs whose lowest-address entry is `(a, k)`, with `k` a
positive `std::size_t`, `Bin::allocate()` returns `a`, makes no call to the
operating system, leaves the used pages as they are, and leaves the free-list
with `(a, k)` erased when `k = 1` and replaced by `(a + SC[i], k - 1)`
otherwise, all other entries unchanged. -/
theorem bin_allocate_from_free_list (i : Nat) (hi : i < 28) (a k : Nat) (rest : FreeList)
    (used : UsedPages) (os : Nat) (hk1 : 0 < k) (hk2 : k < WORD)
    (hasc : FreeList.Ascending ((a, k) :: rest))
    (hdis : FreeList.RunsDisjoint (sizeClassOf i) ((a, k) :: rest)) :
    (Bin.allocate i ((a, k) :: rest) used os).out = a ∧
    (Bin.allocate i ((a, k) :: rest) used os).osCalls = [] ∧
    (Bin.allocate i ((a, k) :: rest) used os).arenaUsedPages = used ∧
    (Bin.allocate i ((a, k) :: rest) used os).binFreeChunks
      = if k = 1 then rest else (increment a (sizeClassOf i), k - 1) :: rest := by
  have hc : (k + WORD - 1) % WORD = k - 1 := by
    unfold WORD at *
    omega
  rw [bin_allocate_cons, hc]
  by_cases h1 : k = 1
  · have h0 : ¬ (k - 1 > 0) := by omega
    rw [if_neg h0, if_pos h1]
    exact ⟨rfl, rfl, rfl, rfl⟩
  · have h0 : k - 1 > 0 := by omega
    rw [if_pos h0, if_neg h1]
    refine ⟨rfl, rfl, rfl, ?_⟩
    apply emplace_below
    intro e he
    have hlt : a < e.1 := by
      have h2 := (List.pairwise_cons.1 hasc).1 e.1 (List.mem_map_of_mem Prod.fst he)
      exact h2
    have hd := (List.pairwise_cons.1 hdis).1 e he
    have hsc := sizeClassOf_pos i hi
    have hmul : 2 * sizeClassOf i ≤ k * sizeClassOf i :=
      Nat.mul_le_mul_right _ (by omega)
    have hmod : increment a (sizeClassOf i) ≤ a + sizeClassOf i := Nat.mod_le _ _
    have hnn : 0 ≤ e.2 * sizeClassOf i := Nat.zero_le _
    simp only at hd
    omega

/-- C19, at a concrete input: the bootstrap entry of bin 24. -/
theorem bin_allocate_from_free_list_witness :
    (Bin.allocate 24 [(93824992878592, 32)] [] 0).out = 93824992878592 ∧
    (Bin.allocate 24 [(93824992878592, 32)] [] 0).osCalls = [] ∧
    (Bin.allocate 24 [(93824992878592, 32)] [] 0).arenaUsedPages = [] ∧
    (Bin.allocate 24 [(93824992878592, 32)] [] 0).binFreeChunks
      = if 32 = 1 then [] else [(increment 93824992878592 (sizeClassOf 24), 32 - 1)] :=
  bin_allocate_from_free_list 24 (by decide) 93824992878592 32 [] [] 0 (by decide) (by decide)
    (by simp [FreeList.Ascending]) (by simp [FreeList.RunsDisjoint])

/-- The page count of a slab is its size in pages. -/
theorem slabConsecutive_eq (sc : Nat) : slabConsecutive sc = slabSize sc / PAGE_SIZE := by
  unfold slabConsecutive slabSize
  by_cases h : sc < sizeLim
  · rw [if_pos h, if_pos h]; rfl
  · rw [if_neg h, if_neg h]

/-- The count of a fresh slab's free-list entry does not wrap. -/
theorem slabObjs_pred : ∀ i, i < 28 →
    (slabSize (sizeClassOf i) / sizeClassOf i + WORD - 1) % WORD
      = slabSize (sizeClassOf i) / sizeClassOf i - 1 := by
  decide

/-- The descriptors of the index stay through `emplace`. -/
theorem mem_usedPages_emplace_old (used : UsedPages) (d e : PageDescriptor) (h : e ∈ used) :
    e ∈ UsedPages.emplace used d := by
  induction used with
  | nil => cases h
  | cons x rest ih =>
    unfold UsedPages.emplace
    by_cases h1 : x.page < d.page
    · rw [if_pos h1]; exact List.mem_cons_of_mem _ h
    · rw [if_neg h1]
      by_cases h2 : x.page = d.page
      · rw [if_pos h2]; exact h
      · rw [if_neg h2]
        rcases List.mem_cons.1 h with h | h
        · exact h ▸ List.mem_cons_self _ _
        · exact List.mem_cons_of_mem _ (ih h)

/-- A descriptor whose page is not a key of the index is in the index after
`emplace`. -/
theorem mem_usedPages_emplace_new (used : UsedPages) (d : PageDescriptor)
    (h : ∀ e ∈ used, e.page ≠ d.page) : d ∈ UsedPages.emplace used d := by
  induction used with
  | nil => exact List.mem_cons_self _ _
  | cons x rest ih =>
    unfold UsedPages.emplace
    by_cases h1 : x.page < d.page
    · rw [if_pos h1]; exact List.mem_cons_self _ _
    · rw [if_neg h1]
      have h2 : x.page ≠ d.page := h x (List.mem_cons_self _ _)
      rw [if_neg h2]
      exact List.mem_cons_of_mem _ (ih (fun e he => h e (List.mem_cons_of_mem _ he)))

/-- The branch of `Bin::allocate()` for an empty free-list: for every class
`i` the call makes one call `mmap` of the slab size of the class, returns its
address `base`, hands the slab descriptor `(getPage(base), i, slab / PAGE_SIZE)`
to `emplace` on the used-page index, and leaves the free-list equal to the
single entry `(base + SC[i], slab / SC[i] - 1)`. The descriptors of the index
stay, and the new descriptor is in the index when no descriptor had its
page. -/
theorem empty_bin_maps_slab (i : Nat) (hi : i < 28) (used : UsedPages) (os : Nat) :
    (Bin.allocate i [] used os).out = os ∧
    (Bin.allocate i [] used os).osCalls = [.mmap (slabSize (sizeClassOf i)) os] ∧
    (Bin.allocate i [] used os).arenaUsedPages
      = UsedPages.emplace used
          (.slab (getPage os) i (slabSize (sizeClassOf i) / PAGE_SIZE)) ∧
    (Bin.allocate i [] used os).binFreeChunks
      = [(increment os (sizeClassOf i), slabSize (sizeClassOf i) / sizeClassOf i - 1)] ∧
    ((∀ e ∈ used, e.page ≠ getPage os) →
      PageDescriptor.slab (getPage os) i (slabSize (sizeClassOf i) / PAGE_SIZE)
        ∈ (Bin.allocate i [] used os).arenaUsedPages) ∧
    (∀ e ∈ used, e ∈ (Bin.allocate i [] used os).arenaUsedPages) := by
  have hb : Bin.allocate i [] used os =
      { out := os
        binFreeChunks := FreeList.emplace [] (increment os (sizeClassOf i))
          ((slabSize (sizeClassOf i) / sizeClassOf i + WORD - 1) % WORD)
        arenaUsedPages := UsedPages.emplace used
          (.slab (getPage os) i (slabConsecutive (sizeClassOf i)))
        osCalls := [.mmap (slabSize (sizeClassOf i)) os] } := rfl
  rw [hb, slabObjs_pred i hi, slabConsecutive_eq]
  refine ⟨rfl, rfl, rfl, rfl, ?_, ?_⟩
  · intro h
    exact mem_usedPages_emplace_new used _ h
  · intro e he
    exact mem_usedPages_emplace_old used _ e he

/-- The branch for an empty free-list, at a concrete input: bin 24 and the
example mapping. -/
theorem empty_bin_maps_slab_witness :
    (Bin.allocate 24 [] [] exampleMapping).out = exampleMapping ∧
    (Bin.allocate 24 [] [] exampleMapping).binFreeChunks = [(exampleMapping + 3072, 31)] ∧
    (Bin.allocate 24 [] [] exampleMapping).arenaUsedPages
      = [.slab (getPage exampleMapping) 24 24] := by
  have h := empty_bin_maps_slab 24 (by decide) [] exampleMapping
  refine ⟨h.1, ?_, ?_⟩
  · rw [h.2.2.2.1]; decide
  · rw [h.2.2.1]; decide

/-- A key is not found exactly when no entry has it. -/
theorem find_none_iff (fl : FreeList) (key : Nat) :
    FreeList.find fl key = none ↔ key ∉ fl.map Prod.fst := by
  induction fl with
  | nil => simp [FreeList.find]
  | cons x rest ih =>
    obtain ⟨k, c⟩ := x
    unfold FreeList.find
    by_cases h : k = key
    · rw [if_pos h]; simp [h]
    · rw [if_neg h, ih]
      simp only [List.map_cons, List.mem_cons, not_or]
      exact ⟨fun h1 => ⟨fun e => h e.symm, h1⟩, fun h1 => h1.2⟩

/-- After an assignment the key maps to the assigned count. -/
theorem find_assign_same (fl : FreeList) (key v c : Nat) (h : FreeList.find fl key = some c) :
    FreeList.find (FreeList.assign fl key v) key = some v := by
  induction fl with
  | nil => simp [FreeList.find] at h
  | cons x rest ih =>
    obtain ⟨k, c0⟩ := x
    unfold FreeList.find at h
    unfold FreeList.assign
    by_cases hk : k = key
    · rw [if_pos hk]; unfold FreeList.find; rw [if_pos hk]
    · rw [if_neg hk] at h
      rw [if_neg hk]; unfold FreeList.find; rw [if_neg hk]
      exact ih h

/-- An assignment leaves the other keys as they are. -/
theorem find_assign_ne (fl : FreeList) (key v other : Nat) (h : other ≠ key) :
    FreeList.find (FreeList.assign fl key v) other = FreeList.find fl other := by
  induction fl with
  | nil => rfl
  | cons x rest ih =>
    obtain ⟨k, c0⟩ := x
    unfold FreeList.assign
    by_cases hk : k = key
    · rw [if_pos hk]
      have hko : ¬ k = other := fun e => h (e ▸ hk)
      unfold FreeList.find
      rw [if_neg hko, if_neg hko]
    · rw [if_neg hk]
      unfold FreeList.find
      by_cases hko : k = other
      · rw [if_pos hko, if_pos hko]
      · rw [if_neg hko, if_neg hko]; exact ih

/-- A key that was absent maps to the emplaced count. -/
theorem find_emplace_same (fl : FreeList) (key v : Nat) (h : FreeList.find fl key = none) :
    FreeList.find (FreeList.emplace fl key v) key = some v := by
  induction fl with
  | nil => simp [FreeList.emplace, FreeList.find]
  | cons x rest ih =>
    obtain ⟨k, c0⟩ := x
    unfold FreeList.find at h
    by_cases hk : k = key
    · rw [if_pos hk] at h; cases h
    · rw [if_neg hk] at h
      unfold FreeList.emplace
      by_cases h1 : key < k
      · rw [if_pos h1]; unfold FreeList.find; rw [if_pos rfl]
      · rw [if_neg h1, if_neg (fun e => hk e.symm)]
        unfold FreeList.find; rw [if_neg hk]
        exact ih h

/-- An emplace leaves the other keys as they are. -/
theorem find_emplace_ne (fl : FreeList) (key v other : Nat) (h : other ≠ key) :
    FreeList.find (FreeList.emplace fl key v) other = FreeList.find fl other := by
  induction fl with
  | nil =>
    unfold FreeList.emplace FreeList.find
    rw [if_neg (fun e => h e.symm)]
    rfl
  | cons x rest ih =>
    obtain ⟨k, c0⟩ := x
    unfold FreeList.emplace
    by_cases h1 : key < k
    · rw [if_pos h1]
      conv_lhs => unfold FreeList.find
      rw [if_neg (fun e => h e.symm)]
    · rw [if_neg h1]
      by_cases h2 : key = k
      · rw [if_pos h2]
      · rw [if_neg h2]
        unfold FreeList.find
        by_cases hko : k = other
        · rw [if_pos hko, if_pos hko]
        · rw [if_neg hko, if_neg hko]; exact ih

/-- An erase leaves the other keys as they are. -/
theorem find_erase_ne (fl : FreeList) (key other : Nat) (h : other ≠ key) :
    FreeList.find (FreeList.erase fl key) other = FreeList.find fl other := by
  induction fl with
  | nil => rfl
  | cons x rest ih =>
    obtain ⟨k, c0⟩ := x
    unfold FreeList.erase
    by_cases hk : k = key
    · rw [if_pos hk]
      have hko : ¬ k = other := fun e => h (e ▸ hk)
      conv_rhs => unfold FreeList.find
      rw [if_neg hko]
    · rw [if_neg hk]
      unfold FreeList.find
      by_cases hko : k = other
      · rw [if_pos hko, if_pos hko]
      · rw [if_neg hko, if_neg hko]; exact ih

/-- With distinct keys an erased key is no longer found. -/
theorem find_erase_same (fl : FreeList) (key : Nat) (hd : fl.KeysDistinct) :
    FreeList.find (FreeList.erase fl key) key = none := by
  induction fl with
  | nil => rfl
  | cons x rest ih =>
    obtain ⟨k, c0⟩ := x
    have hd2 := List.nodup_cons.1 hd
    unfold FreeList.erase
    by_cases hk : k = key
    · rw [if_pos hk]
      rw [find_none_iff]
      exact hk ▸ hd2.1
    · rw [if_neg hk]
      unfold FreeList.find
      rw [if_neg hk]
      exact ih hd2.2

/-- The sum of counts of a list with one more entry. -/
theorem counts_cons (k c : Nat) (rest : FreeList) :
    FreeList.counts ((k, c) :: rest) = c + FreeList.counts rest := by
  simp [FreeList.counts]

/-- An assignment changes the sum of counts by the difference of the two counts. -/
theorem counts_assign (fl : FreeList) (key v c : Nat) (h : FreeList.find fl key = some c) :
    FreeList.counts (FreeList.assign fl key v) + c = FreeList.counts fl + v := by
  induction fl with
  | nil => simp [FreeList.find] at h
  | cons x rest ih =>
    obtain ⟨k, c0⟩ := x
    unfold FreeList.find at h
    unfold FreeList.assign
    by_cases hk : k = key
    · rw [if_pos hk] at h
      simp only [Option.some.injEq] at h
      rw [if_pos hk, counts_cons, counts_cons]
      omega
    · rw [if_neg hk] at h
      rw [if_neg hk, counts_cons, counts_cons]
      have := ih h
      omega

/-- An emplace of an absent key adds its count to the sum. -/
theorem counts_emplace (fl : FreeList) (key v : Nat) (h : FreeList.find fl key = none) :
    FreeList.counts (FreeList.emplace fl key v) = FreeList.counts fl + v := by
  induction fl with
  | nil => simp [FreeList.emplace, FreeList.counts]
  | cons x rest ih =>
    obtain ⟨k, c0⟩ := x
    unfold FreeList.find at h
    by_cases hk : k = key
    · rw [if_pos hk] at h; cases h
    · rw [if_neg hk] at h
      unfold FreeList.emplace
      by_cases h1 : key < k
      · rw [if_pos h1]
        simp only [counts_cons]
        omega
      · rw [if_neg h1, if_neg (fun e => hk e.symm)]
        simp only [counts_cons]
        have := ih h
        omega

/-- An erase takes the count of the key from the sum. -/
theorem counts_erase (fl : FreeList) (key c : Nat) (h : FreeList.find fl key = some c) :
    FreeList.counts (FreeList.erase fl key) + c = FreeList.counts fl := by
  induction fl with
  | nil => simp [FreeList.find] at h
  | cons x rest ih =>
    obtain ⟨k, c0⟩ := x
    unfold FreeList.find at h
    unfold FreeList.erase
    by_cases hk : k = key
    · rw [if_pos hk] at h
      simp only [Option.some.injEq] at h
      rw [if_pos hk, counts_cons]
      omega
    · rw [if_neg hk] at h
      rw [if_neg hk, counts_cons, counts_cons]
      have := ih h
      omega

/-- An assignment keeps the keys. -/
theorem keys_assign (fl : FreeList) (key v : Nat) :
    (FreeList.assign fl key v).map Prod.fst = fl.map Prod.fst := by
  induction fl with
  | nil => rfl
  | cons x rest ih =>
    obtain ⟨k, c0⟩ := x
    unfold FreeList.assign
    by_cases hk : k = key
    · rw [if_pos hk]; rfl
    · rw [if_neg hk, List.map_cons, List.map_cons, ih]

/-- An assignment keeps the keys distinct. -/
theorem keysDistinct_assign (fl : FreeList) (key v : Nat) (hd : fl.KeysDistinct) :
    (FreeList.assign fl key v).KeysDistinct := by
  unfold FreeList.KeysDistinct
  rw [keys_assign]
  exact hd

/-- An erase keeps the keys distinct. -/
theorem keysDistinct_erase (fl : FreeList) (key : Nat) (hd : fl.KeysDistinct) :
    (FreeList.erase fl key).KeysDistinct := by
  induction fl with
  | nil => exact hd
  | cons x rest ih =>
    obtain ⟨k, c0⟩ := x
    have hd2 := List.nodup_cons.1 hd
    unfold FreeList.erase
    by_cases hk : k = key
    · rw [if_pos hk]; exact hd2.2
    · rw [if_neg hk]
      refine List.nodup_cons.2 ⟨?_, ih hd2.2⟩
      intro hm
      have h1 : FreeList.find (FreeList.erase rest key) k ≠ none := by
        rw [Ne, find_none_iff]; exact fun h => h hm
      rw [find_erase_ne rest key k hk] at h1
      exact h1 ((find_none_iff rest k).2 hd2.1)

/-- An emplace of an absent key keeps the keys distinct. -/
theorem keysDistinct_emplace (fl : FreeList) (key v : Nat) (hd : fl.KeysDistinct)
    (h : FreeList.find fl key = none) : (FreeList.emplace fl key v).KeysDistinct := by
  induction fl with
  | nil => simp [FreeList.emplace, FreeList.KeysDistinct]
  | cons x rest ih =>
    obtain ⟨k, c0⟩ := x
    have hd2 := List.nodup_cons.1 hd
    have hkey := h
    unfold FreeList.find at h
    by_cases hk : k = key
    · rw [if_pos hk] at h; cases h
    · rw [if_neg hk] at h
      unfold FreeList.emplace
      by_cases h1 : key < k
      · rw [if_pos h1]
        exact List.nodup_cons.2 ⟨(find_none_iff _ key).1 hkey, hd⟩
      · rw [if_neg h1, if_neg (fun e => hk e.symm)]
        refine List.nodup_cons.2 ⟨?_, ih hd2.2 h⟩
        intro hm
        have h3 : FreeList.find (FreeList.emplace rest key v) k ≠ none := by
          rw [Ne, find_none_iff]; exact fun h => h hm
        rw [find_emplace_ne rest key v k hk] at h3
        exact h3 ((find_none_iff rest k).2 hd2.1)


/-- Every size class is at most 3840. -/
theorem sizeClassOf_le : ∀ i, i < 28 → sizeClassOf i ≤ 3840 := by decide

/-- A count of the free-list is at most the sum of all counts. -/
theorem find_le_counts (fl : FreeList) (key c : Nat) (h : FreeList.find fl key = some c) :
    c ≤ FreeList.counts fl := by
  have := counts_erase fl key c h
  omega

/-- C18: the merge policy of `Bin::giveBack(p)` on a free-list with distinct
keys whose counts sum to less than `2 ^ 64 - 1`, with `L = p - SC[i]` and
`R = p + SC[i]`. If `L` is a key and `R` is not, the count of `L` grows by 1.
If both are keys, the count of `L` becomes `L.count + 1 + R.count` and `R` is
erased. If `R` is a key and `L` and `p` are not, the entry `(p, 1 + R.count)`
is inserted and `R` is erased. In each case every other key keeps its count,
the keys stay distinct, and the sum of all counts grows by exactly 1. -/
theorem giveBack_merge (i : Nat) (hi : i < 28) (fl : FreeList) (p : Nat)
    (hd : fl.KeysDistinct) (hsum : fl.counts + 1 < WORD) :
    (∀ lc, FreeList.find fl (decrement p (sizeClassOf i)) = some lc →
        FreeList.find fl (increment p (sizeClassOf i)) = none →
      FreeList.find (Bin.giveBack i fl p) (decrement p (sizeClassOf i)) = some (lc + 1) ∧
      (∀ key, key ≠ decrement p (sizeClassOf i) →
        FreeList.find (Bin.giveBack i fl p) key = FreeList.find fl key) ∧
      (Bin.giveBack i fl p).KeysDistinct ∧
      (Bin.giveBack i fl p).counts = fl.counts + 1) ∧
    (∀ lc rc, FreeList.find fl (decrement p (sizeClassOf i)) = some lc →
        FreeList.find fl (increment p (sizeClassOf i)) = some rc →
      FreeList.find (Bin.giveBack i fl p) (decrement p (sizeClassOf i))
        = some (lc + 1 + rc) ∧
      FreeList.find (Bin.giveBack i fl p) (increment p (sizeClassOf i)) = none ∧
      (∀ key, key ≠ decrement p (sizeClassOf i) → key ≠ increment p (sizeClassOf i) →
        FreeList.find (Bin.giveBack i fl p) key = FreeList.find fl key) ∧
      (Bin.giveBack i fl p).KeysDistinct ∧
      (Bin.giveBack i fl p).counts = fl.counts + 1) ∧
    (∀ rc, FreeList.find fl (decrement p (sizeClassOf i)) = none →
        FreeList.find fl (increment p (sizeClassOf i)) = some rc →
        FreeList.find fl p = none →
      FreeList.find (Bin.giveBack i fl p) p = some (1 + rc) ∧
      FreeList.find (Bin.giveBack i fl p) (increment p (sizeClassOf i)) = none ∧
      (∀ key, key ≠ p → key ≠ increment p (sizeClassOf i) →
        FreeList.find (Bin.giveBack i fl p) key = FreeList.find fl key) ∧
      (Bin.giveBack i fl p).KeysDistinct ∧
      (Bin.giveBack i fl p).counts = fl.counts + 1) := by
  have hpos := sizeClassOf_pos i hi
  have hle := sizeClassOf_le i hi
  have hLR : decrement p (sizeClassOf i) ≠ increment p (sizeClassOf i) := by
    unfold decrement increment WORD
    omega
  have hpR : p ≠ increment p (sizeClassOf i) := by
    unfold increment WORD
    omega
  refine ⟨?_, ?_, ?_⟩
  · intro lc hl hr
    have hlc := find_le_counts fl _ lc hl
    have hmod : (lc + 1) % WORD = lc + 1 := Nat.mod_eq_of_lt (by omega)
    have hgb : Bin.giveBack i fl p
        = FreeList.assign fl (decrement p (sizeClassOf i)) (lc + 1) := by
      unfold Bin.giveBack
      simp only [hl, hr, hmod]
    rw [hgb]
    refine ⟨find_assign_same fl _ _ lc hl, fun key hk => find_assign_ne fl _ _ key hk,
      keysDistinct_assign fl _ _ hd, ?_⟩
    have := counts_assign fl _ (lc + 1) lc hl
    omega
  · intro lc rc hl hr
    have hlc := counts_erase fl _ lc hl
    have hr2 : FreeList.find (FreeList.erase fl (decrement p (sizeClassOf i)))
        (increment p (sizeClassOf i)) = some rc := by
      rw [find_erase_ne fl _ _ (fun e => hLR e.symm)]; exact hr
    have hrc := find_le_counts _ _ rc hr2
    have hmod1 : (lc + 1) % WORD = lc + 1 := Nat.mod_eq_of_lt (by omega)
    have hmod2 : (lc + 1 + rc) % WORD = lc + 1 + rc := Nat.mod_eq_of_lt (by omega)
    have hgb : Bin.giveBack i fl p
        = FreeList.erase
            (FreeList.assign (FreeList.assign fl (decrement p (sizeClassOf i)) (lc + 1))
              (decrement p (sizeClassOf i)) (lc + 1 + rc))
            (increment p (sizeClassOf i)) := by
      unfold Bin.giveBack
      simp only [hl, hr, hmod1, hmod2]
    have h1 := find_assign_same fl _ (lc + 1) lc hl
    have h2 := find_assign_same _ _ (lc + 1 + rc) (lc + 1) h1
    have hd2 := keysDistinct_assign _ (decrement p (sizeClassOf i)) (lc + 1 + rc)
      (keysDistinct_assign fl (decrement p (sizeClassOf i)) (lc + 1) hd)
    have hrr : FreeList.find
        (FreeList.assign (FreeList.assign fl (decrement p (sizeClassOf i)) (lc + 1))
          (decrement p (sizeClassOf i)) (lc + 1 + rc)) (increment p (sizeClassOf i))
        = some rc := by
      rw [find_assign_ne _ _ _ _ (fun e => hLR e.symm),
        find_assign_ne _ _ _ _ (fun e => hLR e.symm)]
      exact hr
    rw [hgb]
    refine ⟨?_, find_erase_same _ _ hd2, ?_, keysDistinct_erase _ _ hd2, ?_⟩
    · rw [find_erase_ne _ _ _ hLR]; exact h2
    · intro key hk1 hk2
      rw [find_erase_ne _ _ _ hk2, find_assign_ne _ _ _ _ hk1, find_assign_ne _ _ _ _ hk1]
    · have c1 := counts_assign fl _ (lc + 1) lc hl
      have c2 := counts_assign _ _ (lc + 1 + rc) (lc + 1) h1
      have c3 := counts_erase _ _ rc hrr
      omega
  · intro rc hl hr hp
    have hrc := find_le_counts fl _ rc hr
    have hmod : (1 + rc) % WORD = 1 + rc := Nat.mod_eq_of_lt (by omega)
    have hgb : Bin.giveBack i fl p
        = FreeList.erase (FreeList.emplace fl p (1 + rc)) (increment p (sizeClassOf i)) := by
      unfold Bin.giveBack
      simp only [hl, hr, hmod]
    have hd2 := keysDistinct_emplace fl p (1 + rc) hd hp
    have hrr : FreeList.find (FreeList.emplace fl p (1 + rc)) (increment p (sizeClassOf i))
        = some rc := by
      rw [find_emplace_ne _ _ _ _ (fun e => hpR e.symm)]; exact hr
    rw [hgb]
    refine ⟨?_, find_erase_same _ _ hd2, ?_, keysDistinct_erase _ _ hd2, ?_⟩
    · rw [find_erase_ne _ _ _ hpR]; exact find_emplace_same fl p _ hp
    · intro key hk1 hk2
      rw [find_erase_ne _ _ _ hk2, find_emplace_ne _ _ _ _ hk1]
    · have c1 := counts_emplace fl p (1 + rc) hp
      have c3 := counts_erase _ _ rc hrr
      omega

/-- C18, at a concrete input: both neighbours of 93824992881664 are keys. -/
theorem giveBack_merge_witness :
    FreeList.find (Bin.giveBack 24 [(93824992878592, 1), (93824992884736, 30)] 93824992881664)
        93824992878592 = some (1 + 1 + 30) ∧
    (Bin.giveBack 24 [(93824992878592, 1), (93824992884736, 30)] 93824992881664).counts
      = FreeList.counts [(93824992878592, 1), (93824992884736, 30)] + 1 := by
  have h := (giveBack_merge 24 (by decide) [(93824992878592, 1), (93824992884736, 30)]
    93824992881664 (by unfold FreeList.KeysDistinct; decide) (by decide)).2.1 1 30
    (by decide) (by decide)
  exact ⟨h.1, h.2.2.2.2⟩

/-! ## Theorems: the thread cache -/

/-- The reads of `purge()` for a class stay inside the cache when the class
holds at most 16 entries and discards at least one. -/
theorem purgeIndices_bounded (topIdx botIdx : Nat) (ht : topIdx < THREAD_CACHE_SIZE)
    (hb : botIdx ≤ topIdx) :
    (purgeIndices topIdx botIdx).all (fun j => decide (j < THREAD_CACHE_SIZE)) = true := by
  rw [List.all_eq_true]
  intro j hj
  unfold purgeIndices at hj
  rcases List.mem_append.1 hj with h | h
  · obtain ⟨k, _, hk⟩ := List.mem_map.1 h
    have : j < THREAD_CACHE_SIZE := by omega
    exact decide_eq_true this
  · have hjb : j = botIdx := by simpa using h
    have : j < THREAD_CACHE_SIZE := by omega
    exact decide_eq_true this

/-- The effect of the body of `purge()` on the counts: the class `i` loses
`min(decayRate[i], topIdxs[i])` entries and, if it held any, gets a decay rate
of at least 16; the other classes keep their counts. -/
theorem purgeClass_counts (td : ThreadDescriptor) (bins : Nat → FreeList) (i : Nat)
    (h : td.CountsBounded) :
    ∃ r, ThreadDescriptor.purgeClass td bins i = .ok r ∧
      r.1.topIdxs i = td.topIdxs i - min (td.decayRate i) (td.topIdxs i) ∧
      (0 < td.topIdxs i → 16 ≤ r.1.decayRate i) ∧
      (td.topIdxs i = 0 → r.1.decayRate i = td.decayRate i) ∧
      ∀ j, j ≠ i → r.1.topIdxs j = td.topIdxs j ∧ r.1.decayRate j = td.decayRate j := by
  unfold ThreadDescriptor.purgeClass
  by_cases h0 : td.topIdxs i = 0
  · rw [if_pos h0]
    exact ⟨(td, bins), rfl, by simp [h0], fun hc => by omega, fun _ => rfl,
      fun j _ => ⟨rfl, rfl⟩⟩
  · rw [if_neg h0]
    obtain ⟨hle, hrate⟩ := h i
    have hr := hrate (by omega)
    unfold THREAD_CACHE_SIZE at hle
    have hall := purgeIndices_bounded (td.topIdxs i - 1)
      (1 + (td.topIdxs i - 1) - min (td.decayRate i) (td.topIdxs i))
      (by unfold THREAD_CACHE_SIZE; omega) (by omega)
    simp only
    rw [if_pos hall]
    refine ⟨_, rfl, ?_, ?_, ?_, ?_⟩
    · show setAt td.topIdxs i _ i = _
      rw [setAt_apply, if_pos rfl]
      omega
    · intro _
      show 16 ≤ setAt td.decayRate i _ i
      rw [setAt_apply, if_pos rfl]
      exact le_max_left _ _
    · intro hc
      exact absurd hc h0
    · intro j hj
      constructor
      · show setAt td.topIdxs i _ j = _
        rw [setAt_apply, if_neg hj]
      · show setAt td.decayRate i _ j = _
        rw [setAt_apply, if_neg hj]

/-- The body of `purge()` keeps the counts in range. -/
theorem purgeClass_bounded (td : ThreadDescriptor) (bins : Nat → FreeList) (i : Nat)
    (h : td.CountsBounded) (r : ThreadDescriptor × (Nat → FreeList))
    (hr : ThreadDescriptor.purgeClass td bins i = .ok r) : r.1.CountsBounded := by
  obtain ⟨r1, h1, h2, h3, h4, h5⟩ := purgeClass_counts td bins i h
  rw [h1] at hr
  simp only [Except.ok.injEq] at hr
  subst hr
  intro j
  by_cases hj : j = i
  · subst hj
    have hb := h j
    unfold THREAD_CACHE_SIZE at *
    refine ⟨by omega, ?_⟩
    intro hpos
    have := h3 (by omega)
    omega
  · rw [(h5 j hj).1, (h5 j hj).2]
    exact h j

/-- The loop of `purge()` over a list of distinct classes returns, keeps the
counts in range, and acts on the counts class by class. -/
theorem purge_fold (l : List Nat) (hl : l.Nodup) (td : ThreadDescriptor)
    (bins : Nat → FreeList) (h : td.CountsBounded) :
    ∃ r, l.foldl ThreadDescriptor.purgeNext (.ok (td, bins)) = .ok r ∧ r.1.CountsBounded ∧
      (∀ i, i ∈ l →
        r.1.topIdxs i = td.topIdxs i - min (td.decayRate i) (td.topIdxs i) ∧
        (0 < td.topIdxs i → 16 ≤ r.1.decayRate i) ∧
        (td.topIdxs i = 0 → r.1.decayRate i = td.decayRate i)) ∧
      (∀ i, i ∉ l → r.1.topIdxs i = td.topIdxs i ∧ r.1.decayRate i = td.decayRate i) := by
  induction l generalizing td bins with
  | nil =>
    refine ⟨(td, bins), rfl, h, ?_, ?_⟩
    · intro i hi
      cases hi
    · intro i _
      exact ⟨rfl, rfl⟩
  | cons j rest ih =>
    obtain ⟨hj, hrest⟩ := List.nodup_cons.1 hl
    obtain ⟨r1, h1, h2, h3, h4, h5⟩ := purgeClass_counts td bins j h
    have hb1 := purgeClass_bounded td bins j h r1 h1
    obtain ⟨r, hr, hrb, hin, hout⟩ := ih hrest r1.1 r1.2 hb1
    refine ⟨r, ?_, hrb, ?_, ?_⟩
    · rw [List.foldl_cons]
      have : ThreadDescriptor.purgeNext (.ok (td, bins)) j = .ok (r1.1, r1.2) := h1
      rw [this]
      exact hr
    · intro i hi
      rcases List.mem_cons.1 hi with hij | hir
      · subst hij
        obtain ⟨o1, o2⟩ := hout i hj
        rw [o1, o2]
        exact ⟨h2, h3, h4⟩
      · have hne : i ≠ j := fun e => hj (e ▸ hir)
        obtain ⟨i1, i2, i3⟩ := hin i hir
        have e1 := (h5 i hne).1
        have e2 := (h5 i hne).2
        simp only [e1, e2] at i1 i2 i3
        exact ⟨i1, i2, i3⟩
    · intro i hi
      have hne : i ≠ j := fun e => hi (e ▸ List.mem_cons_self _ _)
      have hni : i ∉ rest := fun e => hi (List.mem_cons_of_mem _ e)
      obtain ⟨o1, o2⟩ := hout i hni
      rw [o1, o2]
      exact h5 i hne

/-- A tick of `purge()` returns on counts in range, keeps them in range, and
takes `min(decayRate[i], topIdxs[i])` entries from every class. -/
theorem purge_counts (td : ThreadDescriptor) (bins : Nat → FreeList) (h : td.CountsBounded) :
    ∃ r, ThreadDescriptor.purge td bins = .ok r ∧ r.1.CountsBounded ∧
      ∀ i, i < 28 →
        r.1.topIdxs i = td.topIdxs i - min (td.decayRate i) (td.topIdxs i) ∧
        (0 < td.topIdxs i → 16 ≤ r.1.decayRate i) ∧
        (td.topIdxs i = 0 → r.1.decayRate i = td.decayRate i) := by
  obtain ⟨r, hr, hb, hin, _⟩ :=
    purge_fold (List.range smallSizeClasses.length) (List.nodup_range _) td bins h
  refine ⟨r, hr, hb, fun i hi => hin i ?_⟩
  rw [List.mem_range]
  exact hi


/-- The effect of `pushCache` on the counts. -/
theorem pushCache_counts (td : ThreadDescriptor) (bins : Nat → FreeList) (ptr i : Nat) :
    (td.pushCache bins ptr i).1.topIdxs i
        = (if td.topIdxs i < THREAD_CACHE_SIZE then td.topIdxs i + 1 else td.topIdxs i) ∧
      (td.pushCache bins ptr i).1.decayRate i = 1 ∧
      ∀ j, j ≠ i → (td.pushCache bins ptr i).1.topIdxs j = td.topIdxs j ∧
        (td.pushCache bins ptr i).1.decayRate j = td.decayRate j := by
  unfold ThreadDescriptor.pushCache
  simp only
  by_cases h : td.topIdxs i < THREAD_CACHE_SIZE
  · rw [if_pos h, if_pos h]
    refine ⟨?_, ?_, ?_⟩
    · show setAt td.topIdxs i _ i = _
      rw [setAt_apply, if_pos rfl]
    · show setAt td.decayRate i 1 i = 1
      rw [setAt_apply, if_pos rfl]
    · intro j hj
      constructor
      · show setAt td.topIdxs i _ j = _
        rw [setAt_apply, if_neg hj]
      · show setAt td.decayRate i 1 j = _
        rw [setAt_apply, if_neg hj]
  · rw [if_neg h, if_neg h]
    refine ⟨rfl, ?_, ?_⟩
    · show setAt td.decayRate i 1 i = 1
      rw [setAt_apply, if_pos rfl]
    · intro j hj
      refine ⟨rfl, ?_⟩
      show setAt td.decayRate i 1 j = _
      rw [setAt_apply, if_neg hj]

/-- The effect of a `popCache` that returns on the counts. -/
theorem popCache_counts (td : ThreadDescriptor) (i : Nat) (r : Nat × ThreadDescriptor)
    (h : td.popCache i = .ok r) :
    r.2.topIdxs i = td.topIdxs i - 1 ∧ r.2.decayRate i = 1 ∧
      ∀ j, j ≠ i → r.2.topIdxs j = td.topIdxs j ∧ r.2.decayRate j = td.decayRate j := by
  unfold ThreadDescriptor.popCache at h
  simp only at h
  by_cases h0 : td.topIdxs i > 0
  · rw [if_pos h0] at h
    by_cases h1 : td.topIdxs i < THREAD_CACHE_SIZE
    · rw [if_pos h1] at h
      simp only [Except.ok.injEq] at h
      subst h
      refine ⟨?_, ?_, ?_⟩
      · show setAt td.topIdxs i _ i = _
        rw [setAt_apply, if_pos rfl]
      · show setAt td.decayRate i 1 i = 1
        rw [setAt_apply, if_pos rfl]
      · intro j hj
        constructor
        · show setAt td.topIdxs i _ j = _
          rw [setAt_apply, if_neg hj]
        · show setAt td.decayRate i 1 j = _
          rw [setAt_apply, if_neg hj]
    · rw [if_neg h1] at h
      cases h
  · rw [if_neg h0] at h
    simp only [Except.ok.injEq] at h
    subst h
    refine ⟨?_, ?_, ?_⟩
    · show td.topIdxs i = _
      omega
    · show setAt td.decayRate i 1 i = 1
      rw [setAt_apply, if_pos rfl]
    · intro j hj
      refine ⟨rfl, ?_⟩
      show setAt td.decayRate i 1 j = _
      rw [setAt_apply, if_neg hj]

/-- The number of ticks a call adds. -/
theorem count_purge_cons (op : CacheOp) (ops : List CacheOp) :
    (op :: ops).count .purge = ops.count .purge + (if op = .purge then 1 else 0) := by
  by_cases h : op = .purge
  · subst h
    simp
  · rw [if_neg h, List.count_cons_of_ne (fun e => h e.symm)]
    rfl

/-- One call keeps the counts in range, and carries a class that it does not
push to or pop from one stage further when it is a tick. -/
theorem cache_step_counts (s s1 : CacheState) (op : CacheOp) (hb : s.td.CountsBounded)
    (h : s.step op = .ok s1) :
    s1.td.CountsBounded ∧
      ∀ i k, i < 28 → op.touches i = false → s.td.Drained k i →
        s1.td.Drained (k + (if op = .purge then 1 else 0)) i := by
  cases op with
  | pushCache ptr j =>
    unfold CacheState.step at h
    simp only at h
    by_cases hj : smallSizeClasses.length ≤ j
    · rw [if_pos hj] at h; cases h
    · rw [if_neg hj] at h
      simp only [Except.ok.injEq] at h
      subst h
      obtain ⟨c1, c2, c3⟩ := pushCache_counts s.td s.bins ptr j
      constructor
      · intro i
        by_cases hi : i = j
        · subst hi
          show (s.td.pushCache s.bins ptr i).1.topIdxs i ≤ _ ∧ _
          rw [c1, c2]
          have := (hb i).1
          unfold THREAD_CACHE_SIZE at *
          constructor
          · split <;> omega
          · intro _; exact le_refl _
        · show (s.td.pushCache s.bins ptr j).1.topIdxs i ≤ _ ∧
            (0 < (s.td.pushCache s.bins ptr j).1.topIdxs i →
              1 ≤ (s.td.pushCache s.bins ptr j).1.decayRate i)
          rw [(c3 i hi).1, (c3 i hi).2]
          exact hb i
      · intro i k _ ht hd
        have hi : i ≠ j := by
          intro e
          simp [CacheOp.touches, e] at ht
        rw [if_neg (by intro e; cases e), Nat.add_zero]
        unfold ThreadDescriptor.Drained at *
        show (1 ≤ k → (s.td.pushCache s.bins ptr j).1.topIdxs i ≤ 15 ∧
            (0 < (s.td.pushCache s.bins ptr j).1.topIdxs i →
              16 ≤ (s.td.pushCache s.bins ptr j).1.decayRate i)) ∧
          (2 ≤ k → (s.td.pushCache s.bins ptr j).1.topIdxs i = 0)
        rw [(c3 i hi).1, (c3 i hi).2]
        exact hd
  | popCache j =>
    unfold CacheState.step at h
    simp only at h
    by_cases hj : smallSizeClasses.length ≤ j
    · rw [if_pos hj] at h; cases h
    · rw [if_neg hj] at h
      cases hp : s.td.popCache j with
      | error e => rw [hp] at h; cases h
      | ok r =>
        rw [hp] at h
        simp only [Except.ok.injEq] at h
        subst h
        obtain ⟨c1, c2, c3⟩ := popCache_counts s.td j r hp
        constructor
        · intro i
          by_cases hi : i = j
          · subst hi
            show r.2.topIdxs i ≤ _ ∧ (0 < r.2.topIdxs i → 1 ≤ r.2.decayRate i)
            rw [c1, c2]
            have := (hb i).1
            exact ⟨by omega, fun _ => le_refl _⟩
          · show r.2.topIdxs i ≤ _ ∧ (0 < r.2.topIdxs i → 1 ≤ r.2.decayRate i)
            rw [(c3 i hi).1, (c3 i hi).2]
            exact hb i
        · intro i k _ ht hd
          have hi : i ≠ j := by
            intro e
            simp [CacheOp.touches, e] at ht
          rw [if_neg (by intro e; cases e), Nat.add_zero]
          unfold ThreadDescriptor.Drained at *
          show (1 ≤ k → r.2.topIdxs i ≤ 15 ∧ (0 < r.2.topIdxs i → 16 ≤ r.2.decayRate i)) ∧
            (2 ≤ k → r.2.topIdxs i = 0)
          rw [(c3 i hi).1, (c3 i hi).2]
          exact hd
  | purge =>
    unfold CacheState.step at h
    simp only at h
    obtain ⟨r, hr, hrb, hc⟩ := purge_counts s.td s.bins hb
    rw [hr] at h
    simp only [Except.ok.injEq] at h
    subst h
    refine ⟨hrb, ?_⟩
    intro i k hi _ hd
    obtain ⟨c1, c2, c3⟩ := hc i hi
    obtain ⟨b1, b2⟩ := hb i
    unfold THREAD_CACHE_SIZE at b1
    rw [if_pos rfl]
    unfold ThreadDescriptor.Drained at *
    show (1 ≤ k + 1 → r.1.topIdxs i ≤ 15 ∧ (0 < r.1.topIdxs i → 16 ≤ r.1.decayRate i)) ∧
      (2 ≤ k + 1 → r.1.topIdxs i = 0)
    rw [c1]
    constructor
    · intro _
      constructor
      · by_cases h0 : s.td.topIdxs i = 0
        · omega
        · have := b2 (by omega)
          omega
      · intro hpos
        exact c2 (by omega)
    · intro hk
      obtain ⟨d1, d2⟩ := hd.1 (by omega)
      by_cases h0 : s.td.topIdxs i = 0
      · omega
      · have := d2 (by omega)
        omega


/-- A sequence of calls that returns keeps the counts in range and carries a
class that it does not push to or pop from one stage further per tick. -/
theorem cache_steps_counts (ops : List CacheOp) (s s1 : CacheState) (i k : Nat) (hi : i < 28)
    (hb : s.td.CountsBounded) (hd : s.td.Drained k i)
    (hidle : ∀ op ∈ ops, CacheOp.touches op i = false)
    (h : s.steps ops = .ok s1) :
    s1.td.CountsBounded ∧ s1.td.Drained (k + ops.count .purge) i := by
  induction ops generalizing s k with
  | nil =>
    unfold CacheState.steps at h
    simp only [Except.ok.injEq] at h
    subst h
    exact ⟨hb, hd⟩
  | cons op rest ih =>
    unfold CacheState.steps at h
    cases hs : s.step op with
    | error e => rw [hs] at h; cases h
    | ok s2 =>
      rw [hs] at h
      simp only at h
      obtain ⟨hb2, hst⟩ := cache_step_counts s s2 op hb hs
      have hd2 := hst i k hi (hidle op (List.mem_cons_self _ _)) hd
      obtain ⟨hb1, hd1⟩ := ih s2 _ hb2 hd2
        (fun o ho => hidle o (List.mem_cons_of_mem _ ho)) h
      refine ⟨hb1, ?_⟩
      rw [count_purge_cons]
      have e : k + (rest.count CacheOp.purge + if op = CacheOp.purge then 1 else 0)
          = k + (if op = CacheOp.purge then 1 else 0) + rest.count CacheOp.purge := by omega
      rw [e]
      exact hd1

/-- The counts of a reachable thread descriptor are in range. -/
theorem reachable_counts (s : CacheState) (hr : s.Reachable) : s.td.CountsBounded := by
  obtain ⟨bins, ops, h⟩ := hr
  have h0 : (ThreadDescriptor.new).CountsBounded := by
    intro i
    exact ⟨Nat.zero_le _, fun hc => absurd hc (lt_irrefl 0)⟩
  suffices H : ∀ (ops : List CacheOp) (s0 s1 : CacheState), s0.td.CountsBounded →
      s0.steps ops = .ok s1 → s1.td.CountsBounded from H ops _ s h0 h
  intro ops
  induction ops with
  | nil =>
    intro s0 s1 hb h
    unfold CacheState.steps at h
    simp only [Except.ok.injEq] at h
    exact h ▸ hb
  | cons op rest ih =>
    intro s0 s1 hb h
    unfold CacheState.steps at h
    cases hs : s0.step op with
    | error e => rw [hs] at h; cases h
    | ok s2 =>
      rw [hs] at h
      exact ih s2 s1 (cache_step_counts s0 s2 op hb hs).1 h

/-- Ticks of `purge()` alone return from counts in range. -/
theorem purge_ticks_return (n : Nat) (s : CacheState) (hb : s.td.CountsBounded) :
    ∃ s1, s.steps (List.replicate n .purge) = .ok s1 := by
  induction n generalizing s with
  | zero => exact ⟨s, rfl⟩
  | succ m ih =>
    obtain ⟨r, hr, hrb, _⟩ := purge_counts s.td s.bins hb
    have hs : s.step .purge = .ok { td := r.1, bins := r.2 } := by
      unfold CacheState.step
      simp only [hr]
    obtain ⟨s1, h1⟩ := ih { td := r.1, bins := r.2 } hrb
    refine ⟨s1, ?_⟩
    rw [List.replicate_succ]
    unfold CacheState.steps
    rw [hs]
    exact h1

/-- C14: for every thread descriptor reachable by `pushCache`, `popCache` and
`purge`, and every class `i`: five consecutive ticks of `purge()` return and
leave `topIdxs[i] = 0`; and so does every sequence of calls that returns,
contains at least five ticks, and has no `pushCache` or `popCache` on the
class `i`. -/
theorem decay_empties_idle_cache (s : CacheState) (hr : s.Reachable) (i : Nat)
    (hi : i < 28) :
    (∃ s5, s.steps [.purge, .purge, .purge, .purge, .purge] = .ok s5 ∧
      s5.td.topIdxs i = 0) ∧
    ∀ ops s1, (∀ op ∈ ops, CacheOp.touches op i = false) → 5 ≤ ops.count .purge →
      s.steps ops = .ok s1 → s1.td.topIdxs i = 0 := by
  have hb := reachable_counts s hr
  have hd0 : s.td.Drained 0 i :=
    ⟨fun h => absurd h (by omega), fun h => absurd h (by omega)⟩
  have key : ∀ ops s1, (∀ op ∈ ops, CacheOp.touches op i = false) →
      5 ≤ ops.count .purge → s.steps ops = .ok s1 → s1.td.topIdxs i = 0 := by
    intro ops s1 hidle hc h
    have := (cache_steps_counts ops s s1 i 0 hi hb hd0 hidle h).2
    exact this.2 (by omega)
  refine ⟨?_, key⟩
  obtain ⟨s5, h5⟩ := purge_ticks_return 5 s hb
  refine ⟨s5, h5, key _ s5 ?_ ?_ h5⟩
  · intro op hop
    have : op = .purge := List.eq_of_mem_replicate hop
    rw [this]
    rfl
  · decide

/-- C14, at a concrete input: the cache of class 24 holds two chunks, and five
ticks empty it. -/
theorem decay_empties_idle_cache_witness :
    exampleCache.td.topIdxs 24 = 2 ∧
    ∃ s5, exampleCache.steps [.purge, .purge, .purge, .purge, .purge] = .ok s5 ∧
      s5.td.topIdxs 24 = 0 :=
  ⟨rfl, (decay_empties_idle_cache exampleCache
    ⟨fun _ => [], [.pushCache 93824992878592 24, .pushCache 93824992881664 24], rfl⟩
    24 (by decide)).1⟩

/-! ## Theorems: scenarios -/

/-- With neither neighbour in the free-list, `giveBack` leaves it as it is. -/
theorem giveBack_neither (binIdx : Nat) (fl : FreeList) (ptr : Nat)
    (hl : FreeList.find fl (decrement ptr (sizeClassOf binIdx)) = none)
    (hr : FreeList.find fl (increment ptr (sizeClassOf binIdx)) = none) :
    Bin.giveBack binIdx fl ptr = fl := by
  unfold Bin.giveBack
  simp only [hl, hr]

/-- On an empty free-list every sequence of `giveBack` leaves it empty. -/
theorem giveBackAll_nil (binIdx : Nat) (ps : List Nat) : Bin.giveBackAll binIdx [] ps = [] := by
  unfold Bin.giveBackAll
  induction ps with
  | nil => rfl
  | cons p rest ih =>
    rw [List.foldl_cons, giveBack_neither binIdx [] p rfl rfl]
    exact ih

/-- C11, at the failing input: from a freshly constructed allocator (28 calls
of `sbrk`), 32 passes of `p = allocate(3000); deallocate(p);` make no call to
the operating system and leave bin 24 empty, and pass 33 reaches the `mmap`
branch of `Bin::allocate`; after the 40 passes of demo.cpp one slab of 98304
bytes has been mapped beyond the bootstrap slab. -/
theorem demo_loop_maps_slab :
    (Allocator.new (contiguousBreak exampleBreak)).osCalls.length = 28 ∧
    (demoLoop (Allocator.new (contiguousBreak exampleBreak)) 3000
        (fun _ => exampleMapping) 32).toOption.map
        (fun s => (s.osCalls.drop 28, s.arena.bins 24)) = some ([], []) ∧
    (demoLoop (Allocator.new (contiguousBreak exampleBreak)) 3000
        (fun _ => exampleMapping) 33).toOption.map
        (fun s => s.osCalls.drop 28) = some [.mmap 98304 exampleMapping] ∧
    (demoLoop (Allocator.new (contiguousBreak exampleBreak)) 3000
        (fun _ => exampleMapping) 40).toOption.map
        (fun s => s.osCalls.drop 28) = some [.mmap 98304 exampleMapping] := by
  decide

/-- C12, at the failing input: the 32 objects of a fresh slab of class 3072,
allocated from the bin and handed to `giveBack` in address order, leave the
free-list empty, not the single entry `(base, 32)`. -/
theorem coalescing_loses_slab :
    slabObjs (sizeClassOf 24) = 32 ∧
    (Bin.allocateMany 24 [] [] exampleMapping 32).2 = [] ∧
    (Bin.allocateMany 24 [] [] exampleMapping 32).1
      = (List.range 32).map (fun j => exampleMapping + j * 3072) ∧
    Bin.giveBackAll 24 (Bin.allocateMany 24 [] [] exampleMapping 32).2
      (Bin.allocateMany 24 [] [] exampleMapping 32).1 = [] := by
  decide

/-- C13, at the failing input: after seventeen allocations of class 3072 and
sixteen frees the cache of class 24 is full; the seventeenth free, of the chunk
93824992878592, leaves `topIdxs[24]` at 16 and the cache as it was, goes to
`giveBack`, and the free-list of bin 24 stays `[(93824992930816, 15)]`: no
entry covers the chunk. -/
theorem overflow_chunk_lost :
    ((Run.new (contiguousBreak exampleBreak)).steps overflowRun.dropLast).map
        (fun r => (r.state.threadDescriptor.map
          (fun td => (td.topIdxs 24, (List.range 16).map (td.cache 24))),
          r.state.arena.bins 24, r.live))
      = some (some (16, (List.range 16).map (fun k => 93824992878592 + 3072 * (k + 1))),
          [(93824992930816, 15)], [(93824992878592, 3000)]) ∧
    ((Run.new (contiguousBreak exampleBreak)).steps overflowRun).map
        (fun r => (r.state.threadDescriptor.map
          (fun td => (td.topIdxs 24, (List.range 16).map (td.cache 24))),
          r.state.arena.bins 24,
          FreeList.coversChunk 3072 (r.state.arena.bins 24) 93824992878592))
      = some (some (16, (List.range 16).map (fun k => 93824992878592 + 3072 * (k + 1))),
          [(93824992930816, 15)], false) := by
  decide

/-- C16, at the failing input: `allocate(5000)` is served at an address,
freed, and `allocate(30000)` is served at the same address; `deallocate` then
calls `munmap` with the length 8192 of the first mapping, while
`roundup(30000)` is 32768. -/
theorem reused_mapping_wrong_length :
    ((Run.new (contiguousBreak exampleBreak)).steps
        [.allocate 5000 exampleMapping, .deallocate exampleMapping,
         .allocate 30000 exampleMapping, .deallocate exampleMapping]).map
        (fun r => r.state.osCalls.drop 28)
      = some [.mmap 8192 exampleMapping, .munmap exampleMapping 8192,
              .mmap 32768 exampleMapping, .munmap exampleMapping 8192] ∧
    roundup 30000 = some 32768 := by
  decide

/-- C17, at the failing input: on the free-list `[(93824992930816, 15)]` of
class 3072 neither neighbour of 93824992878592 is a key, and `giveBack` returns
the list unchanged; the entry `(93824992878592, 1)` is not inserted. -/
theorem giveBack_inserts_nothing :
    FreeList.find [(93824992930816, 15)] (decrement 93824992878592 (sizeClassOf 24)) = none ∧
    FreeList.find [(93824992930816, 15)] (increment 93824992878592 (sizeClassOf 24)) = none ∧
    Bin.giveBack 24 [(93824992930816, 15)] 93824992878592 = [(93824992930816, 15)] ∧
    FreeList.find (Bin.giveBack 24 [(93824992930816, 15)] 93824992878592) 93824992878592
      = none := by
  decide

/-- C15, as stated, fails: after `allocate(5000)` the predecessor descriptor of
the returned pointer is the large descriptor of 8192 bytes, and after
`deallocate` of the pointer, which calls `munmap`, the used-page index still
contains that descriptor. -/
theorem large_descriptor_stays :
    ((Run.new (contiguousBreak exampleBreak)).steps
        [.allocate 5000 exampleMapping]).map
        (fun r => UsedPages.lowerBound r.state.arena.arenaUsedPages (getPage exampleMapping))
      = some (some (.large (getPage exampleMapping) 8192)) ∧
    ((Run.new (contiguousBreak exampleBreak)).steps
        [.allocate 5000 exampleMapping, .deallocate exampleMapping]).map
        (fun r => (r.state.osCalls.drop 28,
          decide (PageDescriptor.large (getPage exampleMapping) 8192
            ∈ r.state.arena.arenaUsedPages)))
      = some ([.mmap 8192 exampleMapping, .munmap exampleMapping 8192], true) := by
  decide

/-- The call `munmap(ptr, len)` succeeds exactly for a page-aligned pointer
and a positive length. -/
theorem munmapFails_eq_false (ptr len : Nat) :
    munmapFails ptr len = false ↔ ptr % PAGE_SIZE = 0 ∧ 0 < len := by
  unfold munmapFails
  simp only [Bool.or_eq_false_iff, Bool.not_eq_false', beq_iff_eq, beq_eq_false_iff_ne, ne_eq]
  omega

/-- C15, amended: for every pointer `p` whose predecessor descriptor is a
large allocation, `Arena::deallocate(p)` calls `munmap(p, len)` with the stored
length. When the system call succeeds (`p` is a multiple of the page size and
`len` is positive), `deallocate` returns after that one call and leaves the
used-page index as it was: the descriptor stays in the index. When the system
call fails, `deallocate` ends in `exit(1)`. -/
theorem large_free_keeps_descriptor (a : Arena) (td : ThreadDescriptor) (p page len : Nat)
    (h : UsedPages.lowerBound a.arenaUsedPages (getPage p) = some (.large page len)) :
    Arena.freeAction a.arenaUsedPages p = .unmap p len ∧
    (p % PAGE_SIZE = 0 → 0 < len →
      ∃ r, Arena.deallocate a td p = .ok r ∧ r.osCalls = [.munmap p len] ∧
        r.arena.arenaUsedPages = a.arenaUsedPages ∧
        PageDescriptor.large page len ∈ r.arena.arenaUsedPages) ∧
    (¬ (p % PAGE_SIZE = 0 ∧ 0 < len) → Arena.deallocate a td p = .error .exit) := by
  have hf : Arena.freeAction a.arenaUsedPages p = .unmap p len := by
    unfold Arena.freeAction
    rw [h]
  refine ⟨hf, ?_, ?_⟩
  · intro hp hlen
    have hm : munmapFails p len = false := (munmapFails_eq_false p len).2 ⟨hp, hlen⟩
    refine ⟨{ arena := a, td := td, osCalls := [.munmap p len] }, ?_, rfl, rfl, ?_⟩
    · unfold Arena.deallocate
      rw [hf]
      simp only [hm]
      rfl
    · exact (lowerBound_mem a.arenaUsedPages (getPage p) _ h).1
  · intro hn
    have hm : munmapFails p len = true := by
      cases hc : munmapFails p len with
      | true => rfl
      | false => exact absurd ((munmapFails_eq_false p len).1 hc) hn
    unfold Arena.deallocate
    rw [hf]
    simp only [hm]
    rfl

/-- C15, amended, at a concrete input: the large descriptor at 0x40000000 of
the example index, freed at its page-aligned address. -/
theorem large_free_keeps_descriptor_witness :
    ∃ r, Arena.deallocate { bins := fun _ => [], arenaUsedPages := exampleUsedPages }
        ThreadDescriptor.new 0x40000000 = .ok r ∧
      r.osCalls = [.munmap 0x40000000 8192] ∧
      r.arena.arenaUsedPages = exampleUsedPages ∧
      PageDescriptor.large 0x40000000 8192 ∈ r.arena.arenaUsedPages :=
  (large_free_keeps_descriptor { bins := fun _ => [], arenaUsedPages := exampleUsedPages }
    ThreadDescriptor.new 0x40000000 0x40000000 8192 (by decide)).2.1 (by decide) (by decide)

/-! ## Theorems: slab sizes and the cache as a stack -/

/-- The slab size of each class, checked on the table. -/
theorem slabSize_table : ∀ i, i < 28 →
    (sizeClassOf i < 128 → slabSize (sizeClassOf i) = 4096) ∧
    (¬ sizeClassOf i < 128 →
      slabSize (sizeClassOf i) % 4096 = 0 ∧ 32 * sizeClassOf i ≤ slabSize (sizeClassOf i) ∧
      slabSize (sizeClassOf i) < 32 * sizeClassOf i + 4096) ∧
    32 ≤ slabSize (sizeClassOf i) / sizeClassOf i := by
  decide

/-- C21: for every size class `i`, the slab size that `Bin::allocate` requests
from `mmap` on an empty free-list and that `Arena::init` requests from `sbrk`
is `slabSize SC[i]`, with `PAGE_SIZE / MMAP_MIN_OBJECTS_TAKEN = 128`. It is
`PAGE_SIZE` when `SC[i] < 128`; otherwise it is a multiple of `PAGE_SIZE`, at
least `32 * SC[i]`, no larger than any other such multiple, and holds at least
32 objects. -/
theorem slab_sizing (i : Nat) (hi : i < 28) :
    PAGE_SIZE / MMAP_MIN_OBJECTS_TAKEN = 128 ∧
    (Bin.allocate i [] [] 0).osCalls = [.mmap (slabSize (sizeClassOf i)) 0] ∧
    (∀ sbrk, (Arena.initCalls sbrk)[i]? = some (.sbrk (slabSize (sizeClassOf i)) (sbrk i))) ∧
    (sizeClassOf i < PAGE_SIZE / MMAP_MIN_OBJECTS_TAKEN →
      slabSize (sizeClassOf i) = PAGE_SIZE) ∧
    (¬ sizeClassOf i < PAGE_SIZE / MMAP_MIN_OBJECTS_TAKEN →
      slabSize (sizeClassOf i) % PAGE_SIZE = 0 ∧
      32 * sizeClassOf i ≤ slabSize (sizeClassOf i) ∧
      (∀ m, m % PAGE_SIZE = 0 → 32 * sizeClassOf i ≤ m → slabSize (sizeClassOf i) ≤ m) ∧
      32 ≤ slabSize (sizeClassOf i) / sizeClassOf i) := by
  obtain ⟨h1, h2, h3⟩ := slabSize_table i hi
  have hc : PAGE_SIZE / MMAP_MIN_OBJECTS_TAKEN = 128 := by decide
  rw [hc]
  unfold PAGE_SIZE
  refine ⟨rfl, rfl, ?_, h1, ?_⟩
  · intro sbrk
    unfold Arena.initCalls
    rw [List.getElem?_map, List.getElem?_range (by exact hi)]
    rfl
  · intro hn
    obtain ⟨a, b, c⟩ := h2 hn
    refine ⟨a, b, ?_, h3⟩
    intro m hm1 hm2
    omega

/-- C21, at a concrete input: the class 3072 has slabs of 98304 bytes, 24 pages
and 32 objects. -/
theorem slab_sizing_witness :
    slabSize (sizeClassOf 24) = 98304 ∧ 32 ≤ slabSize (sizeClassOf 24) / sizeClassOf 24 := by
  have h := slab_sizing 24 (by decide)
  exact ⟨by decide, (h.2.2.2.2 (by decide)).2.2.2⟩

/-- C22, at the failing input: on a new thread descriptor `pushCache(p, 24)`
with `p = 93824992878592` stores `p` at `cache[24][0]` and sets `topIdxs[24]`
to 1, and the `popCache(24)` right after it returns `cache[24][1]`, which is
null, not `p`, and leaves `topIdxs[24] = 0`. After the pushes of `p` and of
`q = 93824992881664` the two calls of `popCache(24)` return null and then `q`,
not `q` and then `p`. -/
theorem cache_not_lifo :
    (CacheState.steps { td := ThreadDescriptor.new, bins := fun _ => [] }
        [.pushCache 93824992878592 24]).toOption.map
        (fun s => ((s.td.popCache 24).toOption.map
          (fun r => (r.1, r.2.topIdxs 24)), s.td.cache 24 0, s.td.topIdxs 24))
      = some (some (0, 0), 93824992878592, 1) ∧
    (CacheState.steps { td := ThreadDescriptor.new, bins := fun _ => [] }
        [.pushCache 93824992878592 24, .pushCache 93824992881664 24]).toOption.map
        (fun s => (s.td.popCache 24).toOption.map
          (fun r => (r.1, (r.2.popCache 24).toOption.map (fun q => (q.1, q.2.topIdxs 24)))))
      = some (some (0, some (93824992881664, 0))) := by
  decide

/-- C23: in every state of the thread descriptor reachable from the initial
one by calls of `pushCache`, `popCache` and `purge` that return,
`0 <= topIdxs[i] <= THREAD_CACHE_SIZE` for every class `i`, which is what the
assertions on `topIdx` in `pushCache` and `popCache` test. -/
theorem topIdxs_in_range (s : CacheState) (hr : s.Reachable) (i : Nat) :
    0 ≤ s.td.topIdxs i ∧ s.td.topIdxs i ≤ THREAD_CACHE_SIZE :=
  ⟨Nat.zero_le _, (reachable_counts s hr i).1⟩

/-- C23, at a concrete input: the cache of class 24 after two pushes. -/
theorem topIdxs_in_range_witness :
    0 ≤ exampleCache.td.topIdxs 24 ∧ exampleCache.td.topIdxs 24 ≤ THREAD_CACHE_SIZE :=
  topIdxs_in_range exampleCache
    ⟨fun _ => [], [.pushCache 93824992878592 24, .pushCache 93824992881664 24], rfl⟩ 24

/-- C25, at the failing input: the cache of class 24 holds two entries and has
the decay rate 1. One tick of `purge()` sets the rate to 16, and so does
`decay(24)`, where `min(2 * 1, THREAD_CACHE_SIZE)` is 2; a second tick sets it
to 32, above `THREAD_CACHE_SIZE`, in a reachable state. -/
theorem decay_rate_exceeds_cap :
    exampleCache.td.decayRate 24 = 1 ∧ exampleCache.td.topIdxs 24 = 2 ∧
    (exampleCache.steps [.purge]).toOption.map (fun s => s.td.decayRate 24) = some 16 ∧
    min (2 * 1) THREAD_CACHE_SIZE = 2 ∧
    (exampleCache.td.decay 24).decayRate 24 = 16 ∧
    (exampleCache.steps [.purge, .purge]).toOption.map (fun s => s.td.decayRate 24)
      = some 32 ∧
    THREAD_CACHE_SIZE < 32 := by
  decide

/-! ## Theorems: the tick of the timer -/

/-- The reads of `purge()` for a class that discards `d` of its `top` entries
are at the indices `top - 1`, `top - 2`, ..., `top - d`. -/
theorem purgeIndices_eq (top d : Nat) (hd : 1 ≤ d) (hle : d ≤ top) :
    purgeIndices (top - 1) (1 + (top - 1) - d) = (List.range d).map (fun k => top - 1 - k) := by
  unfold purgeIndices
  obtain ⟨e, rfl⟩ : ∃ e, d = e + 1 := ⟨d - 1, by omega⟩
  rw [List.range_succ, List.map_append]
  have h1 : top - 1 - (1 + (top - 1) - (e + 1)) = e := by omega
  have h2 : 1 + (top - 1) - (e + 1) = top - 1 - e := by omega
  rw [h1, h2]
  rfl

/-- The entries `purge()` hands to the bin of a class that holds entries and
has a decay rate of at least 1: those at the indices `top - 1` down to
`top - d`, for `d = min(decayRate[i], topIdxs[i])`. -/
theorem purgeReturned_eq (td : ThreadDescriptor) (i : Nat) (h0 : 0 < td.topIdxs i)
    (h1 : 1 ≤ td.decayRate i) :
    td.purgeReturned i
      = (List.range (min (td.decayRate i) (td.topIdxs i))).map
          (fun k => td.cache i (td.topIdxs i - 1 - k)) := by
  unfold ThreadDescriptor.purgeReturned
  rw [if_neg (by omega)]
  simp only
  rw [purgeIndices_eq (td.topIdxs i) (min (td.decayRate i) (td.topIdxs i))
    (by omega) (by omega), List.map_map]
  rfl

/-- The calls of `giveBack` of a fold over indices are the calls for the
entries read at them. -/
theorem giveBackAll_map (i : Nat) (cache : Nat → Nat) (idxs : List Nat) (fl : FreeList) :
    idxs.foldl (fun fl j => Bin.giveBack i fl (cache j)) fl
      = Bin.giveBackAll i fl (idxs.map cache) := by
  unfold Bin.giveBackAll
  rw [List.foldl_map]

/-- The effect of the body of `purge()` on the cache and the bins: the cache
array is not written, the bin of the class receives the entries of
`purgeReturned`, and the other bins stay as they are. -/
theorem purgeClass_effect (td : ThreadDescriptor) (bins : Nat → FreeList) (i : Nat)
    (h : td.CountsBounded) :
    ∃ r, ThreadDescriptor.purgeClass td bins i = .ok r ∧
      r.1.cache = td.cache ∧
      r.2 i = Bin.giveBackAll i (bins i) (td.purgeReturned i) ∧
      ∀ j, j ≠ i → r.2 j = bins j := by
  unfold ThreadDescriptor.purgeClass ThreadDescriptor.purgeReturned
  by_cases h0 : td.topIdxs i = 0
  · rw [if_pos h0, if_pos h0]
    exact ⟨(td, bins), rfl, rfl, rfl, fun j _ => rfl⟩
  · rw [if_neg h0, if_neg h0]
    obtain ⟨hle, hrate⟩ := h i
    have hr := hrate (by omega)
    unfold THREAD_CACHE_SIZE at hle
    have hall := purgeIndices_bounded (td.topIdxs i - 1)
      (1 + (td.topIdxs i - 1) - min (td.decayRate i) (td.topIdxs i))
      (by unfold THREAD_CACHE_SIZE; omega) (by omega)
    simp only
    rw [if_pos hall]
    refine ⟨_, rfl, rfl, ?_, ?_⟩
    · show setAt bins i _ i = _
      rw [setAt_apply, if_pos rfl, giveBackAll_map]
    · intro j hj
      show setAt bins i _ j = _
      rw [setAt_apply, if_neg hj]

/-- The entries `purge()` hands to the bin of a class depend on the members of
that class only. -/
theorem purgeReturned_congr (td td1 : ThreadDescriptor) (i : Nat)
    (h1 : td1.topIdxs i = td.topIdxs i) (h2 : td1.decayRate i = td.decayRate i)
    (h3 : td1.cache = td.cache) : td1.purgeReturned i = td.purgeReturned i := by
  unfold ThreadDescriptor.purgeReturned
  rw [h1, h2, h3]

/-- The loop of `purge()` over a list of distinct classes does not write the
cache array, hands the bin of each class of the list the entries of
`purgeReturned`, and leaves the other bins as they are. -/
theorem purge_fold_effect (l : List Nat) (hl : l.Nodup) (td : ThreadDescriptor)
    (bins : Nat → FreeList) (h : td.CountsBounded) :
    ∃ r, l.foldl ThreadDescriptor.purgeNext (.ok (td, bins)) = .ok r ∧
      r.1.cache = td.cache ∧
      (∀ i, i ∈ l → r.2 i = Bin.giveBackAll i (bins i) (td.purgeReturned i)) ∧
      (∀ i, i ∉ l → r.2 i = bins i) := by
  induction l generalizing td bins with
  | nil =>
    refine ⟨(td, bins), rfl, rfl, ?_, ?_⟩
    · intro i hi
      cases hi
    · intro i _
      rfl
  | cons j rest ih =>
    obtain ⟨hj, hrest⟩ := List.nodup_cons.1 hl
    obtain ⟨r1, h1, hc1, hb1, ho1⟩ := purgeClass_effect td bins j h
    obtain ⟨r1c, h1c, _, _, _, hcnt⟩ := purgeClass_counts td bins j h
    have hsame : r1c = r1 := by
      rw [h1] at h1c
      simp only [Except.ok.injEq] at h1c
      exact h1c.symm
    subst hsame
    have hbd := purgeClass_bounded td bins j h r1c h1
    obtain ⟨r, hr, hrc, hin, hout⟩ := ih hrest r1c.1 r1c.2 hbd
    refine ⟨r, ?_, hrc.trans hc1, ?_, ?_⟩
    · rw [List.foldl_cons]
      have : ThreadDescriptor.purgeNext (.ok (td, bins)) j = .ok (r1c.1, r1c.2) := h1
      rw [this]
      exact hr
    · intro i hi
      rcases List.mem_cons.1 hi with hij | hir
      · subst hij
        rw [hout i hj, hb1]
      · have hne : i ≠ j := fun e => hj (e ▸ hir)
        rw [hin i hir, ho1 i hne,
          purgeReturned_congr td r1c.1 i (hcnt i hne).1 (hcnt i hne).2 hc1]
    · intro i hi
      have hne : i ≠ j := fun e => hi (e ▸ List.mem_cons_self _ _)
      have hni : i ∉ rest := fun e => hi (List.mem_cons_of_mem _ e)
      rw [hout i hni, ho1 i hne]

/-- A tick of `purge()` on counts in range: it returns, does not write the
cache array, and each class loses `min(decayRate[i], topIdxs[i])` entries, which
its bin receives in the order of `purgeReturned`. -/
theorem purge_effect (td : ThreadDescriptor) (bins : Nat → FreeList) (h : td.CountsBounded) :
    ∃ r, ThreadDescriptor.purge td bins = .ok r ∧ r.1.cache = td.cache ∧
      ∀ i, i < 28 →
        r.1.topIdxs i = td.topIdxs i - min (td.decayRate i) (td.topIdxs i) ∧
        (td.topIdxs i = 0 → r.1.decayRate i = td.decayRate i) ∧
        r.2 i = Bin.giveBackAll i (bins i) (td.purgeReturned i) := by
  obtain ⟨r, hr, hc, hin, _⟩ :=
    purge_fold_effect (List.range smallSizeClasses.length) (List.nodup_range _) td bins h
  obtain ⟨r2, hr2, _, hcnt⟩ := purge_counts td bins h
  have hsame : r2 = r := by
    unfold ThreadDescriptor.purge at hr2
    rw [hr] at hr2
    simp only [Except.ok.injEq] at hr2
    exact hr2.symm
  subst hsame
  refine ⟨r2, hr2, hc, fun i hi => ⟨(hcnt i hi).1, (hcnt i hi).2.2, hin i ?_⟩⟩
  rw [List.mem_range]
  exact hi

/-- The effect of a `pushCache` on a class with room: the pointer is stored at
the index `topIdxs[i]`, every other entry of the cache stays, and the bins are
not touched. -/
theorem pushCache_room (td : ThreadDescriptor) (bins : Nat → FreeList) (ptr i : Nat)
    (h : td.topIdxs i < THREAD_CACHE_SIZE) :
    (td.pushCache bins ptr i).1.cache i (td.topIdxs i) = ptr ∧
      (∀ j, j ≠ td.topIdxs i → (td.pushCache bins ptr i).1.cache i j = td.cache i j) ∧
      (td.pushCache bins ptr i).2 = bins := by
  unfold ThreadDescriptor.pushCache
  simp only
  rw [if_pos h]
  refine ⟨?_, ?_, rfl⟩
  · show setAt td.cache i _ i (td.topIdxs i) = ptr
    rw [setAt_apply, if_pos rfl, setAt_apply, if_pos rfl]
  · intro j hj
    show setAt td.cache i _ i j = _
    rw [setAt_apply, if_pos rfl, setAt_apply, if_neg hj]

/-- C24: for every reachable state of the thread descriptor and every class
`i`, one tick of `purge()` returns and does not write the cache array, so the
entries below the new `topIdxs[i]` are unchanged. If `topIdxs[i] = top > 0`,
then with `d = min(decayRate[i], top)` the calls of `bins[i].giveBack` are made
for the entries at the indices `top - 1`, `top - 2`, ..., `top - d`: these are
`d` indices, pairwise different, and they are exactly the indices of
`[top - d, top)`; `topIdxs[i]` becomes `top - d`. If `topIdxs[i] = 0`, no call
of `giveBack` is made and `topIdxs[i]`, `decayRate[i]`, the cache and the bin
stay as they are. -/
theorem purge_tick_returns_top (s : CacheState) (hr : s.Reachable) (i : Nat) (hi : i < 28) :
    ∃ s1, s.step .purge = .ok s1 ∧
      s1.td.cache = s.td.cache ∧
      s1.bins i = Bin.giveBackAll i (s.bins i) (s.td.purgeReturned i) ∧
      (0 < s.td.topIdxs i →
        s.td.purgeReturned i
          = ((List.range (min (s.td.decayRate i) (s.td.topIdxs i))).map
              (fun k => s.td.topIdxs i - 1 - k)).map (s.td.cache i) ∧
        ((List.range (min (s.td.decayRate i) (s.td.topIdxs i))).map
              (fun k => s.td.topIdxs i - 1 - k)).length
          = min (s.td.decayRate i) (s.td.topIdxs i) ∧
        ((List.range (min (s.td.decayRate i) (s.td.topIdxs i))).map
              (fun k => s.td.topIdxs i - 1 - k)).Nodup ∧
        (∀ j, j ∈ (List.range (min (s.td.decayRate i) (s.td.topIdxs i))).map
              (fun k => s.td.topIdxs i - 1 - k) ↔
            s.td.topIdxs i - min (s.td.decayRate i) (s.td.topIdxs i) ≤ j ∧
              j < s.td.topIdxs i) ∧
        s1.td.topIdxs i = s.td.topIdxs i - min (s.td.decayRate i) (s.td.topIdxs i)) ∧
      (s.td.topIdxs i = 0 →
        s.td.purgeReturned i = [] ∧ s1.td.topIdxs i = 0 ∧
        s1.td.decayRate i = s.td.decayRate i ∧ s1.bins i = s.bins i) := by
  have hb := reachable_counts s hr
  obtain ⟨r, h1, h2, h3⟩ := purge_effect s.td s.bins hb
  obtain ⟨t1, t2, t3⟩ := h3 i hi
  refine ⟨{ td := r.1, bins := r.2 }, ?_, h2, t3, ?_, ?_⟩
  · unfold CacheState.step
    simp only
    rw [h1]
  · intro hpos
    have hrate := (hb i).2 hpos
    refine ⟨?_, ?_, ?_, ?_, t1⟩
    · rw [purgeReturned_eq s.td i hpos hrate, List.map_map]
      rfl
    · rw [List.length_map, List.length_range]
    · refine List.Nodup.map_on ?_ (List.nodup_range _)
      intro a ha b hb2 hab
      rw [List.mem_range] at ha hb2
      omega
    · intro j
      rw [List.mem_map]
      constructor
      · rintro ⟨k, hk, rfl⟩
        rw [List.mem_range] at hk
        omega
      · intro hj
        refine ⟨s.td.topIdxs i - 1 - j, ?_, ?_⟩
        · rw [List.mem_range]
          omega
        · omega
  · intro h0
    have he : s.td.purgeReturned i = [] := by
      unfold ThreadDescriptor.purgeReturned
      rw [if_pos h0]
    refine ⟨he, ?_, t2 h0, ?_⟩
    · show r.1.topIdxs i = 0
      rw [t1, h0]
      exact Nat.zero_sub _
    · show r.2 i = s.bins i
      rw [t3, he]
      rfl

/-- C24, at a concrete input: the cache of class 24 holds two chunks and has
the decay rate 1; the tick hands the entry at index 1 to the bin and leaves one
entry. -/
theorem purge_tick_returns_top_witness :
    exampleCache.td.topIdxs 24 = 2 ∧ exampleCache.td.decayRate 24 = 1 ∧
    exampleCache.td.purgeReturned 24 = [93824992881664] ∧
    ∃ s1, exampleCache.step .purge = .ok s1 ∧ s1.td.cache = exampleCache.td.cache ∧
      s1.bins 24 = Bin.giveBackAll 24 (exampleCache.bins 24) (exampleCache.td.purgeReturned 24) ∧
      s1.td.topIdxs 24 = 1 := by
  obtain ⟨s1, h1, h2, h3, h4, _⟩ := purge_tick_returns_top exampleCache
    ⟨fun _ => [], [.pushCache 93824992878592 24, .pushCache 93824992881664 24], rfl⟩
    24 (by decide)
  exact ⟨rfl, rfl, by decide, s1, h1, h2, h3, (h4 (by decide)).2.2.2.2⟩

/-- C26, a counterexample: three chunks of class 3072 are pushed on a new
thread descriptor, 93824992878592 first and 93824992884736 last, and the bin
holds the five chunks after the last one. The tick of `purge()` discards
`min(1, 3) = 1` entry, and the entry it hands to the bin is the one pushed
last, at the top of the stack: the bin becomes `(93824992884736, 6)`. The two
entries pushed first stay in the cache, at the indices 0 and 1. -/
theorem purge_returns_newest :
    (CacheState.steps
        { td := ThreadDescriptor.new, bins := setAt (fun _ => []) 24 [(93824992887808, 5)] }
        [.pushCache 93824992878592 24, .pushCache 93824992881664 24,
          .pushCache 93824992884736 24]).toOption.map
        (fun s => (s.td.topIdxs 24, s.td.decayRate 24, s.td.purgeReturned 24,
          (s.step .purge).toOption.map
            (fun s1 => ((s1.bins 24 : List (Nat × Nat)), s1.td.topIdxs 24, s1.td.cache 24 0,
              s1.td.cache 24 1))))
      = some (3, 1, [93824992884736],
          some ([(93824992884736, 6)], 2, 93824992878592, 93824992881664)) := by
  rfl

/-- C26, amended: `purge()` drops from the top. For every reachable state of
the thread descriptor and every class `i` that holds `top > 0` entries, the
`d = min(decayRate[i], top)` entries handed to the bin are those at the indices
`top - 1` down to `top - d`, the ones pushed last, and after the tick the class
holds `top - d` entries and the cache array is as before, so the entries pushed
first remain. In particular, after `pushCache(p, i)` on a class with room the
tick hands exactly `p` to `bins[i].giveBack`, the class holds as many entries
as before the push, and each of them is still in its place. -/
theorem purge_drops_from_top (s : CacheState) (hr : s.Reachable) (i : Nat) (hi : i < 28) :
    (0 < s.td.topIdxs i →
      s.td.purgeReturned i
        = (List.range (min (s.td.decayRate i) (s.td.topIdxs i))).map
            (fun k => s.td.cache i (s.td.topIdxs i - 1 - k)) ∧
      ∃ s1, s.step .purge = .ok s1 ∧
        s1.bins i = Bin.giveBackAll i (s.bins i) (s.td.purgeReturned i) ∧
        s1.td.topIdxs i = s.td.topIdxs i - min (s.td.decayRate i) (s.td.topIdxs i) ∧
        ∀ j, j < s1.td.topIdxs i → s1.td.cache i j = s.td.cache i j) ∧
    ∀ p, s.td.topIdxs i < THREAD_CACHE_SIZE →
      ∃ s1 s2, s.step (.pushCache p i) = .ok s1 ∧ s1.step .purge = .ok s2 ∧
        s1.td.purgeReturned i = [p] ∧
        s2.bins i = Bin.giveBack i (s.bins i) p ∧
        s2.td.topIdxs i = s.td.topIdxs i ∧
        ∀ j, j < s.td.topIdxs i → s2.td.cache i j = s.td.cache i j := by
  have hb := reachable_counts s hr
  constructor
  · intro hpos
    obtain ⟨r, h1, h2, h3⟩ := purge_effect s.td s.bins hb
    obtain ⟨t1, _, t3⟩ := h3 i hi
    refine ⟨purgeReturned_eq s.td i hpos ((hb i).2 hpos), { td := r.1, bins := r.2 }, ?_, t3, t1,
      ?_⟩
    · unfold CacheState.step
      simp only
      rw [h1]
    · intro j _
      show r.1.cache i j = _
      rw [h2]
  · intro p hroom
    have hstep : s.step (.pushCache p i)
        = .ok { td := (s.td.pushCache s.bins p i).1, bins := (s.td.pushCache s.bins p i).2 } := by
      unfold CacheState.step
      simp only
      rw [if_neg (by unfold smallSizeClasses; simp only [List.length]; omega)]
    have hb1 := (cache_step_counts s _ _ hb hstep).1
    obtain ⟨c1, c2, _⟩ := pushCache_counts s.td s.bins p i
    rw [if_pos hroom] at c1
    obtain ⟨p1, p2, p3⟩ := pushCache_room s.td s.bins p i hroom
    obtain ⟨r, h1, h2, h3⟩ := purge_effect (s.td.pushCache s.bins p i).1
      (s.td.pushCache s.bins p i).2 hb1
    obtain ⟨t1, _, t3⟩ := h3 i hi
    have hret : (s.td.pushCache s.bins p i).1.purgeReturned i = [p] := by
      rw [purgeReturned_eq _ i (by omega) (by omega), c1, c2]
      have hm : min 1 (s.td.topIdxs i + 1) = 1 := by omega
      rw [hm]
      show [(s.td.pushCache s.bins p i).1.cache i (s.td.topIdxs i + 1 - 1 - 0)] = [p]
      rw [show s.td.topIdxs i + 1 - 1 - 0 = s.td.topIdxs i from by omega, p1]
    refine ⟨_, { td := r.1, bins := r.2 }, hstep, ?_, hret, ?_, ?_, ?_⟩
    · unfold CacheState.step
      simp only
      rw [h1]
    · show r.2 i = _
      rw [t3, hret, p3]
      rfl
    · show r.1.topIdxs i = _
      rw [t1, c1, c2]
      omega
    · intro j hj
      show r.1.cache i j = _
      rw [h2]
      exact p2 j (by omega)

/-- C26, amended, at a concrete input: the cache of class 24 holds two chunks;
after the push of a third the tick hands exactly that one to the bin. -/
theorem purge_drops_from_top_witness :
    ∃ s1 s2, exampleCache.step (.pushCache 93824992884736 24) = .ok s1 ∧
      s1.step .purge = .ok s2 ∧ s1.td.purgeReturned 24 = [93824992884736] ∧
      s2.td.topIdxs 24 = 2 := by
  obtain ⟨s1, s2, h1, h2, h3, _, h5, _⟩ := (purge_drops_from_top exampleCache
    ⟨fun _ => [], [.pushCache 93824992878592 24, .pushCache 93824992881664 24], rfl⟩
    24 (by decide)).2 93824992884736 (by decide)
  exact ⟨s1, s2, h1, h2, h3, h5⟩

/-! ## Theorems: the used-page index -/

/-- A descriptor of the index after `emplace` was there before or is the new
one. -/
theorem mem_of_usedPages_emplace (used : UsedPages) (d e : PageDescriptor)
    (h : e ∈ UsedPages.emplace used d) : e ∈ used ∨ e = d := by
  induction used with
  | nil =>
    unfold UsedPages.emplace at h
    exact Or.inr (List.mem_singleton.1 h)
  | cons x rest ih =>
    unfold UsedPages.emplace at h
    by_cases h1 : x.page < d.page
    · rw [if_pos h1] at h
      rcases List.mem_cons.1 h with h | h
      · exact Or.inr h
      · exact Or.inl h
    · rw [if_neg h1] at h
      by_cases h2 : x.page = d.page
      · rw [if_pos h2] at h
        exact Or.inl h
      · rw [if_neg h2] at h
        rcases List.mem_cons.1 h with h | h
        · exact Or.inl (h ▸ List.mem_cons_self _ _)
        · rcases ih h with h | h
          · exact Or.inl (List.mem_cons_of_mem _ h)
          · exact Or.inr h

/-- The index stays in the order of the reversed comparator through
`emplace`. -/
theorem usedPages_emplace_sorted (used : UsedPages) (d : PageDescriptor)
    (hs : used.Pairwise (fun a b => a.page > b.page)) :
    (UsedPages.emplace used d).Pairwise (fun a b => a.page > b.page) := by
  induction used with
  | nil =>
    unfold UsedPages.emplace
    exact List.pairwise_singleton _ _
  | cons x rest ih =>
    obtain ⟨hx, hrest⟩ := List.pairwise_cons.1 hs
    unfold UsedPages.emplace
    by_cases h1 : x.page < d.page
    · rw [if_pos h1]
      refine List.pairwise_cons.2 ⟨?_, hs⟩
      intro e he
      rcases List.mem_cons.1 he with he | he
      · rw [he]; exact h1
      · have := hx e he
        omega
    · rw [if_neg h1]
      by_cases h2 : x.page = d.page
      · rw [if_pos h2]
        exact hs
      · rw [if_neg h2]
        refine List.pairwise_cons.2 ⟨?_, ih hrest⟩
        intro e he
        rcases mem_of_usedPages_emplace rest d e he with he | he
        · exact hx e he
        · rw [he]
          omega

/-- C27: for every set of descriptors in the order of the reversed comparator
(pages descend) and every pointer `p`, the descriptor that
`arenaUsedPages.lower_bound(getPage(p))` yields, the one `Arena::deallocate`
acts on, is a descriptor of the set whose page is at most `getPage(p)`, no
descriptor of the set with a page at most `getPage(p)` has a larger page, and
it is the only descriptor of the set with its page; the lookup yields `end()`
exactly when every page of the set is greater than `getPage(p)`. -/
theorem lowerBound_predecessor (used : UsedPages)
    (hs : used.Pairwise (fun a b => a.page > b.page)) (p : Nat) :
    (∀ d, UsedPages.lowerBound used (getPage p) = some d →
      d ∈ used ∧ d.page ≤ getPage p ∧
      (∀ e ∈ used, e.page ≤ getPage p → e.page ≤ d.page) ∧
      (∀ e ∈ used, e.page = d.page → e = d)) ∧
    (UsedPages.lowerBound used (getPage p) = none ↔ ∀ e ∈ used, getPage p < e.page) := by
  refine ⟨?_, ?_⟩
  · induction used with
    | nil =>
      intro d h
      unfold UsedPages.lowerBound at h
      cases h
    | cons x rest ih =>
      obtain ⟨hx, hrest⟩ := List.pairwise_cons.1 hs
      intro d h
      unfold UsedPages.lowerBound at h
      by_cases h1 : x.page > getPage p
      · rw [if_pos h1] at h
        obtain ⟨i1, i2, i3, i4⟩ := ih hrest d h
        refine ⟨List.mem_cons_of_mem _ i1, i2, ?_, ?_⟩
        · intro e he hle
          rcases List.mem_cons.1 he with he | he
          · rw [he] at hle
            omega
          · exact i3 e he hle
        · intro e he hpe
          rcases List.mem_cons.1 he with he | he
          · have := hx d i1
            rw [he] at hpe
            omega
          · exact i4 e he hpe
      · rw [if_neg h1] at h
        simp only [Option.some.injEq] at h
        subst h
        refine ⟨List.mem_cons_self _ _, by omega, ?_, ?_⟩
        · intro e he _
          rcases List.mem_cons.1 he with he | he
          · rw [he]
          · have := hx e he
            omega
        · intro e he hpe
          rcases List.mem_cons.1 he with he | he
          · exact he
          · have := hx e he
            omega
  · clear hs
    induction used with
    | nil =>
      unfold UsedPages.lowerBound
      constructor
      · intro _ e he
        cases he
      · intro _
        rfl
    | cons x rest ih =>
      unfold UsedPages.lowerBound
      by_cases h1 : x.page > getPage p
      · rw [if_pos h1, ih]
        constructor
        · intro h e he
          rcases List.mem_cons.1 he with he | he
          · rw [he]; exact h1
          · exact h e he
        · intro h e he
          exact h e (List.mem_cons_of_mem _ he)
      · rw [if_neg h1]
        constructor
        · intro h
          cases h
        · intro h
          exact absurd (h x (List.mem_cons_self _ _)) h1

/-- C27, at a concrete input: in an index with the pages 0x40000000, 0x3000 and
0x1000 the lookup for the pointer 0x3ff0 yields the descriptor of the page
0x3000, and the lookup for 0x10 yields `end()`. -/
theorem lowerBound_predecessor_witness :
    UsedPages.lowerBound [.large 0x40000000 8192, .slab 0x3000 1 1, .slab 0x1000 0 1]
        (getPage 0x3ff0) = some (.slab 0x3000 1 1) ∧
    (∀ e ∈ ([.large 0x40000000 8192, .slab 0x3000 1 1, .slab 0x1000 0 1] : UsedPages),
      e.page ≤ getPage 0x3ff0 → e.page ≤ (PageDescriptor.slab 0x3000 1 1).page) ∧
    (UsedPages.lowerBound [.large 0x40000000 8192, .slab 0x3000 1 1, .slab 0x1000 0 1]
        (getPage 0x10) = none ↔
      ∀ e ∈ ([.large 0x40000000 8192, .slab 0x3000 1 1, .slab 0x1000 0 1] : UsedPages),
        getPage 0x10 < e.page) := by
  have hs : ([.large 0x40000000 8192, .slab 0x3000 1 1, .slab 0x1000 0 1] :
      UsedPages).Pairwise (fun a b => a.page > b.page) := by decide
  have h1 := lowerBound_predecessor _ hs 0x3ff0
  have h2 := lowerBound_predecessor _ hs 0x10
  exact ⟨by decide, (h1.1 (.slab 0x3000 1 1) (by decide)).2.2.1, h2.2⟩

/-! ## Theorems: the construction of the arena -/

/-- The loop of `Arena::init()` leaves the bins it does not visit as they
are. -/
theorem init_fold_bins_other (sbrk : Nat → Nat) (l : List Nat) (a : Arena) (i : Nat)
    (hi : i ∉ l) :
    (l.foldl (fun a i => Arena.initBin a i (sbrk i)) a).bins i = a.bins i := by
  induction l generalizing a with
  | nil => rfl
  | cons j rest ih =>
    rw [List.foldl_cons, ih _ (fun e => hi (List.mem_cons_of_mem _ e))]
    show setAt a.bins j _ i = _
    rw [setAt_apply, if_neg (by intro e; subst e; exact hi (List.mem_cons_self _ _))]

/-- The loop of `Arena::init()` over distinct bins leaves each bin it visits,
empty before, with the single entry `(base, objs)`. -/
theorem init_fold_bins (sbrk : Nat → Nat) (l : List Nat) (hl : l.Nodup) (a : Arena) (i : Nat)
    (hi : i ∈ l) (he : a.bins i = []) :
    (l.foldl (fun a i => Arena.initBin a i (sbrk i)) a).bins i
      = [(sbrk i, slabObjs (sizeClassOf i))] := by
  induction l generalizing a with
  | nil => cases hi
  | cons j rest ih =>
    obtain ⟨hj, hrest⟩ := List.nodup_cons.1 hl
    rw [List.foldl_cons]
    rcases List.mem_cons.1 hi with hij | hir
    · subst hij
      rw [init_fold_bins_other sbrk rest _ i hj]
      show setAt a.bins i _ i = _
      rw [setAt_apply, if_pos rfl, he]
      rfl
    · refine ih hrest _ hir ?_
      show setAt a.bins j _ i = _
      rw [setAt_apply, if_neg (by intro e; subst e; exact hj hir)]
      exact he

/-- The loop of `Arena::init()` keeps the descriptors of the index. -/
theorem init_fold_used_old (sbrk : Nat → Nat) (l : List Nat) (a : Arena) (e : PageDescriptor)
    (he : e ∈ a.arenaUsedPages) :
    e ∈ (l.foldl (fun a i => Arena.initBin a i (sbrk i)) a).arenaUsedPages := by
  induction l generalizing a with
  | nil => exact he
  | cons j rest ih =>
    rw [List.foldl_cons]
    exact ih _ (mem_usedPages_emplace_old _ _ _ he)

/-- The descriptors of the index after the loop of `Arena::init()` were there
before or are slab descriptors of the bins visited. -/
theorem init_fold_used_mem (sbrk : Nat → Nat) (l : List Nat) (a : Arena) (e : PageDescriptor)
    (he : e ∈ (l.foldl (fun a i => Arena.initBin a i (sbrk i)) a).arenaUsedPages) :
    e ∈ a.arenaUsedPages ∨
      ∃ j ∈ l, e = .slab (getPage (sbrk j)) j (slabConsecutive (sizeClassOf j)) := by
  induction l generalizing a with
  | nil => exact Or.inl he
  | cons j rest ih =>
    rw [List.foldl_cons] at he
    rcases ih _ he with h | ⟨k, hk, h⟩
    · rcases mem_of_usedPages_emplace _ _ _ h with h | h
      · exact Or.inl h
      · exact Or.inr ⟨j, List.mem_cons_self _ _, h⟩
    · exact Or.inr ⟨k, List.mem_cons_of_mem _ hk, h⟩

/-- The loop of `Arena::init()` puts the slab descriptor of a bin it visits
into the index when no descriptor had its page key and no other bin visited
has it. -/
theorem init_fold_used_new (sbrk : Nat → Nat) (l : List Nat) (a : Arena) (i : Nat)
    (hi : i ∈ l) (ha : ∀ e ∈ a.arenaUsedPages, e.page ≠ getPage (sbrk i))
    (hd : ∀ j ∈ l, j ≠ i → getPage (sbrk j) ≠ getPage (sbrk i)) :
    PageDescriptor.slab (getPage (sbrk i)) i (slabConsecutive (sizeClassOf i))
      ∈ (l.foldl (fun a i => Arena.initBin a i (sbrk i)) a).arenaUsedPages := by
  induction l generalizing a with
  | nil => cases hi
  | cons j rest ih =>
    rw [List.foldl_cons]
    by_cases hji : j = i
    · subst hji
      exact init_fold_used_old sbrk rest _ _ (mem_usedPages_emplace_new _ _ ha)
    · have hir : i ∈ rest := by
        rcases List.mem_cons.1 hi with h | h
        · exact absurd h.symm hji
        · exact h
      refine ih _ hir ?_ (fun k hk => hd k (List.mem_cons_of_mem _ hk))
      intro e he
      rcases mem_of_usedPages_emplace _ _ _ he with h | h
      · exact ha e h
      · rw [h]
        exact hd j (List.mem_cons_self _ _) hji

/-- The loop of `Arena::init()` keeps the index in the order of the reversed
comparator. -/
theorem init_fold_sorted (sbrk : Nat → Nat) (l : List Nat) (a : Arena)
    (hs : a.arenaUsedPages.Pairwise (fun a b => a.page > b.page)) :
    (l.foldl (fun a i => Arena.initBin a i (sbrk i)) a).arenaUsedPages.Pairwise
      (fun a b => a.page > b.page) := by
  induction l generalizing a with
  | nil => exact hs
  | cons j rest ih =>
    rw [List.foldl_cons]
    exact ih _ (usedPages_emplace_sorted _ _ hs)

/-- The member `binIdx` of every bin after `Arena::init()` is its index. -/
theorem initBinIdx_eq : ∀ i, i < 28 → Arena.initBinIdx i = i := by decide

/-- After `Arena::init()` with an oracle whose answers have pairwise different
page keys, for every class `i` the free-list of `bins[i]` is the single entry
`(base_i, slab_i / SC[i])`, `bins[i].binIdx` is `i`, and the index holds the
slab descriptor `(getPage(base_i), i, slab_i / PAGE_SIZE)`. -/
theorem init_seeds_bins (sbrk : Nat → Nat)
    (hd : ∀ i, i < 28 → ∀ j, j < 28 → j ≠ i → getPage (sbrk j) ≠ getPage (sbrk i))
    (i : Nat) (hi : i < 28) :
    (Arena.init sbrk).bins i
        = [(sbrk i, slabSize (sizeClassOf i) / sizeClassOf i)] ∧
      (Arena.init sbrk).bins i ≠ [] ∧
      Arena.initBinIdx i = i ∧
      PageDescriptor.slab (getPage (sbrk i)) i (slabSize (sizeClassOf i) / PAGE_SIZE)
        ∈ (Arena.init sbrk).arenaUsedPages := by
  have hmem : i ∈ List.range smallSizeClasses.length := List.mem_range.2 hi
  have hb := init_fold_bins sbrk (List.range smallSizeClasses.length) (List.nodup_range _)
    { bins := fun _ => [], arenaUsedPages := [] } i hmem rfl
  have hu := init_fold_used_new sbrk (List.range smallSizeClasses.length)
    { bins := fun _ => [], arenaUsedPages := [] } i hmem
    (by intro e he; cases he)
    (fun j hj hji => hd i hi j (List.mem_range.1 hj) hji)
  rw [slabConsecutive_eq] at hu
  refine ⟨hb, ?_, initBinIdx_eq i hi, hu⟩
  unfold Arena.init
  rw [hb]
  exact List.cons_ne_nil _ _

/-- The construction at a concrete input: the contiguous break of the
examples. -/
theorem init_seeds_bins_example :
    (Arena.init (contiguousBreak exampleBreak)).bins 24 = [(93824992878592, 32)] ∧
      PageDescriptor.slab (getPage 93824992878592) 24 24
        ∈ (Arena.init (contiguousBreak exampleBreak)).arenaUsedPages := by
  have h := init_seeds_bins (contiguousBreak exampleBreak) (by decide) 24 (by decide)
  exact ⟨h.1, h.2.2.2⟩

/-! ## Theorems: the ranges of the descriptors -/

/-- The range of a slab descriptor has the size of the slab. -/
theorem slab_descriptor_size (page binIdx sc : Nat) :
    (PageDescriptor.slab page binIdx (slabConsecutive sc)).size = slabSize sc := by
  show slabConsecutive sc * PAGE_SIZE = slabSize sc
  rw [slabConsecutive_eq]
  exact Nat.div_mul_cancel (Nat.dvd_of_mod_eq_zero (slabSize_aligned sc))

/-- What `Bin::allocate()` does to the index and the log: nothing, or one
descriptor for the slab that one call of `mmap` returned. -/
theorem bin_allocate_used (binIdx : Nat) (fl : FreeList) (used : UsedPages) (os : Nat) :
    ((Bin.allocate binIdx fl used os).arenaUsedPages = used ∧
      (Bin.allocate binIdx fl used os).osCalls = []) ∨
    ((Bin.allocate binIdx fl used os).arenaUsedPages
        = UsedPages.emplace used
            (.slab (getPage os) binIdx (slabConsecutive (sizeClassOf binIdx))) ∧
      (Bin.allocate binIdx fl used os).osCalls
        = [.mmap (slabSize (sizeClassOf binIdx)) os]) := by
  cases fl with
  | nil => exact Or.inr ⟨rfl, rfl⟩
  | cons x rest =>
    obtain ⟨a, k⟩ := x
    rw [bin_allocate_cons]
    by_cases hc : (k + WORD - 1) % WORD > 0
    · rw [if_pos hc]; exact Or.inl ⟨rfl, rfl⟩
    · rw [if_neg hc]; exact Or.inl ⟨rfl, rfl⟩

/-- What `Arena::allocate` does to the index and the log: nothing, or one
descriptor whose page and size are those of the region that one call of `mmap`
returned. -/
theorem arena_allocate_used (a : Arena) (td : ThreadDescriptor) (sz os : Nat) (r : Allocation)
    (hr : Arena.allocate a td sz os = .ok r) :
    (r.arena.arenaUsedPages = a.arenaUsedPages ∧ r.osCalls = []) ∨
    ∃ d size, r.arena.arenaUsedPages = UsedPages.emplace a.arenaUsedPages d ∧
      r.osCalls = [.mmap size os] ∧ d.page = getPage os ∧ d.size = size := by
  unfold Arena.allocate at hr
  by_cases hl : isLargeSize sz = true
  · rw [if_pos hl] at hr
    by_cases hm : os = MAP_FAILED
    · rw [if_pos hm] at hr; cases hr
    · rw [if_neg hm] at hr
      simp only [Except.ok.injEq] at hr
      subst hr
      exact Or.inr ⟨_, _, rfl, rfl, rfl, rfl⟩
  · rw [if_neg hl] at hr
    cases hg : getBinIdx sz with
    | none => rw [hg] at hr; cases hr
    | some binIdx =>
      rw [hg] at hr
      simp only at hr
      by_cases hb : smallSizeClasses.length ≤ binIdx
      · rw [if_pos hb] at hr; cases hr
      · rw [if_neg hb] at hr
        cases hp : td.popCache binIdx with
        | error e => rw [hp] at hr; cases hr
        | ok v =>
          obtain ⟨out, td1⟩ := v
          rw [hp] at hr
          simp only at hr
          by_cases h0 : out ≠ 0
          · rw [if_pos h0] at hr
            simp only [Except.ok.injEq] at hr
            subst hr
            exact Or.inl ⟨rfl, rfl⟩
          · rw [if_neg h0] at hr
            simp only [Except.ok.injEq] at hr
            subst hr
            rcases bin_allocate_used binIdx (a.bins binIdx) a.arenaUsedPages os with h | h
            · exact Or.inl h
            · exact Or.inr ⟨_, _, h.1, h.2, rfl, slab_descriptor_size _ _ _⟩

/-- What `Arena::deallocate` does to the index and the log: the index stays,
and the log gets no call that maps memory. -/
theorem arena_deallocate_used (a : Arena) (td : ThreadDescriptor) (ptr : Nat)
    (r : Deallocation) (h : Arena.deallocate a td ptr = .ok r) :
    r.arena.arenaUsedPages = a.arenaUsedPages ∧ r.osCalls.filterMap OsCall.region = [] := by
  unfold Arena.deallocate at h
  cases hf : Arena.freeAction a.arenaUsedPages ptr with
  | invalidFree => rw [hf] at h; cases h
  | unmap q len =>
    rw [hf] at h
    simp only at h
    by_cases hm : munmapFails q len = true
    · rw [if_pos hm] at h; cases h
    · rw [if_neg hm] at h
      simp only [Except.ok.injEq] at h
      subst h
      exact ⟨rfl, rfl⟩
  | cachePush q b =>
    rw [hf] at h
    simp only at h
    by_cases hb : smallSizeClasses.length ≤ b
    · rw [if_pos hb] at h; cases h
    · rw [if_neg hb] at h
      simp only [Except.ok.injEq] at h
      subst h
      exact ⟨rfl, rfl⟩

/-- The index of a freshly constructed allocator stands for the calls of
`sbrk` of `Arena::init()`. -/
theorem new_indexed (sbrk : Nat → Nat) : (Allocator.new sbrk).Indexed := by
  constructor
  · exact init_fold_sorted sbrk _ _ List.Pairwise.nil
  · intro d hd
    rcases init_fold_used_mem sbrk _ _ d hd with h | ⟨j, hj, h⟩
    · cases h
    · rw [h, slab_descriptor_size]
      show _ ∈ (Arena.initCalls sbrk).filterMap OsCall.region
      rw [List.mem_filterMap]
      refine ⟨.sbrk (slabSize (sizeClassOf j)) (sbrk j), ?_, rfl⟩
      unfold Arena.initCalls
      exact List.mem_map.2 ⟨j, hj, rfl⟩

/-- A call of `Melloc::allocate` keeps the index standing for the log. -/
theorem allocate_indexed (s s1 : Allocator) (n os p : Nat) (hs : s.Indexed)
    (h : allocate s n os = .ok (p, s1)) : s1.Indexed := by
  unfold allocate at h
  cases hr : roundup n with
  | none => rw [hr] at h; cases h
  | some sz =>
    rw [hr] at h
    simp only at h
    have key : ∀ td0 : ThreadDescriptor,
        (match Arena.allocate s.arena td0 sz os with
          | .error e => (Except.error e : Except Fault (Nat × Allocator))
          | .ok r =>
            .ok (r.out,
              { arena := r.arena, threadDescriptor := some r.td,
                osCalls := s.osCalls ++ r.osCalls })) = .ok (p, s1) →
        s1.Indexed := by
      intro td0 h
      cases ha : Arena.allocate s.arena td0 sz os with
      | error e => rw [ha] at h; cases h
      | ok r =>
        rw [ha] at h
        simp only [Except.ok.injEq, Prod.mk.injEq] at h
        obtain ⟨_, hs1⟩ := h
        subst hs1
        obtain ⟨hsort, hmem⟩ := hs
        rcases arena_allocate_used s.arena td0 sz os r ha with ⟨h1, h2⟩ | ⟨d, size, h1, h2, h3, h4⟩
        · constructor
          · show r.arena.arenaUsedPages.Pairwise _
            rw [h1]; exact hsort
          · intro e he
            show _ ∈ (s.osCalls ++ r.osCalls).filterMap OsCall.region
            rw [h2, List.append_nil]
            have he1 : e ∈ r.arena.arenaUsedPages := he
            rw [h1] at he1
            exact hmem e he1
        · constructor
          · show r.arena.arenaUsedPages.Pairwise _
            rw [h1]; exact usedPages_emplace_sorted _ _ hsort
          · intro e he
            show _ ∈ (s.osCalls ++ r.osCalls).filterMap OsCall.region
            rw [h2, List.filterMap_append, List.mem_append]
            have he1 : e ∈ r.arena.arenaUsedPages := he
            rw [h1] at he1
            rcases mem_of_usedPages_emplace _ _ _ he1 with he2 | he2
            · exact Or.inl (hmem e he2)
            · right
              rw [he2, h3, h4]
              exact List.mem_singleton.2 rfl
    cases ht : s.threadDescriptor with
    | none =>
      rw [ht] at h
      exact key _ h
    | some td =>
      rw [ht] at h
      exact key td h

/-- A call of `Melloc::deallocate` keeps the index standing for the log. -/
theorem deallocate_indexed (s s1 : Allocator) (ptr : Nat) (hs : s.Indexed)
    (h : deallocate s ptr = .ok s1) : s1.Indexed := by
  unfold deallocate at h
  cases ht : s.threadDescriptor with
  | none => rw [ht] at h; cases h
  | some td =>
    rw [ht] at h
    simp only at h
    cases hd : Arena.deallocate s.arena td ptr with
    | error e => rw [hd] at h; cases h
    | ok r =>
      rw [hd] at h
      simp only [Except.ok.injEq] at h
      subst h
      obtain ⟨h1, h2⟩ := arena_deallocate_used s.arena td ptr r hd
      obtain ⟨hsort, hmem⟩ := hs
      constructor
      · show r.arena.arenaUsedPages.Pairwise _
        rw [h1]; exact hsort
      · intro e he
        show _ ∈ (s.osCalls ++ r.osCalls).filterMap OsCall.region
        rw [List.filterMap_append, h2, List.append_nil]
        have he1 : e ∈ r.arena.arenaUsedPages := he
        rw [h1] at he1
        exact hmem e he1

/-- Every call of a run keeps the index standing for the log. -/
theorem steps_indexed (ops : List Op) (r r1 : Run) (hr : r.state.Indexed)
    (h : r.steps ops = some r1) : r1.state.Indexed := by
  induction ops generalizing r with
  | nil =>
    simp only [Run.steps, Option.some.injEq] at h
    exact h ▸ hr
  | cons op rest ih =>
    unfold Run.steps at h
    cases hs : r.step op with
    | none => rw [hs] at h; cases h
    | some r2 =>
      rw [hs] at h
      simp only at h
      refine ih r2 ?_ h
      cases op with
      | allocate n os =>
        unfold Run.step at hs
        simp only at hs
        cases ha : allocate r.state n os with
        | error e => rw [ha] at hs; cases hs
        | ok v =>
          obtain ⟨p, s⟩ := v
          rw [ha] at hs
          simp only [Option.some.injEq] at hs
          subst hs
          exact allocate_indexed r.state s n os p hr ha
      | deallocate ptr =>
        unfold Run.step at hs
        simp only at hs
        by_cases hm : ptr ∈ r.live.map Prod.fst
        · rw [if_pos hm] at hs
          cases hd : deallocate r.state ptr with
          | error e => rw [hd] at hs; cases hs
          | ok s =>
            rw [hd] at hs
            simp only [Option.some.injEq] at hs
            subst hs
            exact deallocate_indexed r.state s ptr hr hd
        · rw [if_neg hm] at hs; cases hs

/-- An index that stands for a log of pairwise disjoint regions has pairwise
disjoint page ranges. -/
theorem indexed_disjoint (s : Allocator) (hs : s.Indexed) (hd : MappingsDisjoint s.osCalls) :
    s.arena.arenaUsedPages.RangesDisjoint := by
  obtain ⟨hsort, hmem⟩ := hs
  unfold UsedPages.RangesDisjoint
  unfold MappingsDisjoint at hd
  refine List.Pairwise.imp_of_mem ?_ hsort
  intro a b ha hb hab
  have hsymm : Symmetric (fun r1 r2 : Nat × Nat => r1.1 + r1.2 ≤ r2.1 ∨ r2.1 + r2.2 ≤ r1.1) :=
    fun x y h => h.symm
  have hne : (a.page, a.size) ≠ (b.page, b.size) := by
    intro e
    have : a.page = b.page := congrArg Prod.fst e
    omega
  exact hd.forall hsymm (hmem a ha) (hmem b hb) hne

/-- C29, a counterexample: from an allocator constructed at the break
0x2000000, `p = allocate(5000)` is served by `mmap` at 0x40000000, `p` is
freed (`munmap(p, 8192)`), and a second `allocate(5000)` is served at
0x40001000, which overlaps no region mapped at that time. The descriptor of
the first allocation is still in the index, so the index holds
`(0x40001000, 8192)` and `(0x40000000, 8192)`, whose ranges share the page
0x40001000: the page ranges are not pairwise disjoint. -/
theorem descriptor_ranges_overlap :
    ((Run.new (contiguousBreak lowBreak)).steps
        [.allocate 5000 0x40000000, .deallocate 0x40000000, .allocate 5000 0x40001000]).map
        (fun r => (r.state.osCalls.drop 28, r.state.arena.arenaUsedPages.take 2,
          decide r.state.arena.arenaUsedPages.RangesDisjoint))
      = some ([.mmap 8192 0x40000000, .munmap 0x40000000 8192, .mmap 8192 0x40001000],
          [.large 0x40001000 8192, .large 0x40000000 8192], false) := by
  decide

/-- C29, amended: in every state reachable from a freshly constructed
allocator by a valid single-thread run of `allocate` and `deallocate`, if the
regions `[getPage(base), getPage(base) + size)` of all calls of `sbrk` and
`mmap` made so far, unmapped since or not, are pairwise disjoint (the operating
system reuses no address), then the page ranges of the descriptors in
`arenaUsedPages` are pairwise disjoint. -/
theorem descriptor_ranges_disjoint (sbrk : Nat → Nat) (ops : List Op) (r : Run)
    (h : (Run.new sbrk).steps ops = some r) (hd : MappingsDisjoint r.state.osCalls) :
    r.state.arena.arenaUsedPages.RangesDisjoint :=
  indexed_disjoint r.state (steps_indexed ops (Run.new sbrk) r (new_indexed sbrk) h) hd

/-- C29, amended, at a concrete run: after `allocate(3000)` and
`allocate(5000)`, served by `mmap` at 0x40000000, from an allocator constructed
at the break 0x2000000, the 29 regions of the log are pairwise disjoint, and
so are the page ranges of the index. -/
theorem descriptor_ranges_disjoint_witness :
    ∃ r, (Run.new (contiguousBreak lowBreak)).steps
        [.allocate 3000 0, .allocate 5000 0x40000000] = some r ∧
      MappingsDisjoint r.state.osCalls ∧ r.state.arena.arenaUsedPages.RangesDisjoint := by
  have hlog : ((Run.new (contiguousBreak lowBreak)).steps
      [.allocate 3000 0, .allocate 5000 0x40000000]).map
        (fun r => r.state.osCalls.filterMap OsCall.region)
      = some ((Arena.initCalls (contiguousBreak lowBreak)).filterMap OsCall.region
          ++ [(0x40000000, 8192)]) := by decide
  cases hr : (Run.new (contiguousBreak lowBreak)).steps
      [.allocate 3000 0, .allocate 5000 0x40000000] with
  | none => rw [hr] at hlog; cases hlog
  | some r =>
    rw [hr] at hlog
    simp only [Option.map, Option.some.injEq] at hlog
    have hd : MappingsDisjoint r.state.osCalls := by
      unfold MappingsDisjoint
      rw [hlog]
      decide
    exact ⟨r, rfl, hd, descriptor_ranges_disjoint (contiguousBreak lowBreak) _ r hr hd⟩

/-! ## Theorems: the runs of the free-list and the slabs -/

/-- The sizes of the table are positive and below a page, and a slab holds at
least 32 objects and at least a page. -/
theorem slab_facts : ∀ i, i < 28 →
    0 < sizeClassOf i ∧ sizeClassOf i < PAGE_SIZE ∧ 32 ≤ slabObjs (sizeClassOf i) ∧
      PAGE_SIZE ≤ slabSize (sizeClassOf i) := by
  decide

/-- The objects of a slab fit the slab. -/
theorem slabObjs_fit (sc : Nat) : slabObjs sc * sc ≤ slabSize sc :=
  Nat.div_mul_le_self _ _

/-- A key that `find` finds is an entry of the free-list. -/
theorem mem_of_find (fl : FreeList) (key v : Nat) (h : FreeList.find fl key = some v) :
    (key, v) ∈ fl := by
  induction fl with
  | nil =>
    unfold FreeList.find at h
    cases h
  | cons x rest ih =>
    obtain ⟨k0, c0⟩ := x
    unfold FreeList.find at h
    by_cases h1 : k0 = key
    · rw [if_pos h1] at h
      simp only [Option.some.injEq] at h
      rw [h1, h]
      exact List.mem_cons_self _ _
    · rw [if_neg h1] at h
      exact List.mem_cons_of_mem _ (ih h)

/-- An entry of the free-list after an assignment was there before or is the
assigned one. -/
theorem mem_assign_cases (fl : FreeList) (k v : Nat) (e : Nat × Nat)
    (h : e ∈ FreeList.assign fl k v) : e ∈ fl ∨ e = (k, v) := by
  induction fl with
  | nil =>
    unfold FreeList.assign at h
    cases h
  | cons x rest ih =>
    obtain ⟨k0, c0⟩ := x
    unfold FreeList.assign at h
    by_cases h1 : k0 = k
    · rw [if_pos h1] at h
      rcases List.mem_cons.1 h with h | h
      · exact Or.inr (by rw [h, h1])
      · exact Or.inl (List.mem_cons_of_mem _ h)
    · rw [if_neg h1] at h
      rcases List.mem_cons.1 h with h | h
      · exact Or.inl (h ▸ List.mem_cons_self _ _)
      · rcases ih h with h | h
        · exact Or.inl (List.mem_cons_of_mem _ h)
        · exact Or.inr h

/-- With the left neighbour a key and the right one not, `giveBack` assigns the
left entry. -/
theorem giveBack_left (binIdx : Nat) (fl : FreeList) (ptr lc : Nat)
    (hl : FreeList.find fl (decrement ptr (sizeClassOf binIdx)) = some lc)
    (hr : FreeList.find fl (increment ptr (sizeClassOf binIdx)) = none) :
    Bin.giveBack binIdx fl ptr
      = FreeList.assign fl (decrement ptr (sizeClassOf binIdx)) ((lc + 1) % WORD) := by
  unfold Bin.giveBack
  simp only [hl, hr]

/-- With both neighbours keys, `giveBack` assigns the left entry twice and
erases the right one. -/
theorem giveBack_both (binIdx : Nat) (fl : FreeList) (ptr lc rc : Nat)
    (hl : FreeList.find fl (decrement ptr (sizeClassOf binIdx)) = some lc)
    (hr : FreeList.find fl (increment ptr (sizeClassOf binIdx)) = some rc) :
    Bin.giveBack binIdx fl ptr
      = FreeList.erase
          (FreeList.assign
            (FreeList.assign fl (decrement ptr (sizeClassOf binIdx)) ((lc + 1) % WORD))
            (decrement ptr (sizeClassOf binIdx)) (((lc + 1) % WORD + rc) % WORD))
          (increment ptr (sizeClassOf binIdx)) := by
  unfold Bin.giveBack
  simp only [hl, hr]

/-- With the right neighbour a key and the left one not, `giveBack` emplaces an
entry at the pointer and erases the right one. -/
theorem giveBack_right (binIdx : Nat) (fl : FreeList) (ptr rc : Nat)
    (hl : FreeList.find fl (decrement ptr (sizeClassOf binIdx)) = none)
    (hr : FreeList.find fl (increment ptr (sizeClassOf binIdx)) = some rc) :
    Bin.giveBack binIdx fl ptr
      = FreeList.erase (FreeList.emplace fl ptr ((1 + rc) % WORD))
          (increment ptr (sizeClassOf binIdx)) := by
  unfold Bin.giveBack
  simp only [hl, hr]

/-- Two chunks one size apart, on the grids of slabs that are equal or lie
apart, are neighbours on the grid of one slab. -/
theorem same_slab (sc objs size b1 b2 m1 m2 : Nat) (hsc : 0 < sc) (hfit : objs * sc ≤ size)
    (h1 : m1 < objs) (h2 : m2 < objs) (heq : b1 + m1 * sc + sc = b2 + m2 * sc)
    (hap : b1 = b2 ∨ b1 + size < b2 ∨ b2 + size < b1) : b1 = b2 ∧ m2 = m1 + 1 := by
  have e1 : (m1 + 1) * sc = m1 * sc + sc := Nat.succ_mul m1 sc
  have e2 : (m1 + 1) * sc ≤ objs * sc := Nat.mul_le_mul_right sc h1
  have e3 : (m2 + 1) * sc = m2 * sc + sc := Nat.succ_mul m2 sc
  have e4 : (m2 + 1) * sc ≤ objs * sc := Nat.mul_le_mul_right sc h2
  rcases hap with h | h | h
  · refine ⟨h, ?_⟩
    subst h
    have : m2 * sc = (m1 + 1) * sc := by omega
    exact Nat.eq_of_mul_eq_mul_right hsc this
  · omega
  · omega

/-- Two slabs of a bin whose slabs lie apart are equal or lie apart. -/
theorem slabs_apart_cases (size : Nat) (slabs : List Nat) (ha : SlabsApart size slabs)
    (b1 b2 : Nat) (h1 : b1 ∈ slabs) (h2 : b2 ∈ slabs) :
    b1 = b2 ∨ b1 + size < b2 ∨ b2 + size < b1 := by
  by_cases h : b1 = b2
  · exact Or.inl h
  · have hsymm : Symmetric (fun x y : Nat => x + size < y ∨ y + size < x) :=
      fun x y h => h.symm
    exact Or.inr (List.Pairwise.forall hsymm ha h1 h2 h)

/-- The bin primed by `Arena::init()` is on the grid of its slab. -/
theorem new_onGrid (i : Nat) (hi : i < 28) (base : Nat) : (BinState.new i base).OnGrid i := by
  obtain ⟨_, _, h32, _⟩ := slab_facts i hi
  constructor
  · intro e he
    have hfl : (BinState.new i base).binFreeChunks = [(base, slabObjs (sizeClassOf i))] := by
      show setAt (fun _ => ([] : FreeList)) i _ i = _
      rw [setAt_apply, if_pos rfl]
      rfl
    rw [hfl] at he
    rw [List.mem_singleton.1 he]
    refine ⟨?_, base, List.mem_singleton.2 rfl, 0, ?_, ?_⟩
    · show 1 ≤ slabObjs (sizeClassOf i)
      omega
    · show base = base + 0 * sizeClassOf i
      omega
    · show 0 + slabObjs (sizeClassOf i) ≤ slabObjs (sizeClassOf i)
      omega
  · intro p hp
    cases hp

/-- An entry on the grid of the slabs stays on it when slabs are added. -/
theorem gridRun_mono (sc : Nat) (slabs l : List Nat) (e : Nat × Nat)
    (h : GridRun sc slabs e) : GridRun sc (l ++ slabs) e := by
  obtain ⟨h1, b, hb, m, h2, h3⟩ := h
  exact ⟨h1, b, List.mem_append_right _ hb, m, h2, h3⟩

/-- A chunk on the grid of the slabs stays on it when slabs are added. -/
theorem gridChunk_mono (sc : Nat) (slabs l : List Nat) (p : Nat)
    (h : GridChunk sc slabs p) : GridChunk sc (l ++ slabs) p := by
  obtain ⟨b, hb, m, h2, h3⟩ := h
  exact ⟨b, List.mem_append_right _ hb, m, h2, h3⟩

/-- The first chunk of an entry on the grid is a chunk on the grid. -/
theorem gridRun_head (sc : Nat) (slabs : List Nat) (a k : Nat)
    (h : GridRun sc slabs (a, k)) : GridChunk sc slabs a := by
  obtain ⟨h1, b, hb, m, h2, h3⟩ := h
  exact ⟨b, hb, m, h2, by simp only at h1 h3; omega⟩

/-- A call on the bin keeps the slabs it had. -/
theorem step_slabs (i : Nat) (s s1 : BinState) (op : BinOp) (h : s.step i op = some s1) :
    ∃ l, s1.slabs = l ++ s.slabs := by
  cases op with
  | allocate os =>
    unfold BinState.step at h
    simp only [Option.some.injEq] at h
    subst h
    exact ⟨_, rfl⟩
  | giveBack ptr =>
    unfold BinState.step at h
    simp only at h
    split at h
    · simp only [Option.some.injEq] at h
      subst h
      exact ⟨[], rfl⟩
    · cases h

/-- A sequence of calls on the bin keeps the slabs it had. -/
theorem steps_slabs (i : Nat) (ops : List BinOp) (s s1 : BinState)
    (h : s.steps i ops = some s1) : ∃ l, s1.slabs = l ++ s.slabs := by
  induction ops generalizing s with
  | nil =>
    simp only [BinState.steps, Option.some.injEq] at h
    exact ⟨[], by rw [h]; rfl⟩
  | cons op rest ih =>
    unfold BinState.steps at h
    cases hs : s.step i op with
    | none => rw [hs] at h; cases h
    | some s2 =>
      rw [hs] at h
      simp only at h
      obtain ⟨l1, h1⟩ := step_slabs i s s2 op hs
      obtain ⟨l2, h2⟩ := ih s2 h
      exact ⟨l2 ++ l1, by rw [h2, h1, List.append_assoc]⟩

/-- The function `Bin::allocate()` keeps the free-list on the grid of the
slabs, the new slab included, and returns a chunk on the grid. -/
theorem bin_allocate_grid (i : Nat) (hi : i < 28) (fl : FreeList) (used : UsedPages)
    (os : Nat) (slabs : List Nat) (hfl : ∀ e ∈ fl, GridRun (sizeClassOf i) slabs e)
    (hr : SlabsInRange (slabSize (sizeClassOf i))
      ((Bin.allocate i fl used os).osCalls.filterMap OsCall.mappedBase ++ slabs)) :
    (∀ e ∈ (Bin.allocate i fl used os).binFreeChunks,
      GridRun (sizeClassOf i)
        ((Bin.allocate i fl used os).osCalls.filterMap OsCall.mappedBase ++ slabs) e) ∧
    GridChunk (sizeClassOf i)
      ((Bin.allocate i fl used os).osCalls.filterMap OsCall.mappedBase ++ slabs)
      (Bin.allocate i fl used os).out := by
  obtain ⟨hpos, hlt, h32, hpage⟩ := slab_facts i hi
  have hfit := slabObjs_fit (sizeClassOf i)
  cases fl with
  | nil =>
    have hb : Bin.allocate i [] used os =
        { out := os
          binFreeChunks := [(increment os (sizeClassOf i),
            (slabSize (sizeClassOf i) / sizeClassOf i + WORD - 1) % WORD)]
          arenaUsedPages := UsedPages.emplace used
            (.slab (getPage os) i (slabConsecutive (sizeClassOf i)))
          osCalls := [.mmap (slabSize (sizeClassOf i)) os] } := rfl
    rw [hb] at hr ⊢
    have hsl : ([OsCall.mmap (slabSize (sizeClassOf i)) os].filterMap OsCall.mappedBase
        ++ slabs) = os :: slabs := rfl
    simp only [hsl] at hr ⊢
    obtain ⟨ho1, ho2⟩ := hr os (List.mem_cons_self _ _)
    have hinc : increment os (sizeClassOf i) = os + sizeClassOf i := by
      unfold increment
      exact Nat.mod_eq_of_lt (by omega)
    constructor
    · intro e he
      rw [List.mem_singleton.1 he, slabObjs_pred i hi, hinc]
      refine ⟨?_, os, List.mem_cons_self _ _, 1, ?_, ?_⟩
      · show 1 ≤ slabSize (sizeClassOf i) / sizeClassOf i - 1
        unfold slabObjs at h32
        omega
      · show os + sizeClassOf i = os + 1 * sizeClassOf i
        omega
      · show 1 + (slabSize (sizeClassOf i) / sizeClassOf i - 1) ≤ slabObjs (sizeClassOf i)
        unfold slabObjs at h32 ⊢
        omega
    · exact ⟨os, List.mem_cons_self _ _, 0, by omega, by omega⟩
  | cons x rest =>
    obtain ⟨a, k⟩ := x
    obtain ⟨hk, b, hb, m, ham, hmk⟩ := hfl (a, k) (List.mem_cons_self _ _)
    simp only at hk ham hmk
    have hrest : ∀ e ∈ rest, GridRun (sizeClassOf i) slabs e :=
      fun e he => hfl e (List.mem_cons_of_mem _ he)
    have hnil : ∀ l : List OsCall, l = [] → l.filterMap OsCall.mappedBase ++ slabs = slabs := by
      intro l hl
      rw [hl]
      rfl
    have e1 : (m + 1) * sizeClassOf i = m * sizeClassOf i + sizeClassOf i := Nat.succ_mul _ _
    have e2 : (m + 1) * sizeClassOf i ≤ slabObjs (sizeClassOf i) * sizeClassOf i :=
      Nat.mul_le_mul_right _ (by omega)
    have e3 : slabObjs (sizeClassOf i) ≤ slabObjs (sizeClassOf i) * sizeClassOf i :=
      Nat.le_mul_of_pos_right _ hpos
    rw [bin_allocate_cons] at hr ⊢
    by_cases hc : (k + WORD - 1) % WORD > 0
    · rw [if_pos hc] at hr ⊢
      simp only [hnil [] rfl] at hr ⊢
      obtain ⟨hb1, hb2⟩ := hr b hb
      have hkm : (k + WORD - 1) % WORD = k - 1 := by
        unfold WORD at *
        omega
      have hinc : increment a (sizeClassOf i) = a + sizeClassOf i := by
        unfold increment
        exact Nat.mod_eq_of_lt (by omega)
      constructor
      · intro e he
        rcases mem_emplace _ _ _ e he with he | he
        · exact hrest e he
        · rw [he, hkm, hinc]
          rw [hkm] at hc
          refine ⟨hc, b, hb, m + 1, ?_, ?_⟩
          · show a + sizeClassOf i = b + (m + 1) * sizeClassOf i
            omega
          · show m + 1 + (k - 1) ≤ slabObjs (sizeClassOf i)
            omega
      · exact ⟨b, hb, m, ham, by omega⟩
    · rw [if_neg hc] at hr ⊢
      simp only [hnil [] rfl] at hr ⊢
      exact ⟨hrest, b, hb, m, ham, by omega⟩

/-- The function `Bin::giveBack(p)` keeps the free-list on the grid of the
slabs when `p` is a chunk on the grid that lies in no run of the free-list and
the slabs lie apart. -/
theorem giveBack_grid (i : Nat) (hi : i < 28) (fl : FreeList) (slabs : List Nat) (p : Nat)
    (hfl : ∀ e ∈ fl, GridRun (sizeClassOf i) slabs e)
    (hp : GridChunk (sizeClassOf i) slabs p)
    (hfree : FreeList.coversChunk (sizeClassOf i) fl p = false)
    (hr : SlabsInRange (slabSize (sizeClassOf i)) slabs)
    (ha : SlabsApart (slabSize (sizeClassOf i)) slabs) :
    ∀ e ∈ Bin.giveBack i fl p, GridRun (sizeClassOf i) slabs e := by
  obtain ⟨hpos, hlt, h32, hpage⟩ := slab_facts i hi
  have hfit := slabObjs_fit (sizeClassOf i)
  obtain ⟨bp, hbp, mp, hpm, hmp⟩ := hp
  obtain ⟨hbp1, hbp2⟩ := hr bp hbp
  have e1 : (mp + 1) * sizeClassOf i = mp * sizeClassOf i + sizeClassOf i := Nat.succ_mul _ _
  have e2 : (mp + 1) * sizeClassOf i ≤ slabObjs (sizeClassOf i) * sizeClassOf i :=
    Nat.mul_le_mul_right _ hmp
  have e3 : slabObjs (sizeClassOf i) ≤ slabObjs (sizeClassOf i) * sizeClassOf i :=
    Nat.le_mul_of_pos_right _ hpos
  have hdec : decrement p (sizeClassOf i) = p - sizeClassOf i := by
    unfold decrement
    unfold PAGE_SIZE at *
    unfold WORD at *
    omega
  have hinc : increment p (sizeClassOf i) = p + sizeClassOf i := by
    unfold increment
    exact Nat.mod_eq_of_lt (by omega)
  have hnot : ∀ e ∈ fl, ¬ (e.1 ≤ p ∧ p < e.1 + e.2 * sizeClassOf i) := by
    intro e he hcov
    unfold FreeList.coversChunk at hfree
    rw [List.any_eq_false] at hfree
    exact hfree e he (decide_eq_true hcov)
  -- the left neighbour, when it is a key, holds one chunk and lies in the slab of `p`
  have hleft : ∀ lc, FreeList.find fl (decrement p (sizeClassOf i)) = some lc →
      lc = 1 ∧ ∃ m, p - sizeClassOf i = bp + m * sizeClassOf i ∧ mp = m + 1 := by
    intro lc hl
    have hmem := mem_of_find fl _ lc hl
    rw [hdec] at hmem
    obtain ⟨h1, b, hb, m, h2, h3⟩ := hfl _ hmem
    simp only at h1 h2 h3
    have hn := hnot _ hmem
    simp only at hn
    have hlc : lc = 1 := by
      by_contra hne
      have h2le : 2 * sizeClassOf i ≤ lc * sizeClassOf i :=
        Nat.mul_le_mul_right _ (by omega)
      apply hn
      unfold PAGE_SIZE at *
      omega
    have hs := same_slab (sizeClassOf i) (slabObjs (sizeClassOf i)) (slabSize (sizeClassOf i))
      b bp m mp hpos hfit (by omega) hmp
      (by unfold PAGE_SIZE at *; omega)
      (slabs_apart_cases _ slabs ha b bp hb hbp)
    exact ⟨hlc, m, by rw [h2, hs.1], hs.2⟩
  -- the right neighbour, when it is a key, starts at the next chunk of the slab of `p`
  have hright : ∀ rc, FreeList.find fl (increment p (sizeClassOf i)) = some rc →
      1 ≤ rc ∧ mp + 1 + rc ≤ slabObjs (sizeClassOf i) := by
    intro rc hrc
    have hmem := mem_of_find fl _ rc hrc
    rw [hinc] at hmem
    obtain ⟨h1, b, hb, m, h2, h3⟩ := hfl _ hmem
    simp only at h1 h2 h3
    have hs := same_slab (sizeClassOf i) (slabObjs (sizeClassOf i)) (slabSize (sizeClassOf i))
      bp b mp m hpos hfit hmp (by omega) (by omega)
      (slabs_apart_cases _ slabs ha bp b hbp hb)
    exact ⟨h1, by omega⟩
  have hobjs : slabObjs (sizeClassOf i) + 4 < WORD := by
    unfold PAGE_SIZE at *
    omega
  cases hl : FreeList.find fl (decrement p (sizeClassOf i)) with
  | none =>
    cases hrc : FreeList.find fl (increment p (sizeClassOf i)) with
    | none =>
      rw [giveBack_neither i fl p hl hrc]
      exact hfl
    | some rc =>
      obtain ⟨r1, r2⟩ := hright rc hrc
      rw [giveBack_right i fl p rc hl hrc]
      intro e he
      rcases mem_emplace _ _ _ e (mem_erase _ _ e he) with he | he
      · exact hfl e he
      · rw [he, Nat.mod_eq_of_lt (by omega)]
        exact ⟨by show 1 ≤ 1 + rc; omega, bp, hbp, mp, hpm, by show mp + (1 + rc) ≤ _; omega⟩
  | some lc =>
    obtain ⟨l1, m, l2, l3⟩ := hleft lc hl
    subst l1
    have hm1 : (1 + 1) % WORD = 2 := by decide
    cases hrc : FreeList.find fl (increment p (sizeClassOf i)) with
    | none =>
      rw [giveBack_left i fl p 1 hl hrc, hm1, hdec]
      intro e he
      rcases mem_assign_cases _ _ _ e he with he | he
      · exact hfl e he
      · rw [he]
        exact ⟨by show 1 ≤ 2; omega, bp, hbp, m, l2, by show m + 2 ≤ _; omega⟩
    | some rc =>
      obtain ⟨r1, r2⟩ := hright rc hrc
      rw [giveBack_both i fl p 1 rc hl hrc, hm1, hdec, Nat.mod_eq_of_lt (by omega)]
      intro e he
      rcases mem_assign_cases _ _ _ e (mem_erase _ _ e he) with he | he
      · rcases mem_assign_cases _ _ _ e he with he | he
        · exact hfl e he
        · rw [he]
          exact ⟨by show 1 ≤ 2; omega, bp, hbp, m, l2, by show m + 2 ≤ _; omega⟩
      · rw [he]
        exact ⟨by show 1 ≤ 2 + rc; omega, bp, hbp, m, l2, by show m + (2 + rc) ≤ _; omega⟩

/-- A call on the bin keeps it on the grid of its slabs, when the slabs after
the call lie in the address space and apart. -/
theorem step_onGrid (i : Nat) (hi : i < 28) (s s1 : BinState) (op : BinOp) (hg : s.OnGrid i)
    (h : s.step i op = some s1) (hr : SlabsInRange (slabSize (sizeClassOf i)) s1.slabs)
    (ha : SlabsApart (slabSize (sizeClassOf i)) s1.slabs) : s1.OnGrid i := by
  obtain ⟨hfl, hout⟩ := hg
  cases op with
  | allocate os =>
    unfold BinState.step at h
    simp only [Option.some.injEq] at h
    subst h
    obtain ⟨g1, g2⟩ :=
      bin_allocate_grid i hi s.binFreeChunks s.arenaUsedPages os s.slabs hfl hr
    refine ⟨g1, ?_⟩
    intro p hp
    rcases List.mem_cons.1 hp with hp | hp
    · rw [hp]; exact g2
    · exact gridChunk_mono _ _ _ p (hout p hp)
  | giveBack ptr =>
    unfold BinState.step at h
    simp only at h
    by_cases hv : ptr ∈ s.handedOut ∧
        FreeList.coversChunk (sizeClassOf i) s.binFreeChunks ptr = false
    · rw [if_pos hv] at h
      simp only [Option.some.injEq] at h
      subst h
      refine ⟨giveBack_grid i hi s.binFreeChunks s.slabs ptr hfl (hout ptr hv.1) hv.2 hr ha, ?_⟩
      intro p hp
      exact hout p (List.mem_of_mem_erase hp)
    · rw [if_neg hv] at h
      cases h

/-- A sequence of calls on the bin keeps it on the grid of its slabs, when the
slabs at the end lie in the address space and apart. -/
theorem steps_onGrid (i : Nat) (hi : i < 28) (ops : List BinOp) (s s1 : BinState)
    (hg : s.OnGrid i) (h : s.steps i ops = some s1)
    (hr : SlabsInRange (slabSize (sizeClassOf i)) s1.slabs)
    (ha : SlabsApart (slabSize (sizeClassOf i)) s1.slabs) : s1.OnGrid i := by
  induction ops generalizing s with
  | nil =>
    simp only [BinState.steps, Option.some.injEq] at h
    exact h ▸ hg
  | cons op rest ih =>
    unfold BinState.steps at h
    cases hs : s.step i op with
    | none => rw [hs] at h; cases h
    | some s2 =>
      rw [hs] at h
      simp only at h
      obtain ⟨l, hl⟩ := steps_slabs i rest s2 s1 h
      have hr2 : SlabsInRange (slabSize (sizeClassOf i)) s2.slabs := by
        intro b hb
        exact hr b (hl ▸ List.mem_append_right _ hb)
      have ha2 : SlabsApart (slabSize (sizeClassOf i)) s2.slabs := by
        unfold SlabsApart at ha ⊢
        rw [hl] at ha
        exact (List.pairwise_append.1 ha).2.1
      exact ih s2 (step_onGrid i hi s s2 op hg hs hr2 ha2) h

/-- A free-list on the grid of the slabs has every run inside one slab. -/
theorem onGrid_runs (sc : Nat) (slabs : List Nat) (fl : FreeList)
    (h : ∀ e ∈ fl, GridRun sc slabs e) : FreeList.RunsInOneSlab sc slabs fl := by
  intro e he
  obtain ⟨h1, b, hb, m, h2, h3⟩ := h e he
  refine ⟨h1, b, hb, by omega, ?_⟩
  have hfit := slabObjs_fit sc
  have hmul : (m + e.2) * sc ≤ slabObjs sc * sc := Nat.mul_le_mul_right _ h3
  rw [Nat.add_mul] at hmul
  omega

/-- C30, a counterexample: the bin of class 3072 is primed with a slab at
93824992878592. Its 32 chunks are handed out, and the next `allocate()` maps a
second slab right after the first, at 93824992976896, and returns its first
chunk. That chunk is given back, which makes the entry `(93824992976896, 32)`;
then the last chunk of the first slab, 93824992973824, is given back: its right
neighbour is that key, and the free-list becomes `(93824992973824, 33)`, a run
of 33 chunks that starts in the first slab and ends in the second. -/
theorem run_crosses_slab_boundary :
    ((BinState.new 24 93824992878592).steps 24 adjacentSlabs).map
        (fun s => ((s.binFreeChunks : List (Nat × Nat)), s.slabs,
          decide (FreeList.RunsInOneSlab (sizeClassOf 24) s.slabs s.binFreeChunks)))
      = some ([(93824992973824, 33)], [93824992976896, 93824992878592], false) ∧
    93824992878592 + slabSize (sizeClassOf 24) = 93824992976896 := by
  decide

/-- C30, amended: in every state of a bin reachable from the state
`Arena::init()` leaves by calls of `Bin::allocate()` and `Bin::giveBack(p)`,
with `giveBack` applied only to chunks the bin handed out that lie in no run of
the free-list, if the slabs of the bin lie in the address space (above the
first page, ending below `2 ^ 64`) and apart (no two overlap and none starts
where another ends), every entry `(a, k)` of the free-list has `k >= 1` and its
run `[a, a + k * SC[i])` lies inside one single slab of the bin. -/
theorem runs_stay_in_slab (i : Nat) (hi : i < 28) (base : Nat) (ops : List BinOp)
    (s : BinState) (h : (BinState.new i base).steps i ops = some s)
    (hr : SlabsInRange (slabSize (sizeClassOf i)) s.slabs)
    (ha : SlabsApart (slabSize (sizeClassOf i)) s.slabs) :
    FreeList.RunsInOneSlab (sizeClassOf i) s.slabs s.binFreeChunks :=
  onGrid_runs _ _ _ (steps_onGrid i hi ops _ s (new_onGrid i hi base) h hr ha).1

/-- C30, amended, at a concrete input: the bin of class 3072 hands out the 32
chunks of its first slab, maps a second slab at 0x7ffff7a00000, far from the
first, and gets the first chunk of the second slab back. -/
theorem runs_stay_in_slab_witness :
    ∃ s, (BinState.new 24 93824992878592).steps 24
        (List.replicate 32 (BinOp.allocate 0) ++
          [.allocate exampleMapping, .giveBack exampleMapping]) = some s ∧
      s.slabs = [exampleMapping, 93824992878592] ∧
      FreeList.RunsInOneSlab (sizeClassOf 24) s.slabs s.binFreeChunks := by
  have hsl : ((BinState.new 24 93824992878592).steps 24
      (List.replicate 32 (BinOp.allocate 0) ++
        [.allocate exampleMapping, .giveBack exampleMapping])).map (fun s => s.slabs)
      = some [exampleMapping, 93824992878592] := by decide
  cases hs : (BinState.new 24 93824992878592).steps 24
      (List.replicate 32 (BinOp.allocate 0) ++
        [.allocate exampleMapping, .giveBack exampleMapping]) with
  | none => rw [hs] at hsl; cases hsl
  | some s =>
    rw [hs] at hsl
    simp only [Option.map, Option.some.injEq] at hsl
    refine ⟨s, rfl, hsl, runs_stay_in_slab 24 (by decide) 93824992878592 _ s hs ?_ ?_⟩
    · rw [hsl]
      unfold SlabsInRange
      decide
    · rw [hsl]
      unfold SlabsApart
      decide

/-! ## Theorems: page keys and the range of the classifier -/

/-- Below `2 ^ 32` the page of an address is the address with its low 12 bits
cleared. -/
theorem getPage_low (a : Nat) (h : a < 2 ^ 32) : getPage a = a - a % 4096 := by
  rw [getPage_eq]
  omega

/-- C31, at the failing input: the page of the address 0x555555559000, which
has its low 12 bits clear already, is 0x55559000 and not the address itself,
because the mask `PAGE_MASK = 0xFFFFF000` also clears the bits 32 to 63; and
the addresses 0x100000000 and 0x200000000, which lie in different pages, both
get the descriptor key 0. -/
theorem getPage_drops_high_bits :
    getPage 0x555555559000 = 0x55559000 ∧
    0x555555559000 - 0x555555559000 % 4096 = 0x555555559000 ∧
    getPage 0x555555559000 ≠ 0x555555559000 - 0x555555559000 % 4096 ∧
    0x100000000 / PAGE_SIZE ≠ 0x200000000 / PAGE_SIZE ∧
    getPage 0x100000000 = getPage 0x200000000 := by
  decide

/-- C33, at the failing inputs: for every `n` from 3841 to 4095, which
`isLargeSize` classifies as small, `getBinIdx(n)` is 28, one past the last
index of the table and of the bins; the read `smallSizeClasses[getBinIdx(n)]`
of `roundup(n)` is past the end of the table, and `Arena::allocate` called with
such a size indexes `bins[28]`. -/
theorem getBinIdx_past_table (n : Nat) (h1 : 3840 < n) (h2 : n < PAGE_SIZE) :
    isLargeSize n = false ∧ getBinIdx n = some 28 ∧ ¬ 28 < smallSizeClasses.length ∧
    smallSizeClasses[28]? = none ∧ roundup n = none ∧
    ∀ a td os, Arena.allocate a td n os = .error .undefined := by
  unfold PAGE_SIZE at h2
  have hl : isLargeSize n = false := by
    unfold isLargeSize PAGE_SIZE
    exact decide_eq_false (by omega)
  have hq : (n - 768) / 2 ^ 8 = 12 := by omega
  have hg : getBinIdx n = some 28 := by
    unfold getBinIdx
    rw [if_neg (by omega), if_neg (by omega), if_neg (by omega), if_neg (by omega),
      Nat.shiftRight_eq_div_pow, hq]
    have ht : smallSizeClasses[15 + 12]? = some 3840 := by decide
    unfold binCorrection
    rw [ht]
    have hne : (3840 == n) = false := by
      rw [beq_eq_false_iff_ne]
      omega
    simp only [hne]
    rfl
  refine ⟨hl, hg, by decide, by decide, ?_, ?_⟩
  · unfold roundup
    rw [hl, hg]
    rfl
  · intro a td os
    unfold Arena.allocate
    rw [hl, hg]
    rfl

/-- C33, at a concrete input: the request of 3841 bytes. -/
theorem getBinIdx_past_table_witness :
    isLargeSize 3841 = false ∧ getBinIdx 3841 = some 28 ∧ roundup 3841 = none := by
  have h := getBinIdx_past_table 3841 (by decide) (by decide)
  exact ⟨h.1, h.2.1, h.2.2.2.2.1⟩

/-! ## Theorems: the accesses to the cache array -/

/-- The call `popCache` does not return exactly when its read is past the end
of the cache array. -/
theorem popCache_undefined_iff (td : ThreadDescriptor) (i : Nat) :
    (∃ j, td.popCacheRead i = some j ∧ THREAD_CACHE_SIZE ≤ j) ↔
      (td.popCache i).toOption = none := by
  unfold ThreadDescriptor.popCacheRead ThreadDescriptor.popCache
  simp only
  by_cases h0 : td.topIdxs i > 0
  · rw [if_pos h0, if_pos h0]
    by_cases h1 : td.topIdxs i < THREAD_CACHE_SIZE
    · rw [if_pos h1]
      constructor
      · rintro ⟨j, hj, hle⟩
        simp only [Option.some.injEq] at hj
        omega
      · intro h
        cases h
    · rw [if_neg h1]
      constructor
      · intro _
        rfl
      · intro _
        exact ⟨_, rfl, by omega⟩
  · rw [if_neg h0, if_neg h0]
    constructor
    · rintro ⟨j, hj, _⟩
      cases hj
    · intro h
      cases h

/-- In a reachable state the write of `pushCache` and the reads of `purge()`
are inside the cache array, and the read of `popCache` is at an index of at
most `THREAD_CACHE_SIZE`. -/
theorem cache_accesses (s : CacheState) (hr : s.Reachable) (i : Nat) :
    (∀ j, s.td.pushCacheWrite i = some j → j < THREAD_CACHE_SIZE) ∧
    (∀ j, j ∈ s.td.purgeReads i → j < THREAD_CACHE_SIZE) ∧
    (∀ j, s.td.popCacheRead i = some j → j ≤ THREAD_CACHE_SIZE) := by
  obtain ⟨hle, hrate⟩ := reachable_counts s hr i
  refine ⟨?_, ?_, ?_⟩
  · intro j hj
    unfold ThreadDescriptor.pushCacheWrite at hj
    by_cases h : s.td.topIdxs i < THREAD_CACHE_SIZE
    · rw [if_pos h] at hj
      simp only [Option.some.injEq] at hj
      omega
    · rw [if_neg h] at hj
      cases hj
  · intro j hj
    unfold ThreadDescriptor.purgeReads at hj
    by_cases h0 : s.td.topIdxs i = 0
    · rw [if_pos h0] at hj
      cases hj
    · rw [if_neg h0] at hj
      have hr1 := hrate (by omega)
      unfold THREAD_CACHE_SIZE at hle
      have hall := purgeIndices_bounded (s.td.topIdxs i - 1)
        (1 + (s.td.topIdxs i - 1) - min (s.td.decayRate i) (s.td.topIdxs i))
        (by unfold THREAD_CACHE_SIZE; omega) (by omega)
      rw [List.all_eq_true] at hall
      exact of_decide_eq_true (hall j hj)
  · intro j hj
    unfold ThreadDescriptor.popCacheRead at hj
    by_cases h : s.td.topIdxs i > 0
    · rw [if_pos h] at hj
      simp only [Option.some.injEq] at hj
      omega
    · rw [if_neg h] at hj
      cases hj

/-- C34, at the failing input: sixteen calls `pushCache(p, 24)` on a new
thread descriptor fill the cache of class 24, a reachable state with
`topIdxs[24] = 16`. The call `popCache(24)` then reads `cache[24][16]`, one
past the last element of the array of `THREAD_CACHE_SIZE = 16` entries, and
the call has no defined result. -/
theorem popCache_reads_past_end :
    (CacheState.steps { td := ThreadDescriptor.new, bins := fun _ => [] }
        ((List.range 16).map
          (fun k => CacheOp.pushCache (93824992878592 + 3072 * k) 24))).toOption.map
        (fun s => (s.td.topIdxs 24, s.td.popCacheRead 24, (s.td.popCache 24).toOption.isNone))
      = some (16, some 16, true) ∧
    fullCache.td.topIdxs 24 = 16 ∧
    fullCache.td.popCacheRead 24 = some 16 ∧
    ¬ 16 < THREAD_CACHE_SIZE ∧
    (fullCache.td.popCache 24).toOption.isNone = true ∧
    (fullCache.step (.popCache 24)).toOption.isNone = true := by
  decide

/-! ## Theorems: the discards of a tick -/

/-- A call on the thread descriptor keeps the decay rate of a class with
sixteen entries below sixteen. -/
theorem cache_step_rate (s s1 : CacheState) (op : CacheOp) (hb : s.td.CountsBounded)
    (hk : s.td.RateBounded) (h : s.step op = .ok s1) : s1.td.RateBounded := by
  unfold ThreadDescriptor.RateBounded THREAD_CACHE_SIZE at *
  cases op with
  | pushCache ptr j =>
    unfold CacheState.step at h
    simp only at h
    by_cases hj : smallSizeClasses.length ≤ j
    · rw [if_pos hj] at h; cases h
    · rw [if_neg hj] at h
      simp only [Except.ok.injEq] at h
      subst h
      obtain ⟨c1, c2, c3⟩ := pushCache_counts s.td s.bins ptr j
      intro i hi
      by_cases hij : i = j
      · subst hij
        have hi2 : 16 ≤ (s.td.pushCache s.bins ptr i).1.decayRate i := hi
        rw [c2] at hi2
        omega
      · have hi2 : 16 ≤ (s.td.pushCache s.bins ptr j).1.decayRate i := hi
        rw [(c3 i hij).2] at hi2
        show (s.td.pushCache s.bins ptr j).1.topIdxs i < 16
        rw [(c3 i hij).1]
        exact hk i hi2
  | popCache j =>
    unfold CacheState.step at h
    simp only at h
    by_cases hj : smallSizeClasses.length ≤ j
    · rw [if_pos hj] at h; cases h
    · rw [if_neg hj] at h
      cases hp : s.td.popCache j with
      | error e => rw [hp] at h; cases h
      | ok r =>
        rw [hp] at h
        simp only [Except.ok.injEq] at h
        subst h
        obtain ⟨c1, c2, c3⟩ := popCache_counts s.td j r hp
        intro i hi
        by_cases hij : i = j
        · subst hij
          have hi2 : 16 ≤ r.2.decayRate i := hi
          rw [c2] at hi2
          omega
        · have hi2 : 16 ≤ r.2.decayRate i := hi
          rw [(c3 i hij).2] at hi2
          show r.2.topIdxs i < 16
          rw [(c3 i hij).1]
          exact hk i hi2
  | purge =>
    unfold CacheState.step at h
    simp only at h
    obtain ⟨r, hr, _, hin, hout⟩ :=
      purge_fold (List.range smallSizeClasses.length) (List.nodup_range _) s.td s.bins hb
    have hr2 : s.td.purge s.bins = .ok r := hr
    rw [hr2] at h
    simp only [Except.ok.injEq] at h
    subst h
    intro i hi
    show r.1.topIdxs i < 16
    by_cases hm : i ∈ List.range smallSizeClasses.length
    · obtain ⟨t1, _, _⟩ := hin i hm
      obtain ⟨b1, b2⟩ := hb i
      unfold THREAD_CACHE_SIZE at b1
      rw [t1]
      by_cases h0 : 0 < s.td.topIdxs i
      · have := b2 h0
        omega
      · omega
    · obtain ⟨o1, o2⟩ := hout i hm
      have hi2 : 16 ≤ r.1.decayRate i := hi
      rw [o2] at hi2
      rw [o1]
      exact hk i hi2

/-- In every reachable state a class whose decay rate has reached sixteen
holds fewer than sixteen entries. -/
theorem reachable_rate (s : CacheState) (hr : s.Reachable) : s.td.RateBounded := by
  obtain ⟨bins, ops, h⟩ := hr
  have h0 : (ThreadDescriptor.new).CountsBounded := by
    intro i
    exact ⟨Nat.zero_le _, fun hc => absurd hc (lt_irrefl 0)⟩
  have k0 : (ThreadDescriptor.new).RateBounded := by
    intro i hi
    have : THREAD_CACHE_SIZE ≤ 0 := hi
    unfold THREAD_CACHE_SIZE at this
    omega
  suffices H : ∀ (ops : List CacheOp) (s0 s1 : CacheState), s0.td.CountsBounded →
      s0.td.RateBounded → s0.steps ops = .ok s1 → s1.td.RateBounded from H ops _ s h0 k0 h
  intro ops
  induction ops with
  | nil =>
    intro s0 s1 _ hk h
    unfold CacheState.steps at h
    simp only [Except.ok.injEq] at h
    exact h ▸ hk
  | cons op rest ih =>
    intro s0 s1 hb hk h
    unfold CacheState.steps at h
    cases hs : s0.step op with
    | error e => rw [hs] at h; cases h
    | ok s2 =>
      rw [hs] at h
      exact ih s2 s1 (cache_step_counts s0 s2 op hb hs).1 (cache_step_rate s0 s2 op hb hk hs) h

/-- C35: in every state of the thread descriptor reachable from the initial one
by calls of `pushCache`, `popCache` and `purge` in any order, and for every
class `i`: `topIdxs[i] > 0` implies `decayRate[i] >= 1`, and
`decayRate[i] >= THREAD_CACHE_SIZE` implies `topIdxs[i] < THREAD_CACHE_SIZE`.
Hence, when `purge()` reaches a class with `topIdxs[i] > 0`, its
`discards = min(decayRate[i], topIdxs[i])` satisfies
`1 <= discards < THREAD_CACHE_SIZE`, the difference
`1 + topIdx - discards` with `topIdx = topIdxs[i] - 1` does not go below zero,
and `botIdx` is at most `topIdx`. -/
theorem purge_discards_in_range (s : CacheState) (hr : s.Reachable) (i : Nat) :
    (0 < s.td.topIdxs i → 1 ≤ s.td.decayRate i) ∧
    (THREAD_CACHE_SIZE ≤ s.td.decayRate i → s.td.topIdxs i < THREAD_CACHE_SIZE) ∧
    (0 < s.td.topIdxs i →
      min (s.td.decayRate i) (s.td.topIdxs i) < THREAD_CACHE_SIZE ∧
      1 ≤ min (s.td.decayRate i) (s.td.topIdxs i) ∧
      min (s.td.decayRate i) (s.td.topIdxs i) ≤ 1 + (s.td.topIdxs i - 1) ∧
      1 + (s.td.topIdxs i - 1) - min (s.td.decayRate i) (s.td.topIdxs i)
        ≤ s.td.topIdxs i - 1 ∧
      s.td.purgeReads i
        = purgeIndices (s.td.topIdxs i - 1)
            (1 + (s.td.topIdxs i - 1) - min (s.td.decayRate i) (s.td.topIdxs i))) := by
  obtain ⟨hle, hrate⟩ := reachable_counts s hr i
  have hk := reachable_rate s hr i
  unfold THREAD_CACHE_SIZE at *
  refine ⟨hrate, hk, ?_⟩
  intro hpos
  have h1 := hrate hpos
  refine ⟨?_, by omega, by omega, by omega, ?_⟩
  · by_cases h16 : 16 ≤ s.td.decayRate i
    · have := hk h16
      omega
    · omega
  · unfold ThreadDescriptor.purgeReads
    rw [if_neg (by omega)]

/-- C35, at a concrete input: the full cache of class 24, with the decay rate
1 of the last push, discards one entry at a tick. -/
theorem purge_discards_in_range_witness :
    fullCache.td.topIdxs 24 = 16 ∧ fullCache.td.decayRate 24 = 1 ∧
    min (fullCache.td.decayRate 24) (fullCache.td.topIdxs 24) < THREAD_CACHE_SIZE ∧
    1 ≤ min (fullCache.td.decayRate 24) (fullCache.td.topIdxs 24) := by
  have h := (purge_discards_in_range fullCache
    ⟨fun _ => [], (List.range 16).map
      (fun k => CacheOp.pushCache (93824992878592 + 3072 * k) 24), rfl⟩ 24).2.2 (by decide)
  exact ⟨by decide, by decide, h.1, h.2.1⟩

/-! ## Theorems: the chunks of a slab and of a run -/

/-- No slab of the table is larger than 126976 bytes. -/
theorem slabSize_le : ∀ i, i < 28 → slabSize (sizeClassOf i) ≤ 126976 := by decide

/-- C36: for every size class `i`, the object count `objs` and the page count
`consecutive` computed for its slab satisfy
`objs * SC[i] <= slab = consecutive * PAGE_SIZE` and `consecutive >= 1`, so
every chunk `base + j * SC[i]` with `j < objs` lies, with all its bytes, inside
`[base, base + consecutive * PAGE_SIZE)`, the range of the slab's descriptor.
For a page-aligned `base`, whenever the lookup of `Arena::deallocate` for such
a chunk yields the descriptor `(getPage(base), i, consecutive)` of the slab,
the range test of `deallocate` accepts the chunk and the call pushes it to the
cache of class `i`. -/
theorem slab_chunks_in_range (i : Nat) (hi : i < 28) (base : Nat)
    (hb : base % PAGE_SIZE = 0) (j : Nat) (hj : j < slabObjs (sizeClassOf i)) :
    slabObjs (sizeClassOf i) * sizeClassOf i ≤ slabSize (sizeClassOf i) ∧
    slabSize (sizeClassOf i) = slabConsecutive (sizeClassOf i) * PAGE_SIZE ∧
    1 ≤ slabConsecutive (sizeClassOf i) ∧
    base ≤ base + j * sizeClassOf i ∧
    base + j * sizeClassOf i + sizeClassOf i
      ≤ base + slabConsecutive (sizeClassOf i) * PAGE_SIZE ∧
    (PageDescriptor.slab base i (slabConsecutive (sizeClassOf i))).covers
      (base + j * sizeClassOf i) = true ∧
    ∀ used,
      UsedPages.lowerBound used (getPage (base + j * sizeClassOf i))
          = some (.slab (getPage base) i (slabConsecutive (sizeClassOf i))) →
        Arena.freeAction used (base + j * sizeClassOf i)
          = .cachePush (base + j * sizeClassOf i) i := by
  obtain ⟨hpos, hlt, h32, hpage⟩ := slab_facts i hi
  have hfit := slabObjs_fit (sizeClassOf i)
  have hmax := slabSize_le i hi
  have hsz : slabSize (sizeClassOf i) = slabConsecutive (sizeClassOf i) * PAGE_SIZE :=
    (slab_descriptor_size 0 0 (sizeClassOf i)).symm
  have e1 : (j + 1) * sizeClassOf i = j * sizeClassOf i + sizeClassOf i := Nat.succ_mul _ _
  have e2 : (j + 1) * sizeClassOf i ≤ slabObjs (sizeClassOf i) * sizeClassOf i :=
    Nat.mul_le_mul_right _ hj
  have hin : base + j * sizeClassOf i + sizeClassOf i
      ≤ base + slabConsecutive (sizeClassOf i) * PAGE_SIZE := by
    rw [← hsz]
    omega
  refine ⟨hfit, hsz, ?_, by omega, hin, ?_, ?_⟩
  · unfold PAGE_SIZE at hsz hpage
    omega
  · unfold PageDescriptor.covers
    simp only
    exact decide_eq_true ⟨by omega, by omega⟩
  · intro used hl
    unfold Arena.freeAction
    rw [hl]
    simp only
    rw [← hsz]
    have hno : ¬ (getPage base + slabSize (sizeClassOf i) % WORD) % WORD
        ≤ getPage (base + j * sizeClassOf i) := by
      rw [getPage_eq, getPage_eq]
      unfold PAGE_SIZE at hb hin hsz
      unfold WORD
      omega
    rw [if_neg hno]

/-- C36, at a concrete input: the chunk 31 of the slab of class 3072 at
93824992878592, the last of its 32 chunks. -/
theorem slab_chunks_in_range_witness :
    slabObjs (sizeClassOf 24) = 32 ∧ slabConsecutive (sizeClassOf 24) = 24 ∧
    93824992878592 + 31 * sizeClassOf 24 + sizeClassOf 24
      ≤ 93824992878592 + slabConsecutive (sizeClassOf 24) * PAGE_SIZE ∧
    Arena.freeAction [.slab (getPage 93824992878592) 24 (slabConsecutive (sizeClassOf 24))]
        (93824992878592 + 31 * sizeClassOf 24)
      = .cachePush (93824992878592 + 31 * sizeClassOf 24) 24 := by
  have h := slab_chunks_in_range 24 (by decide) 93824992878592 (by decide) 31 (by decide)
  exact ⟨by decide, by decide, h.2.2.2.2.1, h.2.2.2.2.2.2 _ (by decide)⟩

/-- A number `j <= k` of calls of `Bin::allocate()` on the single entry
`(base, k)`: the addresses returned and the free-list left. -/
theorem allocateMany_run (i : Nat) (hi : i < 28) (used : UsedPages) (os : Nat) (j : Nat) :
    ∀ base k, 1 ≤ k → base + k * sizeClassOf i ≤ WORD → j ≤ k →
      Bin.allocateMany i [(base, k)] used os j
        = ((List.range j).map (fun m => base + m * sizeClassOf i),
           if j < k then [(base + j * sizeClassOf i, k - j)] else []) := by
  have hpos := sizeClassOf_pos i hi
  induction j with
  | zero =>
    intro base k hk _ _
    rw [if_pos (by omega), Nat.zero_mul, Nat.add_zero, Nat.sub_zero, List.range_zero,
      List.map_nil]
    rfl
  | succ n ih =>
    intro base k hk hrun hj
    have hk8 : k ≤ k * sizeClassOf i := Nat.le_mul_of_pos_right _ hpos
    have hkW : k < WORD := by
      have h8 := sizeClassOf_aligned i hi
      have hk2 : 2 * k ≤ k * sizeClassOf i := by
        rw [Nat.mul_comm 2 k]
        exact Nat.mul_le_mul_left _ (by omega)
      omega
    have hkm : (k + WORD - 1) % WORD = k - 1 := by
      have e : k + WORD - 1 = (k - 1) + WORD := by omega
      rw [e, Nat.add_mod_right]
      exact Nat.mod_eq_of_lt (by omega)
    have hstep : Bin.allocateMany i [(base, k)] used os (n + 1)
        = ((Bin.allocate i [(base, k)] used os).out ::
            (Bin.allocateMany i (Bin.allocate i [(base, k)] used os).binFreeChunks
              (Bin.allocate i [(base, k)] used os).arenaUsedPages os n).1,
           (Bin.allocateMany i (Bin.allocate i [(base, k)] used os).binFreeChunks
              (Bin.allocate i [(base, k)] used os).arenaUsedPages os n).2) := rfl
    have e3 : (n + 1) * sizeClassOf i = n * sizeClassOf i + sizeClassOf i := Nat.succ_mul _ _
    rw [hstep, bin_allocate_cons, hkm]
    by_cases hc : k - 1 > 0
    · rw [if_pos hc]
      simp only
      have e1 : (k - 1 + 1) * sizeClassOf i = (k - 1) * sizeClassOf i + sizeClassOf i :=
        Nat.succ_mul _ _
      have e2 : k - 1 + 1 = k := by omega
      rw [e2] at e1
      have hinc : increment base (sizeClassOf i) = base + sizeClassOf i := by
        unfold increment
        apply Nat.mod_eq_of_lt
        have : sizeClassOf i ≤ (k - 1) * sizeClassOf i := Nat.le_mul_of_pos_left _ hc
        omega
      have hem : FreeList.emplace [] (increment base (sizeClassOf i)) (k - 1)
          = [(base + sizeClassOf i, k - 1)] := by
        rw [hinc]
        rfl
      rw [hem, ih (base + sizeClassOf i) (k - 1) (by omega) (by omega) (by omega)]
      simp only
      have hlist : base :: (List.range n).map (fun m => base + sizeClassOf i + m * sizeClassOf i)
          = (List.range (n + 1)).map (fun m => base + m * sizeClassOf i) := by
        rw [List.range_succ_eq_map]
        simp only [List.map_cons, List.map_map, Nat.zero_mul, Nat.add_zero, List.cons.injEq,
          true_and]
        apply List.map_congr_left
        intro m _
        show base + sizeClassOf i + m * sizeClassOf i = base + (m + 1) * sizeClassOf i
        rw [Nat.succ_mul]
        omega
      rw [hlist]
      refine congrArg (Prod.mk _) ?_
      by_cases hlt : n < k - 1
      · rw [if_pos hlt, if_pos (by omega)]
        have e4 : k - 1 - n = k - (n + 1) := by omega
        have e5 : base + sizeClassOf i + n * sizeClassOf i = base + (n + 1) * sizeClassOf i := by
          omega
        rw [e4, e5]
      · rw [if_neg hlt, if_neg (by omega)]
    · rw [if_neg hc]
      simp only
      have hn : n = 0 := by omega
      subst hn
      rw [if_neg (by omega)]
      have h0 : Bin.allocateMany i [] used os 0 = ([], []) := rfl
      have hr1 : (List.range (0 + 1)).map (fun m => base + m * sizeClassOf i) = [base] := by
        rw [List.range_succ_eq_map, List.range_zero]
        simp only [List.map_nil, List.map_cons, Nat.zero_mul, Nat.add_zero]
      rw [h0, hr1]

/-- C37: for every bin `i` whose free-list is the single entry `(base, k)`,
with `k >= 1` chunks that lie in the address space, and every `j <= k`: `j`
consecutive calls of `Bin::allocate()` return `base`, `base + SC[i]`, ...,
`base + (j - 1) * SC[i]` in that order, and leave the free-list equal to the
single entry `(base + j * SC[i], k - j)` when `j < k` and empty when `j = k`.
None of the calls makes a request to the operating system or changes the used
pages: each finds the free-list non-empty. -/
theorem allocate_run (i : Nat) (hi : i < 28) (used : UsedPages) (os : Nat) (j : Nat)
    (base k : Nat) (hk : 1 ≤ k) (hrun : base + k * sizeClassOf i ≤ WORD) (hj : j ≤ k) :
    (Bin.allocateMany i [(base, k)] used os j).1
        = (List.range j).map (fun m => base + m * sizeClassOf i) ∧
    (Bin.allocateMany i [(base, k)] used os j).2
        = (if j < k then [(base + j * sizeClassOf i, k - j)] else []) ∧
    ∀ m, m < j →
      (Bin.allocateMany i [(base, k)] used os m).2 = [(base + m * sizeClassOf i, k - m)] ∧
      (Bin.allocate i [(base + m * sizeClassOf i, k - m)] used os).osCalls = [] ∧
      (Bin.allocate i [(base + m * sizeClassOf i, k - m)] used os).arenaUsedPages = used := by
  rw [allocateMany_run i hi used os j base k hk hrun hj]
  refine ⟨rfl, rfl, ?_⟩
  intro m hm
  rw [allocateMany_run i hi used os m base k hk hrun (by omega), bin_allocate_cons]
  refine ⟨if_pos (by omega), ?_⟩
  by_cases hc : (k - m + WORD - 1) % WORD > 0
  · rw [if_pos hc]; exact ⟨rfl, rfl⟩
  · rw [if_neg hc]; exact ⟨rfl, rfl⟩

/-- C37, at a concrete input: three calls on the bin of class 3072 with the
entry `(93824992878592, 32)` of its first slab. -/
theorem allocate_run_witness :
    (Bin.allocateMany 24 [(93824992878592, 32)] [] 0 3).1
        = [93824992878592, 93824992878592 + 3072, 93824992878592 + 2 * 3072] ∧
    (Bin.allocateMany 24 [(93824992878592, 32)] [] 0 3).2
        = [(93824992878592 + 3 * 3072, 29)] := by
  have h := allocate_run 24 (by decide) [] 0 3 93824992878592 32 (by decide) (by decide)
    (by decide)
  exact ⟨h.1.trans (by decide), h.2.1.trans (by decide)⟩

/-! ## Theorems: the order of the locks -/

/-- The violations of a trace that starts with an exclusive acquisition. -/
theorem lockViolations_lock (held : List Lock) (l : Lock) (rest : List LockEvent) :
    lockViolations held (.lock l :: rest)
      = (held.filter (fun h => decide (l.level ≤ h.level))).map (fun h => (h, l))
          ++ lockViolations (l :: held) rest :=
  rfl

/-- The violations of a trace that starts with a shared acquisition. -/
theorem lockViolations_lockShared (held : List Lock) (l : Lock) (rest : List LockEvent) :
    lockViolations held (.lockShared l :: rest)
      = (held.filter (fun h => decide (l.level ≤ h.level))).map (fun h => (h, l))
          ++ lockViolations (l :: held) rest :=
  rfl

/-- The violations of a trace that starts with a release. -/
theorem lockViolations_unlock (held : List Lock) (l : Lock) (rest : List LockEvent) :
    lockViolations held (.unlock l :: rest) = lockViolations (held.erase l) rest :=
  rfl

/-- Releases alone break no order. -/
theorem lockViolations_unlocks (t : List LockEvent) (ht : ∀ e ∈ t, ∃ l, e = .unlock l)
    (held : List Lock) : lockViolations held t = [] := by
  induction t generalizing held with
  | nil => rfl
  | cons e rest ih =>
    obtain ⟨l, hl⟩ := ht e (List.mem_cons_self _ _)
    subst hl
    unfold lockViolations
    exact ih (fun e he => ht e (List.mem_cons_of_mem _ he)) _

/-- Releases at the end of a trace add no violation. -/
theorem lockViolations_append_unlocks (t1 t2 : List LockEvent)
    (ht : ∀ e ∈ t2, ∃ l, e = .unlock l) (held : List Lock) :
    lockViolations held (t1 ++ t2) = lockViolations held t1 := by
  induction t1 generalizing held with
  | nil =>
    rw [List.nil_append, lockViolations_unlocks t2 ht]
    rfl
  | cons e rest ih =>
    cases e with
    | lock l =>
      show _ ++ lockViolations (l :: held) (rest ++ t2) = _ ++ lockViolations (l :: held) rest
      rw [ih]
    | lockShared l =>
      show _ ++ lockViolations (l :: held) (rest ++ t2) = _ ++ lockViolations (l :: held) rest
      rw [ih]
    | unlock l =>
      show lockViolations (held.erase l) (rest ++ t2) = lockViolations (held.erase l) rest
      rw [ih]

/-- Calls of `giveBack` under locks below the bin mutex add no violation. -/
theorem lockViolations_giveBacks (i : Nat) (reads : List Nat) (held : List Lock)
    (rest : List LockEvent) (hh : ∀ h ∈ held, h.level < 3) :
    lockViolations held (reads.flatMap (fun _ => Bin.giveBackLocks i) ++ rest)
      = lockViolations held rest := by
  induction reads with
  | nil => rfl
  | cons r rs ih =>
    have hf : held.filter (fun h => decide ((Lock.mutBin i).level ≤ h.level)) = [] := by
      rw [List.filter_eq_nil_iff]
      intro h hm
      have := hh h hm
      have hl : (Lock.mutBin i).level = 3 := rfl
      rw [hl]
      simp only [decide_eq_true_eq]
      omega
    have ht : (r :: rs).flatMap (fun _ => Bin.giveBackLocks i) ++ rest
        = .lock (.mutBin i) :: .unlock (.mutBin i) ::
          (rs.flatMap (fun _ => Bin.giveBackLocks i) ++ rest) := by
      rw [List.flatMap_cons]
      rfl
    rw [ht, lockViolations_lock, hf, lockViolations_unlock, List.erase_cons_head]
    exact ih

/-- The lock operations of `purge()` respect the hierarchy: every spin flag is
followed by bin mutexes only. -/
theorem purge_locks_ordered (td : ThreadDescriptor) : lockViolations [] td.purgeLocks = [] := by
  unfold ThreadDescriptor.purgeLocks
  generalize List.range smallSizeClasses.length = l
  induction l with
  | nil => rfl
  | cons i rest ih =>
    have ht : (i :: rest).flatMap td.purgeClassLocks
        = .lock (.usedFlag i) ::
          ((td.purgeReads i).flatMap (fun _ => Bin.giveBackLocks i) ++
            (.unlock (.usedFlag i) :: rest.flatMap td.purgeClassLocks)) := by
      rw [List.flatMap_cons]
      unfold ThreadDescriptor.purgeClassLocks
      simp only [List.append_assoc, List.cons_append, List.nil_append]
    have hh : ∀ h ∈ [Lock.usedFlag i], h.level < 3 := by
      intro h hm
      rw [List.mem_singleton.1 hm]
      show 2 < 3
      omega
    rw [ht, lockViolations_lock, lockViolations_giveBacks i _ [.usedFlag i] _ hh,
      lockViolations_unlock, List.erase_cons_head]
    exact ih

/-- The lock operations of `pushCache` under the facade and the arena lock
respect the hierarchy. -/
theorem pushCache_locks_ordered (td : ThreadDescriptor) (b : Nat) (rest : List LockEvent)
    (hrest : ∀ e ∈ rest, ∃ l, e = .unlock l) :
    lockViolations [.mutArena, .mutMelloc] (td.pushCacheLocks b ++ rest) = [] := by
  rw [lockViolations_append_unlocks _ _ hrest]
  unfold ThreadDescriptor.pushCacheLocks
  by_cases h : td.topIdxs b < THREAD_CACHE_SIZE
  · rw [if_pos h]
    simp [lockViolations, Lock.level]
  · rw [if_neg h]
    simp [lockViolations, Lock.level, Bin.giveBackLocks]

/-- The lock operations of `Melloc::deallocate` respect the hierarchy on every
path: facade lock, arena lock, spin flag, bin mutex. -/
theorem deallocate_locks_ordered (s : Allocator) (ptr : Nat) :
    lockViolations [] (deallocateLocks s ptr) = [] := by
  unfold deallocateLocks
  cases ht : s.threadDescriptor with
  | none => rfl
  | some td =>
    simp only
    have hsuf : ∀ e ∈ (match Arena.deallocate s.arena td ptr with
        | .ok _ => [LockEvent.unlock .mutMelloc]
        | .error _ => []), ∃ l, e = LockEvent.unlock l := by
      intro e he
      cases hd : Arena.deallocate s.arena td ptr with
      | ok r =>
        rw [hd] at he
        exact ⟨_, List.mem_singleton.1 he⟩
      | error x =>
        rw [hd] at he
        cases he
    rw [lockViolations_append_unlocks _ _ hsuf]
    unfold Arena.deallocateLocks
    cases hf : Arena.freeAction s.arena.arenaUsedPages ptr with
    | invalidFree => rfl
    | unmap q len => rfl
    | cachePush q b =>
      simp only
      by_cases hb : smallSizeClasses.length ≤ b
      · rw [if_pos hb]
        rfl
      · rw [if_neg hb]
        have ht : [LockEvent.lockShared Lock.mutMelloc] ++
            ([LockEvent.lockShared Lock.mutArena] ++ td.pushCacheLocks b
              ++ [LockEvent.unlock Lock.mutArena])
            = .lockShared .mutMelloc :: .lockShared .mutArena ::
              (td.pushCacheLocks b ++ [.unlock .mutArena]) := by
          simp only [List.append_assoc, List.cons_append, List.nil_append]
        rw [ht, lockViolations_lockShared, lockViolations_lockShared,
          pushCache_locks_ordered td b _ (by
            intro e he
            exact ⟨_, List.mem_singleton.1 he⟩)]
        rfl

/-- The lock operations of `Bin::allocate()` on an empty free-list, under the
facade lock: the arena lock is taken under the bin mutex. -/
theorem bin_allocate_locks_empty (b : Nat) :
    lockViolations [.mutMelloc]
        (ThreadDescriptor.popCacheLocks b ++ Bin.allocateLocks b [])
      = [(.mutBin b, .mutArena)] := by
  simp [lockViolations, Lock.level, ThreadDescriptor.popCacheLocks, Bin.allocateLocks]

/-- The lock operations of `Melloc::allocate` break the hierarchy on one path
only: a small request that misses the cache and finds the free-list of its bin
empty takes the arena lock under the bin mutex. -/
theorem allocate_locks_ordered (s : Allocator) (n : Nat) :
    lockViolations [] (allocateLocks s n) = [] ∨
      ∃ b, s.arena.bins b = [] ∧
        lockViolations [] (allocateLocks s n) = [(.mutBin b, .mutArena)] := by
  have key : ∀ (td : ThreadDescriptor) (sz : Nat) (suffix : List LockEvent),
      (∀ e ∈ suffix, ∃ l, e = LockEvent.unlock l) →
      lockViolations [.mutMelloc] (Arena.allocateLocks s.arena td sz ++ suffix) = [] ∨
        ∃ b, s.arena.bins b = [] ∧
          lockViolations [.mutMelloc] (Arena.allocateLocks s.arena td sz ++ suffix)
            = [(.mutBin b, .mutArena)] := by
    intro td sz suffix hsuf
    rw [lockViolations_append_unlocks _ _ hsuf]
    unfold Arena.allocateLocks
    by_cases hl : isLargeSize sz = true
    · rw [if_pos hl]
      left
      simp [lockViolations, Lock.level]
    · rw [if_neg hl]
      cases hg : getBinIdx sz with
      | none => left; rfl
      | some b =>
        simp only
        by_cases hb : smallSizeClasses.length ≤ b
        · rw [if_pos hb]; left; rfl
        · rw [if_neg hb]
          cases hp : td.popCache b with
          | error e =>
            left
            simp [lockViolations, Lock.level]
          | ok v =>
            obtain ⟨out, td1⟩ := v
            simp only
            by_cases h0 : out ≠ 0
            · rw [if_pos h0]
              left
              simp [lockViolations, Lock.level, ThreadDescriptor.popCacheLocks]
            · rw [if_neg h0]
              cases hfl : s.arena.bins b with
              | nil => exact Or.inr ⟨b, hfl, bin_allocate_locks_empty b⟩
              | cons x rest =>
                left
                simp [lockViolations, Lock.level, ThreadDescriptor.popCacheLocks,
                  Bin.allocateLocks]
  have hsuf : ∀ td sz, ∀ e ∈ (match Arena.allocate s.arena td sz 0 with
      | .ok _ => [LockEvent.unlock .mutMelloc]
      | .error _ => []), ∃ l, e = LockEvent.unlock l := by
    intro td sz e he
    cases hd : Arena.allocate s.arena td sz 0 with
    | ok r =>
      rw [hd] at he
      exact ⟨_, List.mem_singleton.1 he⟩
    | error x =>
      rw [hd] at he
      cases he
  unfold allocateLocks
  cases hr : roundup n with
  | none => left; rfl
  | some sz =>
    cases ht : s.threadDescriptor with
    | some td =>
      simp only
      have hk := key td sz _ (hsuf td sz)
      have he : ∀ t, lockViolations [] ([LockEvent.lockShared Lock.mutMelloc] ++ t)
          = lockViolations [.mutMelloc] t := by
        intro t
        rfl
      rw [List.append_assoc, he]
      exact hk
    | none =>
      simp only
      have hk := key ThreadDescriptor.new sz _ (hsuf ThreadDescriptor.new sz)
      have he : ∀ t, lockViolations []
          ([LockEvent.lockShared Lock.mutMelloc, .unlock .mutMelloc, .lock .mutMelloc,
            .unlock .mutMelloc, .lockShared .mutMelloc] ++ t)
          = lockViolations [.mutMelloc] t := by
        intro t
        simp [lockViolations, Lock.level]
      rw [List.append_assoc, he]
      exact hk

/-- C32, at the failing path: a thread makes 32 calls `allocate(3000)` on a
freshly constructed allocator, which use up the slab of bin 24, and calls
`allocate(3000)` again. The call takes `mutMelloc` (shared), takes and
releases the spin flag 24 in `popCache`, takes `mutBin` of bin 24 in
`Bin::allocate()`, and, the free-list being empty, takes `mutArena` at line 78
of bin.cpp while it holds `mutBin`: the arena lock is acquired after, and
under, a bin mutex. -/
theorem arena_lock_under_bin_mutex :
    ((Run.new (contiguousBreak exampleBreak)).steps
        (List.replicate 32 (Op.allocate 3000 0))).map
        (fun r => (r.state.arena.bins 24, allocateLocks r.state 3000,
          lockViolations [] (allocateLocks r.state 3000)))
      = some ([],
          [.lockShared .mutMelloc, .lock (.usedFlag 24), .unlock (.usedFlag 24),
            .lock (.mutBin 24), .lock .mutArena, .unlock .mutArena, .unlock (.mutBin 24),
            .unlock .mutMelloc],
          [(.mutBin 24, .mutArena)]) ∧
    Lock.level .mutArena < Lock.level (.mutBin 24) := by
  decide

/-! ## Theorems: alignment of large requests, fresh slabs, construction -/

/-- C6, at the failing input: from an allocator constructed at the page-aligned
break 0x555555559000, `allocate(8)` returns the first chunk of bin 0, at
93824992251904, and `allocate(4294963201)`, a large request
(`isLargeSize` holds of it), returns 93824992251912, which is 8 modulo
`PAGE_SIZE`, not 0: `roundup(4294963201)` is 0, because the mask `PAGE_MASK`
clears the bits from 32 up, so the request is served from bin 0 as a small
one. -/
theorem large_request_unaligned :
    exampleBreak % PAGE_SIZE = 0 ∧
    isLargeSize 4294963201 = true ∧
    roundup 4294963201 = some 0 ∧
    ((Run.new (contiguousBreak exampleBreak)).steps
        [.allocate 8 0, .allocate 4294963201 0]).map (fun r => r.returned)
      = some [(93824992251912, 4294963201), (93824992251904, 8)] ∧
    ((Run.new (contiguousBreak exampleBreak)).steps
        [.allocate 8 0, .allocate 4294963201 0]).map (fun r => r.state.osCalls.drop 28)
      = some [] ∧
    93824992251912 % PAGE_SIZE = 8 := by
  decide

/-- C20, at the failing input: in an allocator constructed at the break
0x2000000, a large allocation mapped at 0x40000000 is freed, which unmaps it
and leaves its descriptor `(0x40000000, 8192)` in the index, and 32 calls
`allocate(3000)` empty the free-list of bin 24. The next `allocate(3000)`
reaches `Bin::allocate()` with the empty free-list, and `mmap` returns the
unmapped address 0x40000000 for the slab. The call returns that base and leaves
the free-list `(base + 3072, 31)`, but the slab descriptor
`(getPage(base), 24, 24)` is not in the index: `emplace` finds the key of the
stale descriptor and inserts nothing. A `deallocate` of the chunk returned then
calls `munmap(base, 8192)` on the slab instead of pushing the chunk to the
cache. -/
theorem slab_descriptor_not_inserted :
    ((Run.new (contiguousBreak lowBreak)).steps freedMappingRun).map
        (fun r => (r.state.arena.bins 24,
          decide (PageDescriptor.large 0x40000000 8192 ∈ r.state.arena.arenaUsedPages)))
      = some ([], true) ∧
    ((Run.new (contiguousBreak lowBreak)).steps
        (freedMappingRun ++ [.allocate 3000 0x40000000])).map
        (fun r => (r.returned.head?, r.state.arena.bins 24, r.state.osCalls.drop 28))
      = some (some (0x40000000, 3000), [(0x40000000 + 3072, 31)],
          [.mmap 8192 0x40000000, .munmap 0x40000000 8192, .mmap 98304 0x40000000]) ∧
    ((Run.new (contiguousBreak lowBreak)).steps
        (freedMappingRun ++ [.allocate 3000 0x40000000])).map
        (fun r =>
          (decide (PageDescriptor.slab (getPage 0x40000000) 24
              (slabSize (sizeClassOf 24) / PAGE_SIZE) ∈ r.state.arena.arenaUsedPages),
            UsedPages.lowerBound r.state.arena.arenaUsedPages (getPage 0x40000000)))
      = some (false, some (.large 0x40000000 8192)) ∧
    ((Run.new (contiguousBreak lowBreak)).steps
        (freedMappingRun ++ [.allocate 3000 0x40000000, .deallocate 0x40000000])).map
        (fun r => (r.state.osCalls.getLast?,
          r.state.threadDescriptor.map (fun td => td.topIdxs 24)))
      = some (some (.munmap 0x40000000 8192), some 0) ∧
    (Bin.allocate 24 [] [.large 0x40000000 8192] 0x40000000).arenaUsedPages
      = [.large 0x40000000 8192] := by
  decide

end Melloc
